import Mathlib

/-! # gitbase: files and blobs tables

A shallow embedding of `files.go` and `blobs.go`: the composite index key
codec of the files table, the content materialization policy, and the row
iterators (full scan, selector scan, index build, index-driven scan).

Go values are embedded as follows.  A Go `string` and a `[]byte` are lists of
bytes, an `int64` is an `Int` (wrapped modulo `2^64` where it is serialized),
a `(value, error)` result is an `Except`, and a cursor of the object store is
the list of results its `Next` returns.

The definitions come first, the theorems follow.
-/

set_option autoImplicit false

namespace Gitbase

/-! ## Basic types -/

/-- A byte. -/
abbrev Byte := Fin 256

/-- A Go `string`: an immutable sequence of bytes. -/
abbrev Str := List Byte

/-- The errors that the tables see.  `eof` is `io.EOF`, `notFound` is
`plumbing.ErrObjectNotFound`, `io` stands for any store-access failure. -/
inductive Err where
  | eof
  | notFound
  | decoding
  | invalidHash
  | invalidObjectType
  | io (code : Nat)
  deriving DecidableEq, Repr

instance instDecidableEqExcept {ε α : Type} [DecidableEq ε] [DecidableEq α] :
    DecidableEq (Except ε α) := fun a b =>
  match a, b with
  | .ok x, .ok y => if h : x = y then isTrue (by rw [h]) else isFalse (fun e => h (by cases e; rfl))
  | .error x, .error y =>
    if h : x = y then isTrue (by rw [h]) else isFalse (fun e => h (by cases e; rfl))
  | .ok _, .error _ => isFalse (fun e => by cases e)
  | .error _, .ok _ => isFalse (fun e => by cases e)

/-- The byte with value `n mod 256`. -/
def byteOf (n : Nat) : Byte := ⟨n % 256, Nat.mod_lt _ (by decide)⟩

/-! ## Hexadecimal text (`encoding/hex`) and `plumbing.Hash` -/

/-- The lower-case hexadecimal digit of a nibble (`hex.EncodeToString`). -/
def hexDigit (n : Nat) : Byte := if n < 10 then byteOf (48 + n) else byteOf (87 + n)

/-- The value of a hexadecimal digit, of either case (`hex.DecodeString`). -/
def hexVal (c : Byte) : Option Nat :=
  if 48 ≤ c.val ∧ c.val ≤ 57 then some (c.val - 48)
  else if 97 ≤ c.val ∧ c.val ≤ 102 then some (c.val - 87)
  else if 65 ≤ c.val ∧ c.val ≤ 70 then some (c.val - 55)
  else none

/-- The text of a byte sequence, two lower-case digits per byte
(`hex.EncodeToString`). -/
def hexEncode : List Byte → Str
  | [] => []
  | b :: bs => hexDigit (b.val / 16) :: hexDigit (b.val % 16) :: hexEncode bs

/-- The bytes of a hexadecimal text with a flag telling whether all of the text
was well formed; on a bad digit or an odd length the bytes decoded so far are
returned with `false` (`hex.DecodeString`). -/
def hexDecode : Str → List Byte × Bool
  | [] => ([], true)
  | [_] => ([], false)
  | a :: b :: rest =>
    match hexVal a, hexVal b with
    | some x, some y => (byteOf (16 * x + y) :: (hexDecode rest).1, (hexDecode rest).2)
    | _, _ => ([], false)

/-- The size of a hash in bytes. -/
def hashSize : Nat := 20

/-- A `plumbing.Hash`: an array of 20 bytes. -/
structure Hash where
  bytes : List Byte
  size_eq : bytes.length = hashSize
  deriving DecidableEq

/-- Copy of a byte sequence into a 20 byte array: truncated or zero padded. -/
def fit20 (bs : List Byte) : List Byte := (bs ++ List.replicate hashSize 0).take hashSize

/-- The text of a hash: `plumbing.Hash.String`. -/
def Hash.String (h : Hash) : Str := hexEncode h.bytes

/-- The hash of a text: `plumbing.NewHash`, which ignores a decoding error. -/
def NewHash (s : Str) : Hash := ⟨fit20 (hexDecode s).1, by simp [fit20, hashSize]⟩

/-- The zero hash: `plumbing.ZeroHash`. -/
def ZeroHash : Hash := ⟨List.replicate hashSize 0, by simp⟩

/-! ## Index key serialization primitives -/

/-- The `w` low bytes of `u`, least significant first. -/
def leBytes : Nat → Nat → List Byte
  | 0, _ => []
  | w + 1, u => byteOf u :: leBytes w (u / 256)

/-- The number that a little-endian byte sequence denotes. -/
def leValue : List Byte → Nat
  | [] => 0
  | b :: bs => b.val + 256 * leValue bs

/-- The unsigned 64 bit pattern of an `int64`. -/
def int64Bits (n : Int) : Nat := (n % 2 ^ 64).toNat

/-- The `int64` of an unsigned 64 bit pattern (two's complement). -/
def int64OfBits (u : Nat) : Int := if u < 2 ^ 63 then (u : Int) else (u : Int) - 2 ^ 64

/-- The fixed-width encoding of an `int64`: 8 bytes. -/
def encInt64 (n : Int) : List Byte := leBytes 8 (int64Bits n)

/-- The encoding of a boolean: one byte. -/
def encBool (b : Bool) : List Byte := [if b then 1 else 0]

/-- The length-prefixed encoding of a string. -/
def encString (s : Str) : List Byte := encInt64 (s.length : Int) ++ s

/-- The fixed-width encoding of a hash given as text, when the text is the
hexadecimal form of 20 bytes. -/
def encHash (s : Str) : Except Err (List Byte) :=
  if (hexDecode s).2 = true ∧ (hexDecode s).1.length = hashSize then .ok (hexDecode s).1
  else .error .invalidHash

/-- Modelled from the spec: `writeInt64` (not in the two source files); the
codec writes an integer as a fixed-width field appended to the buffer. -/
def writeInt64 (buf : List Byte) (n : Int) : List Byte := buf ++ encInt64 n

/-- Modelled from the spec: `writeBool` (not in the two source files); the
packed/loose discriminator is one boolean field appended to the buffer. -/
def writeBool (buf : List Byte) (b : Bool) : List Byte := buf ++ encBool b

/-- Modelled from the spec: `writeString` (not in the two source files); a
string is written length-prefixed. -/
def writeString (buf : List Byte) (s : Str) : List Byte := buf ++ encString s

/-- Modelled from the spec: `writeHash` (not in the two source files); a hash
is written as a fixed-width field and a text that is not a hash is an error. -/
def writeHash (buf : List Byte) (s : Str) : Except Err (List Byte) :=
  match encHash s with
  | .ok bs => .ok (buf ++ bs)
  | .error e => .error e

/-- Modelled from the spec: `readInt64` (not in the two source files); reads a
fixed-width integer and rejects a truncated input with a decoding error. -/
def readInt64 (buf : List Byte) : Except Err (Int × List Byte) :=
  if buf.length < 8 then .error .decoding
  else .ok (int64OfBits (leValue (buf.take 8)), buf.drop 8)

/-- Modelled from the spec: `readBool` (not in the two source files); reads the
one byte discriminator, validates it, and rejects a truncated or malformed
input with a decoding error. -/
def readBool (buf : List Byte) : Except Err (Bool × List Byte) :=
  match buf with
  | [] => .error .decoding
  | b :: rest =>
    if b = 1 then .ok (true, rest)
    else if b = 0 then .ok (false, rest)
    else .error .decoding

/-- Modelled from the spec: `readString` (not in the two source files); reads a
length-prefixed string and rejects a truncated input or a negative length with
a decoding error. -/
def readString (buf : List Byte) : Except Err (Str × List Byte) :=
  match readInt64 buf with
  | .error e => .error e
  | .ok (n, rest) =>
    if n < 0 ∨ (rest.length : Int) < n then .error .decoding
    else .ok (rest.take n.toNat, rest.drop n.toNat)

/-- Modelled from the spec: `readHash` (not in the two source files); reads a
fixed-width hash and returns its text, rejecting a truncated input with a
decoding error. -/
def readHash (buf : List Byte) : Except Err (Str × List Byte) :=
  if buf.length < hashSize then .error .decoding
  else .ok (hexEncode (buf.take hashSize), buf.drop hashSize)

/-! ## The index key of the files table -/

/-- The index key of a file: `fileIndexKey`. -/
structure fileIndexKey where
  Repository : Str
  Packfile : Str
  Hash : Str
  Offset : Int
  Name : Str
  Mode : Int
  Tree : Str
  deriving DecidableEq

/-- Serialization of a file index key: `fileIndexKey.encode`. -/
def fileIndexKey.encode (k : fileIndexKey) : Except Err (List Byte) := do
  let buf : List Byte := []
  let buf := writeString buf k.Repository
  let buf ← writeHash buf k.Packfile
  let buf := writeBool buf (decide (k.Offset ≥ 0))
  let buf ← if k.Offset ≥ 0 then pure (writeInt64 buf k.Offset) else writeHash buf k.Hash
  let buf := writeString buf k.Name
  let buf := writeInt64 buf k.Mode
  let buf ← writeHash buf k.Tree
  return buf

/-- Deserialization of a file index key: `fileIndexKey.decode`.  The Go method
fills the receiver; the embedding returns the filled key. -/
def fileIndexKey.decode (data : List Byte) : Except Err fileIndexKey := do
  let buf := data
  let (repository, buf) ← readString buf
  let (packfile, buf) ← readHash buf
  let (ok, buf) ← readBool buf
  let (hash, offset, buf) ←
    if ok then do
      let (offset, buf) ← readInt64 buf
      pure (([] : Str), offset, buf)
    else do
      let (hash, buf) ← readHash buf
      pure (hash, (-1 : Int), buf)
  let (name, buf) ← readString buf
  let (mode, buf) ← readInt64 buf
  let (tree, _) ← readHash buf
  return { Repository := repository, Packfile := packfile, Hash := hash, Offset := offset,
           Name := name, Mode := mode, Tree := tree }

/-- An `int64` value. -/
def IsInt64 (n : Int) : Prop := -(2 ^ 63) ≤ n ∧ n < 2 ^ 63

instance (n : Int) : Decidable (IsInt64 n) := by unfold IsInt64; infer_instance

/-- A lower-case hexadecimal digit. -/
def IsLowerHex (c : Byte) : Prop := (48 ≤ c.val ∧ c.val ≤ 57) ∨ (97 ≤ c.val ∧ c.val ≤ 102)

instance (c : Byte) : Decidable (IsLowerHex c) := by unfold IsLowerHex; infer_instance

/-- A well-formed hash text: 40 lower-case hexadecimal digits, the form that
`plumbing.Hash.String` produces. -/
def WellFormedHash (s : Str) : Prop := s.length = 2 * hashSize ∧ ∀ c ∈ s, IsLowerHex c

instance (s : Str) : Decidable (WellFormedHash s) := by unfold WellFormedHash; infer_instance

/-- What the Go types impose on a key: the integers are `int64` and a string is
shorter than `2^63` bytes. -/
def fileIndexKey.WellTyped (k : fileIndexKey) : Prop :=
  IsInt64 k.Offset ∧ IsInt64 k.Mode ∧
  (k.Repository.length : Int) < 2 ^ 63 ∧ (k.Name.length : Int) < 2 ^ 63

instance (k : fileIndexKey) : Decidable k.WellTyped := by
  unfold fileIndexKey.WellTyped; infer_instance

/-- A valid file index key: the pack file and the tree are well-formed hashes and
the object reference is either packed (offset at least 0, no hash) or loose
(negative offset, a well-formed hash). -/
def fileIndexKey.Valid (k : fileIndexKey) : Prop :=
  k.WellTyped ∧ WellFormedHash k.Packfile ∧ WellFormedHash k.Tree ∧
  ((0 ≤ k.Offset ∧ k.Hash = []) ∨ (k.Offset < 0 ∧ WellFormedHash k.Hash))

instance (k : fileIndexKey) : Decidable k.Valid := by
  unfold fileIndexKey.Valid; infer_instance

/-! ## Sample keys -/

/-- The text of the zero hash: forty `0` digits. -/
def zeroHashText : Str := List.replicate 40 48

/-- A packed key: offset 12 in a pack file. -/
def samplePackedKey : fileIndexKey :=
  { Repository := [114], Packfile := zeroHashText, Hash := [], Offset := 12,
    Name := [97], Mode := 33188, Tree := zeroHashText }

/-- A loose key with the sentinel offset `-1`. -/
def sampleLooseKey : fileIndexKey :=
  { Repository := [114], Packfile := zeroHashText, Hash := zeroHashText, Offset := -1,
    Name := [97], Mode := 33188, Tree := zeroHashText }

/-- The bytes of the loose sample key. -/
def sampleLooseKeyBytes : List Byte :=
  match sampleLooseKey.encode with
  | .ok bs => bs
  | .error _ => []

/-- A loose key with another negative offset. -/
def sampleLooseKey2 : fileIndexKey :=
  { Repository := [114], Packfile := zeroHashText, Hash := zeroHashText, Offset := -2,
    Name := [97], Mode := 33188, Tree := zeroHashText }

/-- Key bytes with the discriminator set and the offset field holding `-1`. -/
def negativeOffsetBytes : List Byte :=
  encString [] ++ List.replicate 20 0 ++ [1] ++ List.replicate 8 255 ++ encString [] ++
    encInt64 0 ++ List.replicate 20 0

/-- A reader `R` reads the field `enc` as `v`: it consumes exactly `enc`, and a
strict prefix of `enc` is a decoding error. -/
def Reads {α : Type} (R : List Byte → Except Err (α × List Byte)) (enc : List Byte) (v : α) :
    Prop :=
  (∀ rest, R (enc ++ rest) = .ok (v, rest)) ∧
  (∀ p, p <+: enc → p ≠ enc → R p = .error .decoding)

/-! ## Objects of the store (`go-git`) -/

/-- The content of an opened blob reader: the bytes it yields and how it ends,
with `io.EOF` (`none`) or with a read error. -/
structure ByteSource where
  data : List Byte
  tail : Option Err

/-- A blob, `object.Blob`: hash, size, and what `Reader()` returns. -/
structure Blob where
  Hash : Hash
  Size : Int
  Reader : Except Err ByteSource

/-- All the bytes of a source: `ioutil.ReadAll`. -/
def ReadAll (r : ByteSource) : Except Err (List Byte) :=
  match r.tail with
  | none => .ok r.data
  | some e => if e = Err.eof then .ok r.data else .error e

/-- A blob whose content is read without I/O error. -/
def Blob.Readable (c : Blob) (data : List Byte) : Prop :=
  c.Reader = .ok { data := data, tail := none }

/-- A cell of a row. -/
inductive Value where
  | text (s : Str)
  | bytes (b : List Byte)
  | int (n : Int)
  deriving DecidableEq

/-- A row, `sql.Row`: the cells in schema order. -/
abbrev Row := List Value

/-- What a `Next` returns to its caller: a value, an error (`Err.eof` is the end
of the sequence), or no return at all because a nil pointer was dereferenced. -/
inductive Outcome (α : Type) where
  | ok (a : α)
  | err (e : Err)
  | nilPanic
  deriving DecidableEq

/-- A cursor of the object store: the items still to come and how the cursor
ends, with `io.EOF` (`none`) or with an error. -/
structure Cursor (α : Type) where
  items : List α
  tail : Option Err

/-- One call of a cursor's `Next`: the Go pair `(value, err)`, where the value is
nil when `err` is set, and the cursor after the call. -/
def Cursor.Next {α : Type} (c : Cursor α) : (Option α × Option Err) × Cursor α :=
  match c.items with
  | x :: xs => ((some x, none), { c with items := xs })
  | [] =>
    match c.tail with
    | none => ((none, some Err.eof), c)
    | some e => ((none, some e), c)

/-! ## Content policy (`blobs.go`) -/

/-- The two settings of the content policy: `blobsAllowBinary`, `blobsMaxSize`. -/
structure Config where
  blobsAllowBinary : Bool
  blobsMaxSize : Int

/-- The number of leading bytes that `isBinary` looks at. -/
def sniffLen : Nat := 8000

/-- The loop of `isBinary`: `i` bytes were read, `rd` are the bytes still in the
reader and `tail` is how the reader ends. -/
def isBinaryLoop (tail : Option Err) : Nat → List Byte → Except Err Bool
  | i, [] =>
    if i ≥ sniffLen then .ok false
    else match tail with
      | none => .ok false
      | some e => if e = Err.eof then .ok false else .error e
  | i, b :: rest =>
    if i ≥ sniffLen then .ok false
    else if b = 0 then .ok true
    else isBinaryLoop tail (i + 1) rest

/-- Whether a blob is binary: `isBinary`. -/
def isBinary (blob : Blob) : Except Err Bool :=
  match blob.Reader with
  | .error e => .error e
  | .ok r => isBinaryLoop r.tail 0 r.data

/-- The content cell of a blob: `blobContent`. -/
def blobContent (cfg : Config) (c : Blob) (readContent : Bool) : Except Err (List Byte) := do
  let content : List Byte := []
  let isAllowed := cfg.blobsAllowBinary
  let isAllowed ←
    if !isAllowed && readContent then do
      let ok ← isBinary c
      pure (!ok)
    else pure isAllowed
  if decide (c.Size ≤ cfg.blobsMaxSize) && isAllowed && readContent then do
    let r ← c.Reader
    let content ← ReadAll r
    pure content
  else pure content

/-- The row of a blob: `blobToRow`. -/
def blobToRow (cfg : Config) (repoID : Str) (c : Blob) (readContent : Bool) :
    Except Err Row := do
  let content ← blobContent cfg c readContent
  pure [Value.text repoID, Value.text c.Hash.String, Value.int c.Size, Value.bytes content]

/-- The condition under which the content policy materializes a content `data`:
the content is requested, the size is within the maximum, and binary content is
allowed or none of the first `sniffLen` bytes is zero. -/
def ContentPolicy (cfg : Config) (readContent : Bool) (size : Int) (data : List Byte) : Prop :=
  readContent = true ∧ size ≤ cfg.blobsMaxSize ∧
    (cfg.blobsAllowBinary = true ∨ ∀ b ∈ data.take sniffLen, b ≠ 0)

instance (cfg : Config) (rc : Bool) (size : Int) (data : List Byte) :
    Decidable (ContentPolicy cfg rc size data) := by
  unfold ContentPolicy; infer_instance

/-- The settings of the content policy examples: at most 10 bytes, no binary. -/
def sampleConfig : Config := { blobsAllowBinary := false, blobsMaxSize := 10 }

/-- A readable blob with the given bytes, whose size is their number. -/
def blobOf (data : List Byte) : Blob :=
  { Hash := ZeroHash, Size := (data.length : Int), Reader := .ok { data := data, tail := none } }

/-! ## Trees, commits and repositories (`go-git`) -/

/-- A file of a tree, `object.File`: name, mode (a `uint32`) and blob. -/
structure File where
  Name : Str
  Mode : Nat
  Blob : Blob

/-- A commit, `object.Commit`: the hash of its tree and what `Files()` returns. -/
structure Commit where
  TreeHash : Hash
  Files : Except Err (Cursor File)

/-- A repository: its identifier and what the object store returns for the
commit walk, the blob walk and the lookup of a blob by hash. -/
structure Repository where
  ID : Str
  CommitObjects : Except Err (Cursor Commit)
  BlobObjects : Except Err (Cursor Blob)
  BlobObject : Hash → Except Err Blob

/-- The text of a file mode: `filemode.FileMode.String`, seven octal digits. -/
def FileMode.String (m : Nat) : Str :=
  let ds := (Nat.toDigits 8 (m % 2 ^ 32)).map (fun c => byteOf c.toNat)
  List.replicate (7 - ds.length) 48 ++ ds

/-- Modelled from the spec: `stringContains` (not in the two source files);
whether a selector list of strings contains a value. -/
def stringContains (l : List Str) (s : Str) : Bool := decide (s ∈ l)

/-- Modelled from the spec: `hashContains` (not in the two source files);
whether a selector list of hashes contains a hash. -/
def hashContains (l : List Hash) (h : Hash) : Bool := decide (h ∈ l)

/-! ## The files table: full and selector scan (`files.go`) -/

/-- The row of a file: `fileToRow`. -/
def fileToRow (cfg : Config) (repoID : Str) (treeHash : Hash) (file : File)
    (readContent : Bool) : Except Err Row := do
  let content ← blobContent cfg file.Blob readContent
  pure [Value.text repoID, Value.text file.Name, Value.text file.Blob.Hash.String,
    Value.text treeHash.String, Value.text (FileMode.String file.Mode), Value.bytes content,
    Value.int file.Blob.Size]

/-- The iterator of the files table: `filesIter`.  `seen` is the set of the
hashes of the trees already expanded, most recent first. -/
structure filesIter where
  repo : Option Repository
  commits : Option (Cursor Commit)
  seen : List Hash
  files : Option (Cursor File)
  treeHash : Hash
  readContent : Bool
  repos : List Str
  filePaths : List Str
  blobHashes : List Hash
  treeHashes : List Hash

/-- The iterator of one repository: `filesIter.NewIterator`. -/
def filesIter.NewIterator (i : filesIter) (repo : Repository) : Except Err filesIter := do
  let iter ←
    if i.repos.length = 0 ∨ stringContains i.repos repo.ID = true then do
      let iter ← repo.CommitObjects
      pure (some iter)
    else pure none
  pure { repo := some repo, commits := iter, seen := [], files := none, treeHash := ZeroHash,
         readContent := i.readContent, repos := [], filePaths := i.filePaths,
         blobHashes := i.blobHashes, treeHashes := i.treeHashes }

/-- Whether a tree is to be expanded: `filesIter.shouldVisitTree`. -/
def filesIter.shouldVisitTree (i : filesIter) (hash : Hash) : Bool :=
  if hash ∈ i.seen then false
  else if i.treeHashes.length > 0 ∧ hashContains i.treeHashes hash = false then false
  else true

/-- Whether a file is to be emitted: `filesIter.shouldVisitFile`. -/
def filesIter.shouldVisitFile (i : filesIter) (file : File) : Bool :=
  if i.filePaths.length > 0 ∧ stringContains i.filePaths file.Name = false then false
  else if i.blobHashes.length > 0 ∧ hashContains i.blobHashes file.Blob.Hash = false then false
  else true

/-- The end of an iteration of `filesIter.Next`, from `shouldVisitFile` on a
file that is not nil: the row of the file. -/
def filesIter.emit (cfg : Config) (i : filesIter) (f : File) : Outcome Row :=
  match i.repo with
  | none => .nilPanic
  | some repo =>
    match fileToRow cfg repo.ID i.treeHash f i.readContent with
    | .ok row => .ok row
    | .error e => .err e

/-- The iterations of the outer loop of `filesIter.Next` while `i.files` is not
nil: `fs` and `tail` are what the file cursor still holds.  The result is `none`
when the cursor reached its end (`i.files = nil; continue`), and the outcome of
`Next` otherwise.  After an error that is not `io.EOF` the loop goes on with a
nil file, which `shouldVisitFile` or `fileToRow` dereferences. -/
def filesIter.filesLoop (cfg : Config) (i : filesIter) :
    List File → Option Err → Option (Outcome Row) × filesIter
  | [], none => (none, { i with files := none })
  | [], some e =>
    if e = Err.eof then (none, { i with files := none })
    else (some .nilPanic, { i with files := some { items := [], tail := some e } })
  | f :: fs, tail =>
    if (filesIter.shouldVisitFile i f) = false then
      filesIter.filesLoop cfg { i with files := some { items := fs, tail := tail } } fs tail
    else
      (some (filesIter.emit cfg i f), { i with files := some { items := fs, tail := tail } })

/-- The iterations of `filesIter.Next` from the point where `i.files` is nil:
the inner loop over the commits and, once a tree is chosen, the loop over its
files; `cs` and `tail` are what the commit cursor still holds. -/
def filesIter.commitsLoop (cfg : Config) (i : filesIter) :
    List Commit → Option Err → Outcome Row × filesIter
  | [], none => (.err Err.eof, { i with commits := some { items := [], tail := none } })
  | [], some e => (.err e, { i with commits := some { items := [], tail := some e } })
  | c :: cs, tail =>
    if (filesIter.shouldVisitTree i c.TreeHash) = false then
      filesIter.commitsLoop cfg { i with commits := some { items := cs, tail := tail } } cs tail
    else
      match c.Files with
      | .error e =>
        (.err e, { i with commits := some { items := cs, tail := tail },
                          treeHash := c.TreeHash, seen := c.TreeHash :: i.seen, files := none })
      | .ok fc =>
        match filesIter.filesLoop cfg
            { i with commits := some { items := cs, tail := tail }, treeHash := c.TreeHash,
                     seen := c.TreeHash :: i.seen, files := some fc } fc.items fc.tail with
        | (some out, i') => (out, i')
        | (none, i') => filesIter.commitsLoop cfg i' cs tail

/-- One call of `filesIter.Next`. -/
def filesIter.Next (cfg : Config) (i : filesIter) : Outcome Row × filesIter :=
  match i.commits with
  | none => (.err Err.eof, i)
  | some cc =>
    match i.files with
    | none => filesIter.commitsLoop cfg i cc.items cc.tail
    | some fc =>
      match filesIter.filesLoop cfg i fc.items fc.tail with
      | (some out, i') => (out, i')
      | (none, i') => filesIter.commitsLoop cfg i' cc.items cc.tail

/-- How the draining of an iterator ends: with the error that `Next` returned
(`Err.eof` is the end of the sequence), with a nil dereference, or with the
bound on the number of calls used up. -/
inductive DrainEnd where
  | stopped (e : Err)
  | nilPanic
  | outOfFuel
  deriving DecidableEq

/-- The values of at most `fuel` calls of `next`, up to the first call that does
not return a value; how the draining ends; the state of the iterator then. -/
def drain {α σ : Type} (next : σ → Outcome α × σ) : Nat → σ → List α × DrainEnd × σ
  | 0, s => ([], .outOfFuel, s)
  | n + 1, s =>
    match next s with
    | (.ok r, s') => (r :: (drain next n s').1, (drain next n s').2.1, (drain next n s').2.2)
    | (.err e, s') => ([], .stopped e, s')
    | (.nilPanic, s') => ([], .nilPanic, s')

/-! ## The blobs table: scan by hash (`blobs.go`) -/

/-- The iterator of the blobs with the given hashes: `blobsByHashIter`. -/
structure blobsByHashIter where
  repo : Option Repository
  pos : Nat
  hashes : List Str
  readContent : Bool

/-- The iterator of one repository: `blobsByHashIter.NewIterator`. -/
def blobsByHashIter.NewIterator (i : blobsByHashIter) (repo : Repository) :
    Except Err blobsByHashIter :=
  pure { repo := some repo, pos := 0, hashes := i.hashes, readContent := i.readContent }

/-- The loop of `blobsByHashIter.Next`; `rest` is `i.hashes` from `i.pos` on. -/
def blobsByHashIter.loop (cfg : Config) (i : blobsByHashIter) :
    List Str → Outcome Row × blobsByHashIter
  | [] => (.err Err.eof, i)
  | h :: rest =>
    match i.repo with
    | none => (.nilPanic, { i with pos := i.pos + 1 })
    | some repo =>
      match repo.BlobObject (NewHash h) with
      | .error e =>
        if e = Err.notFound then blobsByHashIter.loop cfg { i with pos := i.pos + 1 } rest
        else (.err e, { i with pos := i.pos + 1 })
      | .ok blob =>
        match blobToRow cfg repo.ID blob i.readContent with
        | .ok row => (.ok row, { i with pos := i.pos + 1 })
        | .error e => (.err e, { i with pos := i.pos + 1 })

/-- One call of `blobsByHashIter.Next`. -/
def blobsByHashIter.Next (cfg : Config) (i : blobsByHashIter) : Outcome Row × blobsByHashIter :=
  blobsByHashIter.loop cfg i (i.hashes.drop i.pos)

/-- The row that a selector hash yields in a repository, if any: the row of the
blob that the hash names, when the lookup finds one and its row is built. -/
def rowOfSelector (cfg : Config) (repo : Repository) (readContent : Bool) (h : Str) :
    Option Row :=
  match repo.BlobObject (NewHash h) with
  | .ok blob =>
    match blobToRow cfg repo.ID blob readContent with
    | .ok row => some row
    | .error _ => none
  | .error _ => none

/-- A selector hash that is skipped or yields a row: the lookup reports
not-found, or finds a blob whose row is built without error. -/
def SelectorOk (cfg : Config) (repo : Repository) (readContent : Bool) (h : Str) : Prop :=
  repo.BlobObject (NewHash h) = .error Err.notFound ∨
  ∃ blob row, repo.BlobObject (NewHash h) = .ok blob ∧
    blobToRow cfg repo.ID blob readContent = .ok row

/-- A repository with one blob, found under the zero hash only. -/
def sampleBlobRepo : Repository :=
  { ID := [114],
    CommitObjects := .ok { items := [], tail := none },
    BlobObjects := .ok { items := [blobOf [104, 105]], tail := none },
    BlobObject := fun h => if h = ZeroHash then .ok (blobOf [104, 105]) else .error Err.notFound }

/-- The text of a hash that names no blob of the sample repository. -/
def missingHashText : Str := List.replicate 40 102

/-- A scan by hash for the zero hash and for a hash that names no blob. -/
def sampleByHash : blobsByHashIter :=
  { repo := none, pos := 0, hashes := [zeroHashText, missingHashText], readContent := true }

/-! ## Description of a scan of the files table -/

/-- The files of a commit: the items of the cursor that `Files()` returns. -/
def Commit.files (c : Commit) : List File :=
  match c.Files with
  | .ok fc => fc.items
  | .error _ => []

/-- A commit whose tree is read without error: `Files()` succeeds, its cursor ends
with `io.EOF`, and the content of every blob is read without I/O error. -/
def Commit.ErrorFree (c : Commit) : Prop :=
  c.Files = .ok { items := c.files, tail := none } ∧ ∀ f ∈ c.files, ∃ data, f.Blob.Readable data

/-- A repository whose commit walk returns the commits `cs` and ends with
`io.EOF`, every commit being read without error. -/
def Repository.ErrorFree (repo : Repository) (cs : List Commit) : Prop :=
  repo.CommitObjects = .ok { items := cs, tail := none } ∧ ∀ c ∈ cs, c.ErrorFree

/-- The cells of the row of a file, the content cell being what `blobContent`
returns and empty when it fails. -/
def fileRow (cfg : Config) (repoID : Str) (readContent : Bool) (treeHash : Hash) (f : File) :
    Row :=
  [Value.text repoID, Value.text f.Name, Value.text f.Blob.Hash.String,
    Value.text treeHash.String, Value.text (FileMode.String f.Mode),
    Value.bytes (match blobContent cfg f.Blob readContent with
      | .ok content => content
      | .error _ => []),
    Value.int f.Blob.Size]

/-- The commits whose tree a scan expands, in walk order: those whose tree hash
is not in `seen`, did not occur earlier in the walk, and passes the tree
selector of `i`. -/
def expanded (i : filesIter) : List Hash → List Commit → List Commit
  | _, [] => []
  | seen, c :: cs =>
    if filesIter.shouldVisitTree { i with seen := seen } c.TreeHash = true then
      c :: expanded i (c.TreeHash :: seen) cs
    else expanded i seen cs

/-- The rows of the files of one tree that pass the file selectors of `i`. -/
def treeRows (cfg : Config) (repoID : Str) (i : filesIter) (treeHash : Hash) (fs : List File) :
    List Row :=
  (fs.filter (fun f => filesIter.shouldVisitFile i f)).map
    (fileRow cfg repoID i.readContent treeHash)

/-- The rows of a scan of the commits `cs` with the selectors of `i`. -/
def scanRows (cfg : Config) (repoID : Str) (i : filesIter) (seen : List Hash)
    (cs : List Commit) : List Row :=
  (expanded i seen cs).flatMap (fun c => treeRows cfg repoID i c.TreeHash c.files)

/-- The state of a `filesIter` in the middle of an error-free scan: the trees
seen, the tree being expanded, the files of it still to come (`none` when
`i.files` is nil) and the commits still to come. -/
def filesIter.during (b : filesIter) (seen : List Hash) (treeHash : Hash)
    (fo : Option (List File)) (cs : List Commit) : filesIter :=
  { b with seen := seen, treeHash := treeHash,
           files := fo.map (fun fs => { items := fs, tail := none }),
           commits := some { items := cs, tail := none } }

/-- A `filesIter` without selectors, as `RowIter` builds it. -/
def fullScan (readContent : Bool) : filesIter :=
  { repo := none, commits := none, seen := [], files := none, treeHash := ZeroHash,
    readContent := readContent, repos := [], filePaths := [], blobHashes := [],
    treeHashes := [] }

/-- A `filesIter` with selectors, as `WithProjectAndFilters` builds it. -/
def selectorScan (repos : List Str) (treeHashes blobHashes : List Hash) (filePaths : List Str)
    (readContent : Bool) : filesIter :=
  { repo := none, commits := none, seen := [], files := none, treeHash := ZeroHash,
    readContent := readContent, repos := repos, filePaths := filePaths,
    blobHashes := blobHashes, treeHashes := treeHashes }

/-- Whether a cell belongs to a selector list of texts; an empty list selects
every cell. -/
def selects (sel : List Str) (v : Option Value) : Bool :=
  sel.isEmpty || (match v with
    | some (Value.text s) => decide (s ∈ sel)
    | _ => false)

/-- Whether a row of the files table belongs to the selectors: `repository_id`,
`tree_hash`, `blob_hash` and `file_path` are the columns 0, 3, 2 and 1 of
`FilesSchema`. -/
def rowSelected (repos : List Str) (treeHashes blobHashes : List Hash) (filePaths : List Str)
    (row : Row) : Bool :=
  selects repos row[0]? && selects (treeHashes.map Hash.String) row[3]? &&
    selects (blobHashes.map Hash.String) row[2]? && selects filePaths row[1]?

/-- Draining the files iterator `s` gives the rows `rows` and the end of the
sequence, whatever bound above the number of rows is put on the calls, and
leaves `finalSeen` as the set of expanded trees. -/
def DrainsTo (cfg : Config) (s : filesIter) (rows : List Row) (finalSeen : List Hash) : Prop :=
  ∀ fuel, fuel > rows.length →
    (drain (filesIter.Next cfg) fuel s).1 = rows ∧
    (drain (filesIter.Next cfg) fuel s).2.1 = .stopped Err.eof ∧
    (drain (filesIter.Next cfg) fuel s).2.2.seen = finalSeen

/-- The iterator that `NewIterator` returns for a repository, before the commit
cursor is set. -/
def filesIter.bound (i : filesIter) (repo : Repository) : filesIter :=
  { repo := some repo, commits := none, seen := [], files := none, treeHash := ZeroHash,
    readContent := i.readContent, repos := [], filePaths := i.filePaths,
    blobHashes := i.blobHashes, treeHashes := i.treeHashes }

/-- The rows of all the files of a commit. -/
def commitRows (cfg : Config) (repoID : Str) (readContent : Bool) (c : Commit) : List Row :=
  c.files.map (fileRow cfg repoID readContent c.TreeHash)

/-- A text file `a.txt` with three bytes of content. -/
def sampleFile : File :=
  { Name := [97, 46, 116, 120, 116], Mode := 33188, Blob := blobOf [102, 111, 111] }

/-- A commit whose tree has the zero hash and holds the sample file. -/
def sampleCommit : Commit :=
  { TreeHash := ZeroHash, Files := .ok { items := [sampleFile], tail := none } }

/-- A repository whose commit walk returns two commits that share their tree. -/
def sampleRepo : Repository :=
  { ID := [114],
    CommitObjects := .ok { items := [sampleCommit, sampleCommit], tail := none },
    BlobObjects := .ok { items := [blobOf [102, 111, 111]], tail := none },
    BlobObject := fun h => if h = ZeroHash then .ok (blobOf [102, 111, 111])
      else .error Err.notFound }

/-- The iterator of a full scan of the sample repository before its first
`Next`. -/
def sampleScanStart : filesIter :=
  ((fullScan true).bound sampleRepo).during [] ZeroHash none [sampleCommit, sampleCommit]

/-! ## The index of the files table: build (`files.go`) -/

/-- The bytes of an ASCII text. -/
def ascii (s : String) : Str := s.toList.map (fun c => byteOf c.toNat)

/-- The names of the columns of `FilesSchema`, in order. -/
def FilesSchema : List Str :=
  [ascii "repository_id", ascii "file_path", ascii "blob_hash", ascii "tree_hash",
   ascii "tree_entry_mode", ascii "blob_content", ascii "blob_size"]

/-- The names of the columns of `BlobsSchema`, in order. -/
def BlobsSchema : List Str :=
  [ascii "repository_id", ascii "blob_hash", ascii "blob_size", ascii "blob_content"]

/-- The pack offset index of a repository, `repositoryIndex`, whose code is not
in the two source files: what `find` returns for a hash, the offset (negative
for an object that is not packed) and the pack file. -/
structure repositoryIndex where
  find : Hash → Except Err (Int × Hash)

/-- The repository pool, whose code is not in the two source files: what
`RepoIter()` returns, and what `newRepositoryIndex` returns for the path and
kind that the pool holds for a repository identifier. -/
structure RepositoryPool where
  RepoIter : Except Err (Cursor Repository)
  newRepositoryIndex : Str → Except Err repositoryIndex

/-- Modelled from the spec: `encodeIndexKey` (not in the two source files); the
binary encoding of a composite index key, here of a file index key. -/
def encodeIndexKey (k : fileIndexKey) : Except Err (List Byte) := k.encode

/-- Modelled from the spec: `decodeIndexKey` (not in the two source files); the
decoding of the bytes of a composite index key, here of a file index key. -/
def decodeIndexKey (data : List Byte) : Except Err fileIndexKey := fileIndexKey.decode data

/-- Modelled from the spec: `rowIndexValues` (not in the two source files); the
projected values of a row, the cells of the named columns in the order of the
names, an unknown column being an error. -/
def rowIndexValues (row : Row) (columns : List Str) (schema : List Str) :
    Except Err (List Value) :=
  columns.mapM (fun col =>
    match row[schema.findIdx (fun name => decide (name = col))]? with
    | some v => .ok v
    | none => .error Err.decoding)

/-- The iterator of the keys and values of the files index: `filesKeyValueIter`. -/
structure filesKeyValueIter where
  pool : RepositoryPool
  repo : Option Repository
  repos : Cursor Repository
  commits : Option (Cursor Commit)
  files : Option (Cursor File)
  commit : Option Commit
  idx : Option repositoryIndex
  columns : List Str
  seen : List Hash

/-- The iterator of a pool: `newFilesKeyValueIter`. -/
def newFilesKeyValueIter (pool : RepositoryPool) (columns : List Str) :
    Except Err filesKeyValueIter := do
  let repos ← pool.RepoIter
  pure { pool := pool, repo := none, repos := repos, commits := none, files := none,
         commit := none, idx := none, columns := columns, seen := [] }

/-- The end of an iteration of `filesKeyValueIter.Next`, from `i.idx.find` on, for
a file that is not nil: the values and the key of the file. -/
def filesKeyValueIter.emit (cfg : Config) (i : filesKeyValueIter) (f : File) :
    Outcome (List Value × List Byte) :=
  match i.idx, i.repo, i.commit with
  | some idx, some repo, some commit =>
    match idx.find f.Blob.Hash with
    | .error e => .err e
    | .ok (offset, packfile) =>
      let hash : Str := if offset < 0 then f.Blob.Hash.String else []
      match encodeIndexKey
          { Repository := repo.ID, Packfile := packfile.String, Hash := hash, Offset := offset,
            Name := f.Name, Tree := commit.TreeHash.String, Mode := (f.Mode : Int) } with
      | .error e => .err e
      | .ok key =>
        match fileToRow cfg repo.ID commit.TreeHash f
            (stringContains i.columns (ascii "blob_content")) with
        | .error e => .err e
        | .ok row =>
          match rowIndexValues row i.columns FilesSchema with
          | .error e => .err e
          | .ok values => .ok (values, key)
  | _, _, _ => .nilPanic

/-- The iterations of `filesKeyValueIter.Next` while `i.files` is not nil; the
result is `none` when the file cursor reached its end (`i.files = nil;
continue`).  After an error that is not `io.EOF` the iteration goes on with a nil
file, which `f.Blob.Hash` dereferences. -/
def filesKeyValueIter.filesLoop (cfg : Config) (i : filesKeyValueIter) :
    List File → Option Err → Option (Outcome (List Value × List Byte)) × filesKeyValueIter
  | [], none => (none, { i with files := none })
  | [], some e =>
    if e = Err.eof then (none, { i with files := none })
    else (some .nilPanic, { i with files := some { items := [], tail := some e } })
  | f :: fs, tail =>
    (some (filesKeyValueIter.emit cfg i f), { i with files := some { items := fs, tail := tail } })

/-- The iterations of `filesKeyValueIter.Next` while `i.commits` is not nil and
`i.files` is nil; the result is `none` when the commit cursor reached its end
(`i.commits = nil; continue`). -/
def filesKeyValueIter.commitsLoop (cfg : Config) (i : filesKeyValueIter) :
    List Commit → Option Err → Option (Outcome (List Value × List Byte)) × filesKeyValueIter
  | [], none => (none, { i with commits := none, commit := none })
  | [], some e =>
    if e = Err.eof then (none, { i with commits := none, commit := none })
    else (some (.err e), { i with commits := some { items := [], tail := some e },
                                  commit := none })
  | c :: cs, tail =>
    if c.TreeHash ∈ i.seen then
      filesKeyValueIter.commitsLoop cfg
        { i with commits := some { items := cs, tail := tail }, commit := some c } cs tail
    else
      match c.Files with
      | .error e =>
        (some (.err e), { i with commits := some { items := cs, tail := tail },
                                 commit := some c, seen := c.TreeHash :: i.seen, files := none })
      | .ok fc =>
        match filesKeyValueIter.filesLoop cfg
            { i with commits := some { items := cs, tail := tail }, commit := some c,
                     seen := c.TreeHash :: i.seen, files := some fc } fc.items fc.tail with
        | (some out, i') => (some out, i')
        | (none, i') => filesKeyValueIter.commitsLoop cfg i' cs tail

/-- The iterations of `filesKeyValueIter.Next` from the point where `i.commits`
is nil: the next repository of the pool, its commit walk and its index, then its
commits. -/
def filesKeyValueIter.reposLoop (cfg : Config) (i : filesKeyValueIter) :
    List Repository → Option Err → Outcome (List Value × List Byte) × filesKeyValueIter
  | [], none => (.err Err.eof, { i with repo := none, repos := { items := [], tail := none } })
  | [], some e => (.err e, { i with repo := none, repos := { items := [], tail := some e } })
  | r :: rs, tail =>
    match r.CommitObjects with
    | .error e =>
      (.err e, { i with repo := some r, repos := { items := rs, tail := tail }, seen := [],
                        commits := none })
    | .ok cc =>
      match i.pool.newRepositoryIndex r.ID with
      | .error e =>
        (.err e, { i with repo := some r, repos := { items := rs, tail := tail }, seen := [],
                          commits := some cc, idx := none })
      | .ok idx =>
        match filesKeyValueIter.commitsLoop cfg
            { i with repo := some r, repos := { items := rs, tail := tail }, seen := [],
                     commits := some cc, idx := some idx } cc.items cc.tail with
        | (some out, i') => (out, i')
        | (none, i') => filesKeyValueIter.reposLoop cfg i' rs tail

/-- One call of `filesKeyValueIter.Next`.  In every state that `Next` reaches from
`newFilesKeyValueIter`, `i.files` is nil when `i.commits` is nil. -/
def filesKeyValueIter.Next (cfg : Config) (i : filesKeyValueIter) :
    Outcome (List Value × List Byte) × filesKeyValueIter :=
  match i.commits with
  | none => filesKeyValueIter.reposLoop cfg i i.repos.items i.repos.tail
  | some cc =>
    match i.files with
    | none =>
      match filesKeyValueIter.commitsLoop cfg i cc.items cc.tail with
      | (some out, i') => (out, i')
      | (none, i') => filesKeyValueIter.reposLoop cfg i' i'.repos.items i'.repos.tail
    | some fc =>
      match filesKeyValueIter.filesLoop cfg i fc.items fc.tail with
      | (some out, i') => (out, i')
      | (none, i') =>
        match filesKeyValueIter.commitsLoop cfg i' cc.items cc.tail with
        | (some out, i'') => (out, i'')
        | (none, i'') => filesKeyValueIter.reposLoop cfg i'' i''.repos.items i''.repos.tail

/-! ## The index of the blobs table: build (`blobs.go`) -/

/-- The index key of a blob, `packOffsetIndexKey`, whose declaration is not in the
two source files: the fields that `blobsKeyValueIter.Next` sets. -/
structure packOffsetIndexKey where
  Repository : Str
  Packfile : Str
  Offset : Int
  Hash : Str
  deriving DecidableEq

/-- Modelled from the spec: `packOffsetIndexKey.encode` (not in the two source
files); the plain object key is the repository and the object reference, encoded
as in the entry key. -/
def packOffsetIndexKey.encode (k : packOffsetIndexKey) : Except Err (List Byte) := do
  let buf : List Byte := []
  let buf := writeString buf k.Repository
  let buf ← writeHash buf k.Packfile
  let buf := writeBool buf (decide (k.Offset ≥ 0))
  let buf ← if k.Offset ≥ 0 then pure (writeInt64 buf k.Offset) else writeHash buf k.Hash
  return buf

/-- The iterator of the keys and values of the blobs index: `blobsKeyValueIter`. -/
structure blobsKeyValueIter where
  pool : RepositoryPool
  repos : Cursor Repository
  repo : Option Repository
  blobs : Option (Cursor Blob)
  idx : Option repositoryIndex
  columns : List Str

/-- The end of an iteration of `blobsKeyValueIter.Next`, from `i.idx.find` on, for
a blob that is not nil: the values and the key of the blob. -/
def blobsKeyValueIter.emit (cfg : Config) (i : blobsKeyValueIter) (blob : Blob) :
    Outcome (List Value × List Byte) :=
  match i.idx, i.repo with
  | some idx, some repo =>
    match idx.find blob.Hash with
    | .error e => .err e
    | .ok (offset, packfile) =>
      let hash : Str := if offset < 0 then blob.Hash.String else []
      match packOffsetIndexKey.encode
          { Repository := repo.ID, Packfile := packfile.String, Offset := offset,
            Hash := hash } with
      | .error e => .err e
      | .ok key =>
        match blobToRow cfg repo.ID blob (stringContains i.columns (ascii "blob_content")) with
        | .error e => .err e
        | .ok row =>
          match rowIndexValues row i.columns BlobsSchema with
          | .error e => .err e
          | .ok values => .ok (values, key)
  | _, _ => .nilPanic

/-- The iterations of `blobsKeyValueIter.Next` while `i.blobs` is not nil; the
result is `none` when the blob cursor reached its end (`i.blobs = nil;
continue`).  After an error that is not `io.EOF` the iteration goes on with a nil
blob, which `blob.Hash` dereferences. -/
def blobsKeyValueIter.blobsLoop (cfg : Config) (i : blobsKeyValueIter) :
    List Blob → Option Err → Option (Outcome (List Value × List Byte)) × blobsKeyValueIter
  | [], none => (none, { i with blobs := none })
  | [], some e =>
    if e = Err.eof then (none, { i with blobs := none })
    else (some .nilPanic, { i with blobs := some { items := [], tail := some e } })
  | b :: bs, tail =>
    (some (blobsKeyValueIter.emit cfg i b), { i with blobs := some { items := bs, tail := tail } })

/-- The iterations of `blobsKeyValueIter.Next` from the point where `i.blobs` is
nil: the next repository of the pool, its blob walk and its index, then its
blobs. -/
def blobsKeyValueIter.reposLoop (cfg : Config) (i : blobsKeyValueIter) :
    List Repository → Option Err → Outcome (List Value × List Byte) × blobsKeyValueIter
  | [], none => (.err Err.eof, { i with repo := none, repos := { items := [], tail := none } })
  | [], some e => (.err e, { i with repo := none, repos := { items := [], tail := some e } })
  | r :: rs, tail =>
    match r.BlobObjects with
    | .error e =>
      (.err e, { i with repo := some r, repos := { items := rs, tail := tail }, blobs := none })
    | .ok bc =>
      match i.pool.newRepositoryIndex r.ID with
      | .error e =>
        (.err e, { i with repo := some r, repos := { items := rs, tail := tail },
                          blobs := some bc, idx := none })
      | .ok idx =>
        match blobsKeyValueIter.blobsLoop cfg
            { i with repo := some r, repos := { items := rs, tail := tail }, blobs := some bc,
                     idx := some idx } bc.items bc.tail with
        | (some out, i') => (out, i')
        | (none, i') => blobsKeyValueIter.reposLoop cfg i' rs tail

/-- One call of `blobsKeyValueIter.Next`. -/
def blobsKeyValueIter.Next (cfg : Config) (i : blobsKeyValueIter) :
    Outcome (List Value × List Byte) × blobsKeyValueIter :=
  match i.blobs with
  | none => blobsKeyValueIter.reposLoop cfg i i.repos.items i.repos.tail
  | some bc =>
    match blobsKeyValueIter.blobsLoop cfg i bc.items bc.tail with
    | (some out, i') => (out, i')
    | (none, i') => blobsKeyValueIter.reposLoop cfg i' i'.repos.items i'.repos.tail

/-! ## A store whose cursors fail -/

/-- A file cursor whose `Next` returns a store-access error. -/
def failingFiles : Cursor File := { items := [], tail := some (Err.io 5) }

/-- A blob cursor whose `Next` returns a store-access error. -/
def failingBlobs : Cursor Blob := { items := [], tail := some (Err.io 5) }

/-- A commit whose file cursor fails. -/
def failingCommit : Commit := { TreeHash := ZeroHash, Files := .ok failingFiles }

/-- A repository with one commit, whose file cursor fails, and whose blob cursor
fails. -/
def failingRepo : Repository :=
  { ID := [114],
    CommitObjects := .ok { items := [failingCommit], tail := none },
    BlobObjects := .ok failingBlobs,
    BlobObject := fun _ => .error Err.notFound }

/-- A pool with the failing repository, all of whose objects are loose. -/
def failingPool : RepositoryPool :=
  { RepoIter := .ok { items := [failingRepo], tail := none },
    newRepositoryIndex := fun _ => .ok { find := fun _ => .ok (-1, ZeroHash) } }

/-- The iterator of a pool: `newBlobsKeyValueIter`. -/
def newBlobsKeyValueIter (pool : RepositoryPool) (columns : List Str) :
    Except Err blobsKeyValueIter := do
  let repos ← pool.RepoIter
  pure { pool := pool, repos := repos, repo := none, blobs := none, idx := none,
         columns := columns }

/-! ## The index of the files table: scan (`files.go`) -/

/-- An object of the store: a blob, or an object of another kind. -/
inductive Object where
  | blob (b : Blob)
  | other

/-- The object resolver, `objectDecoder`, whose code is not in the two source
files: the object that the store holds at an offset of a pack file of a
repository, and the object that it holds under a hash. -/
structure objectDecoder where
  objectAt : Str → Hash → Int → Except Err Object
  objectByHash : Str → Hash → Except Err Object

/-- Modelled from the spec: `objectDecoder.decode` (not in the two source files);
with an offset of at least 0 the object is decoded at that offset of the pack
file, with a negative offset it is looked up by hash. -/
def objectDecoder.decode (d : objectDecoder) (repo : Str) (packfile : Hash) (offset : Int)
    (hash : Hash) : Except Err Object :=
  if offset ≥ 0 then d.objectAt repo packfile offset else d.objectByHash repo hash

/-- The cursor of the values of an index, `sql.IndexValueIter`: the key bytes
still to come, and whether `Close` was called. -/
structure IndexValueIter where
  values : Cursor (List Byte)
  closed : Bool

/-- Modelled from the spec: `closeIndexOnError` (not in the two source files);
the deferred call closes the index cursor when the error variable it is given is
set. -/
def closeIndexOnError (err : Option Err) (index : IndexValueIter) : IndexValueIter :=
  match err with
  | none => index
  | some _ => { index with closed := true }

/-- The iterator over the keys of an index: `filesIndexIter`. -/
structure filesIndexIter where
  index : IndexValueIter
  decoder : objectDecoder
  readContent : Bool

/-- The file mode of an `int64`: the conversion `filemode.FileMode(key.Mode)` to
`uint32`. -/
def FileMode.ofInt64 (n : Int) : Nat := (n % 2 ^ 32).toNat

/-- One call of `filesIndexIter.Next`.  The deferred `closeIndexOnError` looks at
the variable `err` of the function, which `i.index.Next()` and
`i.decoder.decode` assign; the error of `decodeIndexKey` is held by a variable
of the `if` statement, and the errors of the type assertion and of `fileToRow`
are returned without being assigned to `err`. -/
def filesIndexIter.Next (cfg : Config) (i : filesIndexIter) : Outcome Row × filesIndexIter :=
  let res := i.index.values.Next
  let i : filesIndexIter := { i with index := { i.index with values := res.2 } }
  match res.1 with
  | (_, some e) => (.err e, { i with index := closeIndexOnError (some e) i.index })
  | (data, none) =>
    match decodeIndexKey (data.getD []) with
    | .error e => (.err e, { i with index := closeIndexOnError none i.index })
    | .ok key =>
      match i.decoder.decode key.Repository (NewHash key.Packfile) key.Offset
          (NewHash key.Hash) with
      | .error e => (.err e, { i with index := closeIndexOnError (some e) i.index })
      | .ok (Object.blob blob) =>
        let file : File := { Blob := blob, Name := key.Name, Mode := FileMode.ofInt64 key.Mode }
        match fileToRow cfg key.Repository (NewHash key.Tree) file i.readContent with
        | .ok row => (.ok row, { i with index := closeIndexOnError none i.index })
        | .error e => (.err e, { i with index := closeIndexOnError none i.index })
      | .ok Object.other =>
        (.err Err.invalidObjectType, { i with index := closeIndexOnError none i.index })

/-- The iterator over the keys of an index: `newFilesIndexIter`. -/
def newFilesIndexIter (index : IndexValueIter) (decoder : objectDecoder) (readContent : Bool) :
    filesIndexIter :=
  { index := index, decoder := decoder, readContent := readContent }

/-- The index cursor over one key. -/
def oneKey (k : List Byte) : IndexValueIter :=
  { values := { items := [k], tail := none }, closed := false }

/-! ## Description of an index build and of an index scan -/

/-- The commits of the commit walk of a repository. -/
def Repository.commits (repo : Repository) : List Commit :=
  match repo.CommitObjects with
  | .ok cc => cc.items
  | .error _ => []

/-- The file entries of a repository that a scan without selectors visits, in
order: the files of each tree, under the hash of the tree, each tree once. -/
def entries (cs : List Commit) : List (Hash × File) :=
  (expanded (fullScan false) [] cs).flatMap (fun c => c.files.map (fun f => (c.TreeHash, f)))

/-- The index key that `filesKeyValueIter.Next` builds for a file entry. -/
def entryKey (repoID : Str) (offset : Int) (packfile : Hash) (e : Hash × File) : fileIndexKey :=
  { Repository := repoID, Packfile := packfile.String,
    Hash := if offset < 0 then e.2.Blob.Hash.String else [],
    Offset := offset, Name := e.2.Name, Tree := e.1.String, Mode := (e.2.Mode : Int) }

/-- The key bytes of a file entry of a repository of the pool; empty when the
index, the lookup or the encoding fails. -/
def indexKeyOf (pool : RepositoryPool) (repo : Repository) (e : Hash × File) : List Byte :=
  match pool.newRepositoryIndex repo.ID with
  | .ok idx =>
    match idx.find e.2.Blob.Hash with
    | .ok (offset, packfile) =>
      match (entryKey repo.ID offset packfile e).encode with
      | .ok bs => bs
      | .error _ => []
    | .error _ => []
  | .error _ => []

/-- The values and key bytes of a file entry of a repository of the pool. -/
def kvOf (cfg : Config) (pool : RepositoryPool) (columns : List Str) (repo : Repository)
    (e : Hash × File) : List Value × List Byte :=
  ((match rowIndexValues
      (fileRow cfg repo.ID (stringContains columns (ascii "blob_content")) e.1 e.2)
      columns FilesSchema with
    | .ok vs => vs
    | .error _ => []),
   indexKeyOf pool repo e)

/-- The resolver returns the blob of a file at the location that the pack offset
index gives for it, or under its hash when the index gives no location; and the
name and the mode of the file are a Go string and a `uint32`. -/
def Resolvable (pool : RepositoryPool) (decoder : objectDecoder) (repo : Repository)
    (f : File) : Prop :=
  ∃ idx offset packfile, pool.newRepositoryIndex repo.ID = .ok idx ∧
    idx.find f.Blob.Hash = .ok (offset, packfile) ∧ IsInt64 offset ∧
    (0 ≤ offset → decoder.objectAt repo.ID packfile offset = .ok (Object.blob f.Blob)) ∧
    (offset < 0 → decoder.objectByHash repo.ID f.Blob.Hash = .ok (Object.blob f.Blob)) ∧
    (f.Name.length : Int) < 2 ^ 63 ∧ f.Mode < 2 ^ 32

/-- A repository of the pool that is read without error, whose index is built,
and all of whose files are resolvable. -/
def Indexable (pool : RepositoryPool) (decoder : objectDecoder) (repo : Repository) : Prop :=
  repo.ErrorFree repo.commits ∧ (repo.ID.length : Int) < 2 ^ 63 ∧
  (∃ idx, pool.newRepositoryIndex repo.ID = .ok idx) ∧
  ∀ c ∈ repo.commits, ∀ f ∈ c.files, Resolvable pool decoder repo f

/-- The state of a `filesKeyValueIter` in the middle of an error-free index build:
the repository and its index, the trees seen, the commit being expanded, the
files of it still to come (`none` when `i.files` is nil), the commits still to
come (`none` when `i.commits` is nil) and the repositories still to come. -/
def filesKeyValueIter.during (b : filesKeyValueIter) (repo : Option Repository)
    (idx : Option repositoryIndex) (seen : List Hash) (commit : Option Commit)
    (fo : Option (List File)) (co : Option (List Commit)) (rs : List Repository) :
    filesKeyValueIter :=
  { b with repo := repo, idx := idx, seen := seen, commit := commit,
           files := fo.map (fun fs => { items := fs, tail := none }),
           commits := co.map (fun cs => { items := cs, tail := none }),
           repos := { items := rs, tail := none } }

/-- Draining the index build `s` gives the values and keys `kvs` and the end of
the sequence, whatever bound above their number is put on the calls. -/
def KVDrainsTo (cfg : Config) (s : filesKeyValueIter) (kvs : List (List Value × List Byte)) :
    Prop :=
  ∀ fuel, fuel > kvs.length →
    (drain (filesKeyValueIter.Next cfg) fuel s).1 = kvs ∧
    (drain (filesKeyValueIter.Next cfg) fuel s).2.1 = .stopped Err.eof

/-- The values and keys of the trees that an index build expands among the
commits `cs`, the trees in `seen` being expanded already. -/
def kvRows (cfg : Config) (pool : RepositoryPool) (columns : List Str) (repo : Repository)
    (seen : List Hash) (cs : List Commit) : List (List Value × List Byte) :=
  (expanded (fullScan false) seen cs).flatMap
    (fun c => c.files.map (fun f => kvOf cfg pool columns repo (c.TreeHash, f)))

/-- A resolver for the sample repository: its blob is found under the zero hash. -/
def sampleDecoder : objectDecoder :=
  { objectAt := fun _ _ _ => .error Err.notFound,
    objectByHash := fun _ h =>
      if h = ZeroHash then .ok (Object.blob (blobOf [102, 111, 111])) else .error Err.notFound }

/-- A pool with the sample repository, all of whose objects are loose. -/
def samplePool : RepositoryPool :=
  { RepoIter := .ok { items := [sampleRepo], tail := none },
    newRepositoryIndex := fun _ => .ok { find := fun _ => .ok (-1, ZeroHash) } }

/-! ## The projection (`go-mysql-server` expressions, `blobs.go`) -/

/-- An expression of the projection, `sql.Expression`: a field reference
`expression.GetField` with its name, which has no children, or an expression of
another kind with its children. -/
inductive Expression where
  | getField (name : Str)
  | node (children : List Expression)

/-- The function that `shouldReadContent` passes to `expression.Inspect`, as the
value that it assigns to `found`; it returns `!found`.  The argument is nil in
the call that ends the visit of the children of an expression. -/
def isContentField (e : Option Expression) : Bool :=
  match e with
  | some (Expression.getField name) => decide (name = ascii "blob_content")
  | _ => false

mutual

/-- The walk of `expression.Inspect`, threaded through the variable `found`:
`f(expr)`; when it returns true, the walk of the children of `expr` in order,
followed by `f(nil)`. -/
def Walk : Expression → Bool → Bool
  | Expression.getField name, _ =>
    if isContentField (some (Expression.getField name)) = true then true
    else isContentField none
  | Expression.node children, _ =>
    if isContentField (some (Expression.node children)) = true then true
    else
      let _found := WalkChildren children (isContentField (some (Expression.node children)))
      isContentField none

/-- The walk of the children of an expression, in order. -/
def WalkChildren : List Expression → Bool → Bool
  | [], found => found
  | c :: cs, found => WalkChildren cs (Walk c found)

end

/-- The value of `found` after `expression.Inspect(e, f)`. -/
def Inspect (e : Expression) : Bool := Walk e false

/-- Whether the projection asks for the content: `shouldReadContent`. -/
def shouldReadContent : List Expression → Bool
  | [] => false
  | e :: columns => if Inspect e = true then true else shouldReadContent columns

mutual

/-- Whether an expression contains, at any depth, a field reference named
`blob_content`. -/
def Expression.usesContent : Expression → Bool
  | Expression.getField name => decide (name = ascii "blob_content")
  | Expression.node children => Expression.anyUsesContent children

/-- Whether one of the expressions contains, at any depth, a field reference
named `blob_content`. -/
def Expression.anyUsesContent : List Expression → Bool
  | [] => false
  | c :: cs => Expression.usesContent c || Expression.anyUsesContent cs

end

/-- The field reference `blob_content`. -/
def contentField : Expression := Expression.getField (ascii "blob_content")

/-- An expression over the content column, such as `LENGTH(blob_content)`. -/
def lengthOfContent : Expression := Expression.node [contentField]

/-- An expression over the content column and another column, such as
`CONCAT(blob_content, file_path)`. -/
def concatOfContent : Expression :=
  Expression.node [contentField, Expression.getField (ascii "file_path")]

/-! ## The index of the blobs table: scan (`blobs.go`) -/

/-- Modelled from the spec: `packOffsetIndexKey.decode` (not in the two source
files); the plain object key is read as it is written, the repository and the
object reference, the reference as in the entry key. -/
def packOffsetIndexKey.decode (data : List Byte) : Except Err packOffsetIndexKey := do
  let buf := data
  let (repository, buf) ← readString buf
  let (packfile, buf) ← readHash buf
  let (ok, buf) ← readBool buf
  let (hash, offset, _) ←
    if ok then do
      let (offset, buf) ← readInt64 buf
      pure (([] : Str), offset, buf)
    else do
      let (hash, buf) ← readHash buf
      pure (hash, (-1 : Int), buf)
  return { Repository := repository, Packfile := packfile, Offset := offset, Hash := hash }

/-- The iterator over the keys of an index of the blobs: `blobsIndexIter`. -/
structure blobsIndexIter where
  index : IndexValueIter
  decoder : objectDecoder
  readContent : Bool

/-- The iterator over the keys of an index: `newBlobsIndexIter`. -/
def newBlobsIndexIter (index : IndexValueIter) (decoder : objectDecoder) (readContent : Bool) :
    blobsIndexIter :=
  { index := index, decoder := decoder, readContent := readContent }

/-- One call of `blobsIndexIter.Next`.  As in `filesIndexIter.Next`, the deferred
`closeIndexOnError` looks at the variable `err` of the function, which
`i.index.Next()` and `i.decoder.decode` assign; the error of `decodeIndexKey` is
held by a variable of the `if` statement, and the errors of the type assertion
and of `blobToRow` are returned without being assigned to `err`. -/
def blobsIndexIter.Next (cfg : Config) (i : blobsIndexIter) : Outcome Row × blobsIndexIter :=
  let res := i.index.values.Next
  let i : blobsIndexIter := { i with index := { i.index with values := res.2 } }
  match res.1 with
  | (_, some e) => (.err e, { i with index := closeIndexOnError (some e) i.index })
  | (data, none) =>
    match packOffsetIndexKey.decode (data.getD []) with
    | .error e => (.err e, { i with index := closeIndexOnError none i.index })
    | .ok key =>
      match i.decoder.decode key.Repository (NewHash key.Packfile) key.Offset
          (NewHash key.Hash) with
      | .error e => (.err e, { i with index := closeIndexOnError (some e) i.index })
      | .ok (Object.blob blob) =>
        match blobToRow cfg key.Repository blob i.readContent with
        | .ok row => (.ok row, { i with index := closeIndexOnError none i.index })
        | .error e => (.err e, { i with index := closeIndexOnError none i.index })
      | .ok Object.other =>
        (.err Err.invalidObjectType, { i with index := closeIndexOnError none i.index })

/-! ## Index scans that fail -/

/-- The bytes of the packed sample key of a file. -/
def sampleFileKeyBytes : List Byte :=
  match samplePackedKey.encode with
  | .ok bs => bs
  | .error _ => []

/-- The bytes of a packed key of a blob. -/
def sampleBlobKeyBytes : List Byte :=
  match packOffsetIndexKey.encode
      { Repository := [114], Packfile := zeroHashText, Offset := 12, Hash := [] } with
  | .ok bs => bs
  | .error _ => []

/-- A resolver that finds an object that is not a blob. -/
def otherDecoder : objectDecoder :=
  { objectAt := fun _ _ _ => .ok Object.other, objectByHash := fun _ _ => .ok Object.other }

/-- A blob whose reader cannot be opened. -/
def unreadableBlob : Blob := { Hash := ZeroHash, Size := 3, Reader := .error (Err.io 5) }

/-- A resolver that finds a blob whose reader cannot be opened. -/
def unreadableDecoder : objectDecoder :=
  { objectAt := fun _ _ _ => .ok (Object.blob unreadableBlob),
    objectByHash := fun _ _ => .ok (Object.blob unreadableBlob) }

/-- A resolver that fails. -/
def failingDecoder : objectDecoder :=
  { objectAt := fun _ _ _ => .error (Err.io 7), objectByHash := fun _ _ => .error (Err.io 7) }

/-- An index cursor whose `Next` fails. -/
def failingIndex : IndexValueIter :=
  { values := { items := [], tail := some (Err.io 9) }, closed := false }

/-! # Theorems -/

/-! ## Lemmas on the serialization primitives -/

theorem fit20_length (bs : List Byte) : (fit20 bs).length = hashSize := by
  simp [fit20, hashSize]

theorem byteOf_val (n : Nat) : (byteOf n).val = n % 256 := rfl

theorem leBytes_length (w u : Nat) : (leBytes w u).length = w := by
  induction w generalizing u with
  | zero => rfl
  | succ w ih => simp [leBytes, ih]

theorem leValue_leBytes (w u : Nat) : leValue (leBytes w u) = u % 256 ^ w := by
  induction w generalizing u with
  | zero => simp [leBytes, leValue, Nat.mod_one]
  | succ w ih =>
    simp only [leBytes, leValue, ih, byteOf_val]
    rw [pow_succ', Nat.mod_mul]

theorem int64OfBits_int64Bits (n : Int) (h : IsInt64 n) :
    int64OfBits (int64Bits n % 256 ^ 8) = n := by
  unfold IsInt64 at h
  unfold int64OfBits int64Bits
  have h1 : (256 : Nat) ^ 8 = 18446744073709551616 := by norm_num
  have h2 : (2 : Int) ^ 64 = 18446744073709551616 := by norm_num
  have h3 : (2 : Int) ^ 63 = 9223372036854775808 := by norm_num
  have h4 : (2 : Nat) ^ 63 = 9223372036854775808 := by norm_num
  rw [h1, h2, h4]
  rw [h3] at h
  split <;> omega

theorem encInt64_length (n : Int) : (encInt64 n).length = 8 := leBytes_length 8 _

theorem readInt64_encInt64 (n : Int) (h : IsInt64 n) (rest : List Byte) :
    readInt64 (encInt64 n ++ rest) = .ok (n, rest) := by
  have hl := encInt64_length n
  unfold readInt64
  rw [if_neg (by simp [hl])]
  have ht : (encInt64 n ++ rest).take 8 = encInt64 n := by
    rw [List.take_append_of_le_length (by omega), List.take_of_length_le (by omega)]
  have hd : (encInt64 n ++ rest).drop 8 = rest := by
    rw [← hl]; exact List.drop_left _ _
  rw [ht, hd]
  unfold encInt64
  rw [leValue_leBytes, int64OfBits_int64Bits n h]

theorem readBool_encBool (b : Bool) (rest : List Byte) :
    readBool (encBool b ++ rest) = .ok (b, rest) := by
  cases b <;> simp [readBool, encBool]

theorem readString_encString (s : Str) (h : (s.length : Int) < 2 ^ 63) (rest : List Byte) :
    readString (encString s ++ rest) = .ok (s, rest) := by
  have hr : IsInt64 (s.length : Int) := ⟨by have := Int.natCast_nonneg s.length; omega, h⟩
  unfold readString encString
  rw [List.append_assoc, readInt64_encInt64 _ hr]
  simp

theorem hexVal_hexDigit (n : Nat) (h : n < 16) : hexVal (hexDigit n) = some n := by
  interval_cases n <;> rfl

theorem byteOf_nibbles (b : Byte) : byteOf (16 * (b.val / 16) + b.val % 16) = b := by
  apply Fin.ext
  rw [byteOf_val]
  have := b.isLt
  omega

theorem hexDecode_hexEncode (bs : List Byte) : hexDecode (hexEncode bs) = (bs, true) := by
  induction bs with
  | nil => rfl
  | cons b bs ih =>
    have h1 : b.val / 16 < 16 := by have := b.isLt; omega
    have h2 : b.val % 16 < 16 := by omega
    simp only [hexEncode, hexDecode, hexVal_hexDigit _ h1, hexVal_hexDigit _ h2, ih,
      byteOf_nibbles]

theorem hexEncode_length (bs : List Byte) : (hexEncode bs).length = 2 * bs.length := by
  induction bs with
  | nil => rfl
  | cons b bs ih => simp only [hexEncode, List.length_cons, ih]; omega

theorem hexEncode_injective : Function.Injective hexEncode := by
  intro a b h
  have := congrArg hexDecode h
  rw [hexDecode_hexEncode, hexDecode_hexEncode] at this
  exact (Prod.mk.inj this).1

theorem hexVal_of_lower (c : Byte) (h : IsLowerHex c) :
    ∃ v, hexVal c = some v ∧ v < 16 ∧ hexDigit v = c := by
  unfold IsLowerHex at h
  rcases h with ⟨h1, h2⟩ | ⟨h1, h2⟩
  · refine ⟨c.val - 48, by simp [hexVal, h1, h2], by omega, ?_⟩
    apply Fin.ext
    have := c.isLt
    rw [hexDigit, if_pos (by omega), byteOf_val]
    omega
  · refine ⟨c.val - 87, ?_, by omega, ?_⟩
    · have h3 : ¬ (48 ≤ c.val ∧ c.val ≤ 57) := by omega
      simp [hexVal, h1, h2, h3]
    · apply Fin.ext
      have := c.isLt
      rw [hexDigit, if_neg (by omega), byteOf_val]
      omega

theorem byteOf_div_mod (x y : Nat) (hx : x < 16) (hy : y < 16) :
    (byteOf (16 * x + y)).val / 16 = x ∧ (byteOf (16 * x + y)).val % 16 = y := by
  rw [byteOf_val]
  omega

/-- On a text of lower-case digits of length `2 * n`, `hexDecode` succeeds with
`n` bytes whose text is the input. -/
theorem hexDecode_of_lower (n : Nat) (s : Str) (hl : s.length = 2 * n)
    (hc : ∀ c ∈ s, IsLowerHex c) :
    (hexDecode s).2 = true ∧ (hexDecode s).1.length = n ∧ hexEncode (hexDecode s).1 = s := by
  induction n generalizing s with
  | zero =>
    have : s = [] := List.length_eq_zero.mp (by omega)
    subst this
    exact ⟨rfl, rfl, rfl⟩
  | succ n ih =>
    match s, hl, hc with
    | [], hl, _ => simp at hl
    | [_], hl, _ => simp at hl; omega
    | a :: b :: rest, hl, hc =>
      obtain ⟨x, hx, hx16, hxd⟩ := hexVal_of_lower a (hc a (by simp))
      obtain ⟨y, hy, hy16, hyd⟩ := hexVal_of_lower b (hc b (by simp))
      have hlr : rest.length = 2 * n := by simp at hl; omega
      obtain ⟨i1, i2, i3⟩ := ih rest hlr (fun c hcm => hc c (by simp [hcm]))
      obtain ⟨d1, d2⟩ := byteOf_div_mod x y hx16 hy16
      simp only [hexDecode, hx, hy, hexEncode, d1, d2, hxd, hyd, i1, i2, i3, List.length_cons,
        and_self]

theorem encHash_of_wellFormed (s : Str) (h : WellFormedHash s) :
    encHash s = .ok (hexDecode s).1 ∧ (hexDecode s).1.length = hashSize ∧
      hexEncode (hexDecode s).1 = s := by
  obtain ⟨h1, h2, h3⟩ := hexDecode_of_lower hashSize s h.1 h.2
  refine ⟨?_, h2, h3⟩
  unfold encHash
  rw [if_pos ⟨h1, h2⟩]

theorem readHash_append (bs rest : List Byte) (h : bs.length = hashSize) :
    readHash (bs ++ rest) = .ok (hexEncode bs, rest) := by
  unfold readHash
  rw [if_neg (by simp [h])]
  have ht : (bs ++ rest).take hashSize = bs := by
    rw [List.take_append_of_le_length (by omega), List.take_of_length_le (by omega)]
  have hd : (bs ++ rest).drop hashSize = rest := by
    rw [← h]; exact List.drop_left _ _
  rw [ht, hd]

theorem writeHash_ok (buf : List Byte) (s : Str) (bs : List Byte) (h : encHash s = .ok bs) :
    writeHash buf s = .ok (buf ++ bs) := by
  simp [writeHash, h]

theorem writeHash_ok_inv (buf : List Byte) (s : Str) (out : List Byte)
    (h : writeHash buf s = .ok out) :
    ∃ bs, encHash s = .ok bs ∧ bs.length = hashSize ∧ out = buf ++ bs := by
  unfold writeHash at h
  cases he : encHash s with
  | error e => rw [he] at h; cases h
  | ok bs =>
    rw [he] at h
    refine ⟨bs, rfl, ?_, by cases h; rfl⟩
    unfold encHash at he
    split at he
    · rename_i hc; cases he; exact hc.2
    · cases he

/-- The layout of an encoded key, field by field. -/
theorem encode_layout_aux (k : fileIndexKey) (out : List Byte) (h : k.encode = .ok out) :
    ∃ p ref t, encHash k.Packfile = .ok p ∧ p.length = hashSize ∧
      encHash k.Tree = .ok t ∧ t.length = hashSize ∧
      ((0 ≤ k.Offset ∧ ref = encInt64 k.Offset) ∨
        (k.Offset < 0 ∧ encHash k.Hash = .ok ref ∧ ref.length = hashSize)) ∧
      out = encString k.Repository ++ p ++ encBool (decide (0 ≤ k.Offset)) ++ ref ++
        encString k.Name ++ encInt64 k.Mode ++ t := by
  unfold fileIndexKey.encode at h
  simp only [bind, Except.bind, pure, Except.pure] at h
  cases h1 : writeHash (writeString [] k.Repository) k.Packfile with
  | error e => rw [h1] at h; cases h
  | ok b1 =>
    rw [h1] at h
    obtain ⟨p, hp, hpl, rfl⟩ := writeHash_ok_inv _ _ _ h1
    by_cases ho : 0 ≤ k.Offset
    · have ho' : k.Offset ≥ 0 := ho
      simp only [if_pos ho'] at h
      cases h3 : writeHash (writeInt64 (writeString (writeInt64 (writeBool
          (writeString [] k.Repository ++ p) (decide (k.Offset ≥ 0))) k.Offset) k.Name) k.Mode)
          k.Tree with
      | error e => rw [h3] at h; cases h
      | ok b3 =>
        rw [h3] at h
        obtain ⟨t, ht, htl, rfl⟩ := writeHash_ok_inv _ _ _ h3
        cases h
        refine ⟨p, encInt64 k.Offset, t, hp, hpl, ht, htl, Or.inl ⟨ho, rfl⟩, ?_⟩
        simp [writeString, writeBool, writeInt64]
    · have ho' : ¬ k.Offset ≥ 0 := ho
      simp only [if_neg ho'] at h
      cases h2 : writeHash (writeBool (writeString [] k.Repository ++ p)
          (decide (k.Offset ≥ 0))) k.Hash with
      | error e => rw [h2] at h; cases h
      | ok b2 =>
        rw [h2] at h
        obtain ⟨r, hr, hrl, rfl⟩ := writeHash_ok_inv _ _ _ h2
        simp only [] at h
        cases h3 : writeHash (writeInt64 (writeString (writeBool
            (writeString [] k.Repository ++ p) (decide (k.Offset ≥ 0)) ++ r) k.Name) k.Mode)
            k.Tree with
        | error e => rw [h3] at h; cases h
        | ok b3 =>
          rw [h3] at h
          obtain ⟨t, ht, htl, rfl⟩ := writeHash_ok_inv _ _ _ h3
          cases h
          refine ⟨p, r, t, hp, hpl, ht, htl, Or.inr ⟨by omega, hr, hrl⟩, ?_⟩
          simp [writeString, writeBool, writeInt64]

theorem encode_ok_packed (k : fileIndexKey) (p t : List Byte) (ho : 0 ≤ k.Offset)
    (hp : encHash k.Packfile = .ok p) (ht : encHash k.Tree = .ok t) :
    k.encode = .ok (encString k.Repository ++ p ++ encBool true ++ encInt64 k.Offset ++
        encString k.Name ++ encInt64 k.Mode ++ t) := by
  have ho' : k.Offset ≥ 0 := ho
  unfold fileIndexKey.encode
  simp only [bind, Except.bind, pure, Except.pure, writeHash_ok _ _ _ hp, if_pos ho',
    writeHash_ok _ _ _ ht, writeString, writeBool, writeInt64, ho', decide_True,
    List.nil_append, if_true]

theorem encode_ok_loose (k : fileIndexKey) (p r t : List Byte) (ho : k.Offset < 0)
    (hp : encHash k.Packfile = .ok p) (hr : encHash k.Hash = .ok r)
    (ht : encHash k.Tree = .ok t) :
    k.encode = .ok (encString k.Repository ++ p ++ encBool false ++ r ++
        encString k.Name ++ encInt64 k.Mode ++ t) := by
  have ho' : ¬ k.Offset ≥ 0 := by omega
  unfold fileIndexKey.encode
  simp only [bind, Except.bind, pure, Except.pure, writeHash_ok _ _ _ hp, if_neg ho',
    writeHash_ok _ _ _ ht, writeHash_ok _ _ _ hr, writeString, writeBool, writeInt64,
    ho', decide_False, List.nil_append, if_false]

theorem decode_of_reads_packed (data b1 b2 b3 b4 b5 b6 b7 : List Byte) (r p n t : Str)
    (o m : Int)
    (h1 : readString data = .ok (r, b1)) (h2 : readHash b1 = .ok (p, b2))
    (h3 : readBool b2 = .ok (true, b3)) (h4 : readInt64 b3 = .ok (o, b4))
    (h5 : readString b4 = .ok (n, b5)) (h6 : readInt64 b5 = .ok (m, b6))
    (h7 : readHash b6 = .ok (t, b7)) :
    fileIndexKey.decode data =
      .ok { Repository := r, Packfile := p, Hash := [], Offset := o, Name := n,
            Mode := m, Tree := t } := by
  unfold fileIndexKey.decode
  simp only [bind, Except.bind, pure, Except.pure, h1, h2, h3, h4, h5, h6, h7, if_true]

theorem decode_of_reads_loose (data b1 b2 b3 b4 b5 b6 b7 : List Byte) (r p h n t : Str)
    (m : Int)
    (h1 : readString data = .ok (r, b1)) (h2 : readHash b1 = .ok (p, b2))
    (h3 : readBool b2 = .ok (false, b3)) (h4 : readHash b3 = .ok (h, b4))
    (h5 : readString b4 = .ok (n, b5)) (h6 : readInt64 b5 = .ok (m, b6))
    (h7 : readHash b6 = .ok (t, b7)) :
    fileIndexKey.decode data =
      .ok { Repository := r, Packfile := p, Hash := h, Offset := -1, Name := n,
            Mode := m, Tree := t } := by
  unfold fileIndexKey.decode
  simp only [bind, Except.bind, pure, Except.pure, h1, h2, h3, h4, h5, h6, h7,
    Bool.false_eq_true, if_false]

theorem decode_packed (r n : Str) (p t : List Byte) (o m : Int)
    (hr : (r.length : Int) < 2 ^ 63) (hn : (n.length : Int) < 2 ^ 63)
    (hp : p.length = hashSize) (ht : t.length = hashSize) (ho : IsInt64 o) (hm : IsInt64 m)
    (rest : List Byte) :
    fileIndexKey.decode (encString r ++ p ++ encBool true ++ encInt64 o ++ encString n ++
        encInt64 m ++ t ++ rest) =
      .ok { Repository := r, Packfile := hexEncode p, Hash := [], Offset := o, Name := n,
            Mode := m, Tree := hexEncode t } := by
  simp only [List.append_assoc]
  exact decode_of_reads_packed _ _ _ _ _ _ _ _ _ _ _ _ _ _
    (readString_encString _ hr _) (readHash_append _ _ hp) (readBool_encBool _ _)
    (readInt64_encInt64 _ ho _) (readString_encString _ hn _) (readInt64_encInt64 _ hm _)
    (readHash_append _ _ ht)

theorem decode_loose (r n : Str) (p h t : List Byte) (m : Int)
    (hr : (r.length : Int) < 2 ^ 63) (hn : (n.length : Int) < 2 ^ 63)
    (hp : p.length = hashSize) (hh : h.length = hashSize) (ht : t.length = hashSize)
    (hm : IsInt64 m) (rest : List Byte) :
    fileIndexKey.decode (encString r ++ p ++ encBool false ++ h ++ encString n ++
        encInt64 m ++ t ++ rest) =
      .ok { Repository := r, Packfile := hexEncode p, Hash := hexEncode h, Offset := -1,
            Name := n, Mode := m, Tree := hexEncode t } := by
  simp only [List.append_assoc]
  exact decode_of_reads_loose _ _ _ _ _ _ _ _ _ _ _ _ _ _
    (readString_encString _ hr _) (readHash_append _ _ hp) (readBool_encBool _ _)
    (readHash_append _ _ hh) (readString_encString _ hn _) (readInt64_encInt64 _ hm _)
    (readHash_append _ _ ht)

theorem prefix_length_lt (p l : List Byte) (h : p <+: l) (hne : p ≠ l) : p.length < l.length := by
  rcases Nat.lt_or_ge p.length l.length with hlt | hge
  · exact hlt
  · exact absurd (List.IsPrefix.eq_of_length h (Nat.le_antisymm h.length_le hge)) hne

theorem prefix_cases (p a b : List Byte) (h : p <+: a ++ b) (hne : p ≠ a ++ b) :
    (p <+: a ∧ p ≠ a) ∨ ∃ q, p = a ++ q ∧ q <+: b ∧ q ≠ b := by
  rcases List.prefix_or_prefix_of_prefix h (List.prefix_append a b) with h1 | h1
  · by_cases hpa : p = a
    · subst hpa
      refine Or.inr ⟨[], by simp, List.nil_prefix, ?_⟩
      intro hb
      apply hne
      rw [← hb, List.append_nil]
    · exact Or.inl ⟨h1, hpa⟩
  · obtain ⟨q, rfl⟩ := h1
    refine Or.inr ⟨q, rfl, (List.prefix_append_right_inj a).mp h, ?_⟩
    intro hq
    exact hne (by rw [hq])

theorem reads_int64 (n : Int) (h : IsInt64 n) : Reads readInt64 (encInt64 n) n := by
  refine ⟨readInt64_encInt64 n h, ?_⟩
  intro p hp hne
  have := prefix_length_lt _ _ hp hne
  rw [encInt64_length] at this
  simp [readInt64, this]

theorem reads_bool (b : Bool) : Reads readBool (encBool b) b := by
  refine ⟨readBool_encBool b, ?_⟩
  intro p hp hne
  have := prefix_length_lt _ _ hp hne
  have hl : (encBool b).length = 1 := rfl
  rw [hl] at this
  have hnil : p = [] := List.length_eq_zero.mp (by omega)
  subst hnil
  rfl

theorem reads_hash (bs : List Byte) (h : bs.length = hashSize) :
    Reads readHash bs (hexEncode bs) := by
  refine ⟨fun rest => readHash_append bs rest h, ?_⟩
  intro p hp hne
  have := prefix_length_lt _ _ hp hne
  rw [h] at this
  simp [readHash, this]

theorem reads_string (s : Str) (h : (s.length : Int) < 2 ^ 63) :
    Reads readString (encString s) s := by
  have hr : IsInt64 (s.length : Int) := ⟨by have := Int.natCast_nonneg s.length; omega, h⟩
  refine ⟨readString_encString s h, ?_⟩
  intro p hp hne
  unfold encString at hp hne
  rcases prefix_cases _ _ _ hp hne with ⟨h1, h2⟩ | ⟨q, rfl, hq, hqne⟩
  · unfold readString
    rw [(reads_int64 _ hr).2 p h1 h2]
  · have hlt := prefix_length_lt _ _ hq hqne
    unfold readString
    rw [readInt64_encInt64 _ hr]
    have : ((q.length : Int) < (s.length : Int)) := by exact_mod_cast hlt
    simp [this]

/-- Decoding of a strict prefix of seven consecutive fields fails. -/
theorem decode_strict_prefix_aux (e1 e2 e3 e4 e5 e6 e7 : List Byte) (r p h n t : Str)
    (b : Bool) (o m : Int)
    (H1 : Reads readString e1 r) (H2 : Reads readHash e2 p) (H3 : Reads readBool e3 b)
    (H4 : (b = true ∧ Reads readInt64 e4 o) ∨ (b = false ∧ Reads readHash e4 h))
    (H5 : Reads readString e5 n) (H6 : Reads readInt64 e6 m) (H7 : Reads readHash e7 t)
    (q : List Byte) (hq : q <+: e1 ++ (e2 ++ (e3 ++ (e4 ++ (e5 ++ (e6 ++ e7))))))
    (hne : q ≠ e1 ++ (e2 ++ (e3 ++ (e4 ++ (e5 ++ (e6 ++ e7)))))) :
    fileIndexKey.decode q = .error .decoding := by
  unfold fileIndexKey.decode
  simp only [bind, Except.bind, pure, Except.pure]
  rcases prefix_cases _ _ _ hq hne with ⟨h1, h2⟩ | ⟨q1, rfl, hq1, hne1⟩
  · rw [H1.2 q h1 h2]
  rw [H1.1 q1]
  simp only []
  rcases prefix_cases _ _ _ hq1 hne1 with ⟨h1, h2⟩ | ⟨q2, rfl, hq2, hne2⟩
  · rw [H2.2 q1 h1 h2]
  rw [H2.1 q2]
  simp only []
  rcases prefix_cases _ _ _ hq2 hne2 with ⟨h1, h2⟩ | ⟨q3, rfl, hq3, hne3⟩
  · rw [H3.2 q2 h1 h2]
  rw [H3.1 q3]
  simp only []
  rcases prefix_cases _ _ _ hq3 hne3 with ⟨h1, h2⟩ | ⟨q4, rfl, hq4, hne4⟩
  · rcases H4 with ⟨rfl, H4⟩ | ⟨rfl, H4⟩
    · simp only [if_true]
      rw [H4.2 q3 h1 h2]
    · simp only [Bool.false_eq_true, if_false]
      rw [H4.2 q3 h1 h2]
  rcases H4 with ⟨rfl, H4⟩ | ⟨rfl, H4⟩
  · simp only [if_true]
    rw [H4.1 q4]
    simp only []
    rcases prefix_cases _ _ _ hq4 hne4 with ⟨h1, h2⟩ | ⟨q5, rfl, hq5, hne5⟩
    · rw [H5.2 q4 h1 h2]
    rw [H5.1 q5]
    simp only []
    rcases prefix_cases _ _ _ hq5 hne5 with ⟨h1, h2⟩ | ⟨q6, rfl, hq6, hne6⟩
    · rw [H6.2 q5 h1 h2]
    rw [H6.1 q6]
    simp only []
    rw [H7.2 q6 hq6 hne6]
  · simp only [Bool.false_eq_true, if_false]
    rw [H4.1 q4]
    simp only []
    rcases prefix_cases _ _ _ hq4 hne4 with ⟨h1, h2⟩ | ⟨q5, rfl, hq5, hne5⟩
    · rw [H5.2 q4 h1 h2]
    rw [H5.1 q5]
    simp only []
    rcases prefix_cases _ _ _ hq5 hne5 with ⟨h1, h2⟩ | ⟨q6, rfl, hq6, hne6⟩
    · rw [H6.2 q5 h1 h2]
    rw [H6.1 q6]
    simp only []
    rw [H7.2 q6 hq6 hne6]

/-! ## The index key codec: claims -/

/-- What decoding an encoded key gives: every field of the key, with a negative
offset replaced by the sentinel `-1`. -/
theorem decode_encode_aux (k : fileIndexKey) (hw : k.WellTyped) (out : List Byte)
    (h : k.encode = .ok out) (hp : hexEncode (hexDecode k.Packfile).1 = k.Packfile)
    (ht : hexEncode (hexDecode k.Tree).1 = k.Tree) :
    (0 ≤ k.Offset ∧ fileIndexKey.decode out = .ok { k with Hash := [] }) ∨
    (k.Offset < 0 ∧ fileIndexKey.decode out =
      .ok { k with Hash := hexEncode (hexDecode k.Hash).1, Offset := -1 } ∧
      (hexEncode (hexDecode k.Hash).1).length = 2 * hashSize) := by
  obtain ⟨ho, hm, hr, hn⟩ := hw
  obtain ⟨p, ref, t, hp1, hpl, ht1, htl, hcase, rfl⟩ := encode_layout_aux k out h
  have ep : p = (hexDecode k.Packfile).1 := by
    unfold encHash at hp1; split at hp1
    · cases hp1; rfl
    · cases hp1
  have et : t = (hexDecode k.Tree).1 := by
    unfold encHash at ht1; split at ht1
    · cases ht1; rfl
    · cases ht1
  rcases hcase with ⟨h0, rfl⟩ | ⟨h0, href, hrl⟩
  · left
    refine ⟨h0, ?_⟩
    have hd := decode_packed k.Repository k.Name p t k.Offset k.Mode hr hn hpl htl ho hm []
    rw [List.append_nil] at hd
    rw [decide_eq_true h0, hd, ep, et, hp, ht]
  · right
    have er : ref = (hexDecode k.Hash).1 := by
      unfold encHash at href; split at href
      · cases href; rfl
      · cases href
    have hd := decode_loose k.Repository k.Name p ref t k.Mode hr hn hpl hrl htl hm []
    rw [List.append_nil] at hd
    have hf : decide (0 ≤ k.Offset) = false := decide_eq_false (by omega)
    refine ⟨h0, ?_, ?_⟩
    · rw [hf, hd, ep, et, er, hp, ht]
    · rw [hexEncode_length, ← er, hrl]

theorem encode_ok_of_valid (k : fileIndexKey) (hv : k.Valid) : ∃ out, k.encode = .ok out := by
  obtain ⟨_, hp, ht, hcase⟩ := hv
  obtain ⟨hp1, _, _⟩ := encHash_of_wellFormed _ hp
  obtain ⟨ht1, _, _⟩ := encHash_of_wellFormed _ ht
  rcases hcase with ⟨h0, _⟩ | ⟨h0, hh⟩
  · exact ⟨_, encode_ok_packed k _ _ h0 hp1 ht1⟩
  · obtain ⟨hh1, _, _⟩ := encHash_of_wellFormed _ hh
    exact ⟨_, encode_ok_loose k _ _ _ h0 hp1 hh1 ht1⟩

/-- C1, as stated, fails: a valid loose key whose offset is `-2` encodes, and the
bytes decode to a key whose offset is `-1`, which is another key. -/
theorem roundtrip_changes_negative_offset :
    sampleLooseKey2.Valid ∧ ∃ bs, sampleLooseKey2.encode = .ok bs ∧
      fileIndexKey.decode bs = .ok sampleLooseKey ∧ sampleLooseKey ≠ sampleLooseKey2 := by
  set_option maxRecDepth 100000 in
  exact ⟨by decide, _, rfl, by decide, by decide⟩

/-- Decoding the bytes of a valid key: every field of the key, with a negative
offset replaced by the sentinel `-1`. -/
theorem decode_encode_valid (k : fileIndexKey) (hv : k.Valid) :
    ∃ bs, k.encode = .ok bs ∧
      fileIndexKey.decode bs = .ok { k with Offset := if 0 ≤ k.Offset then k.Offset else -1 } := by
  obtain ⟨bs, hbs⟩ := encode_ok_of_valid k hv
  obtain ⟨hw, hp, ht, hcase⟩ := hv
  obtain ⟨_, _, hp3⟩ := encHash_of_wellFormed _ hp
  obtain ⟨_, _, ht3⟩ := encHash_of_wellFormed _ ht
  refine ⟨bs, hbs, ?_⟩
  rcases decode_encode_aux k hw bs hbs hp3 ht3 with ⟨h0, hd⟩ | ⟨h0, hd, _⟩
  · have hh : k.Hash = [] := by
      rcases hcase with ⟨_, hh⟩ | ⟨h1, _⟩
      · exact hh
      · omega
    have e : ({ k with Hash := [] } : fileIndexKey) = k := by rw [← hh]
    rw [hd, e, if_pos h0]
  · have hh : WellFormedHash k.Hash := by
      rcases hcase with ⟨h1, _⟩ | ⟨_, hh⟩
      · omega
      · exact hh
    obtain ⟨_, _, hh3⟩ := encHash_of_wellFormed _ hh
    rw [hd, hh3, if_neg (by omega)]

/-- C1 (amended): for every valid file index key `k`, `encode` succeeds and
`decode` of the bytes succeeds with a key equal to `k` in every field except
that a negative `Offset` is decoded as `-1`; so the decoded key is `k` itself
when the reference is packed or is loose with `Offset = -1`. -/
theorem fileIndexKey_decode_encode (k : fileIndexKey) (hv : k.Valid) :
    ∃ bs, k.encode = .ok bs ∧
      fileIndexKey.decode bs = .ok { k with Offset := if 0 ≤ k.Offset then k.Offset else -1 } ∧
      ((0 ≤ k.Offset ∨ k.Offset = -1) → fileIndexKey.decode bs = .ok k) := by
  obtain ⟨bs, hbs, hd⟩ := decode_encode_valid k hv
  refine ⟨bs, hbs, hd, fun h1 => ?_⟩
  rw [hd]
  by_cases h0 : 0 ≤ k.Offset
  · rw [if_pos h0]
  · have h2 : k.Offset = -1 := by omega
    rw [if_neg h0, ← h2]

/-- Witness of `fileIndexKey_decode_encode` at a packed key. -/
theorem fileIndexKey_decode_encode_witness :
    samplePackedKey.Valid ∧ ∃ bs, samplePackedKey.encode = .ok bs ∧
      fileIndexKey.decode bs =
        .ok { samplePackedKey with
              Offset := if 0 ≤ samplePackedKey.Offset then samplePackedKey.Offset else -1 } ∧
      ((0 ≤ samplePackedKey.Offset ∨ samplePackedKey.Offset = -1) →
        fileIndexKey.decode bs = .ok samplePackedKey) := by
  set_option maxRecDepth 100000 in
  exact ⟨by decide, fileIndexKey_decode_encode samplePackedKey (by decide)⟩

theorem readHash_ok_length (b : List Byte) (v : Str × List Byte) (h : readHash b = .ok v) :
    v.1.length = 2 * hashSize := by
  unfold readHash at h
  split at h
  · cases h
  · rename_i hl
    cases h
    simp only [hexEncode_length, List.length_take]
    omega

/-- A decoded key has no hash, or has the sentinel offset and a hash of forty
digits. -/
theorem decode_inv (d : List Byte) (k : fileIndexKey) (h : fileIndexKey.decode d = .ok k) :
    k.Hash = [] ∨ (k.Offset = -1 ∧ k.Hash.length = 2 * hashSize) := by
  unfold fileIndexKey.decode at h
  simp only [bind, Except.bind, pure, Except.pure] at h
  cases h1 : readString d with
  | error e => rw [h1] at h; cases h
  | ok v1 =>
    rw [h1] at h; simp only [] at h
    cases h2 : readHash v1.2 with
    | error e => rw [h2] at h; cases h
    | ok v2 =>
      rw [h2] at h; simp only [] at h
      cases h3 : readBool v2.2 with
      | error e => rw [h3] at h; cases h
      | ok v3 =>
        rw [h3] at h; simp only [] at h
        by_cases hb : v3.1 = true
        · simp only [hb, if_true] at h
          cases h4 : readInt64 v3.2 with
          | error e => rw [h4] at h; cases h
          | ok v4 =>
            rw [h4] at h; simp only [] at h
            cases h5 : readString v4.2 with
            | error e => rw [h5] at h; cases h
            | ok v5 =>
              rw [h5] at h; simp only [] at h
              cases h6 : readInt64 v5.2 with
              | error e => rw [h6] at h; cases h
              | ok v6 =>
                rw [h6] at h; simp only [] at h
                cases h7 : readHash v6.2 with
                | error e => rw [h7] at h; cases h
                | ok v7 =>
                  rw [h7] at h; simp only [] at h
                  cases h
                  exact Or.inl rfl
        · simp only [hb, if_false] at h
          cases h4 : readHash v3.2 with
          | error e => rw [h4] at h; cases h
          | ok v4 =>
            rw [h4] at h; simp only [] at h
            cases h5 : readString v4.2 with
            | error e => rw [h5] at h; cases h
            | ok v5 =>
              rw [h5] at h; simp only [] at h
              cases h6 : readInt64 v5.2 with
              | error e => rw [h6] at h; cases h
              | ok v6 =>
                rw [h6] at h; simp only [] at h
                cases h7 : readHash v6.2 with
                | error e => rw [h7] at h; cases h
                | ok v7 =>
                  rw [h7] at h; simp only [] at h
                  cases h
                  exact Or.inr ⟨rfl, readHash_ok_length _ _ h4⟩

/-- What the first fields of a decodable input hold: the discriminator is set,
the offset field is the decoded offset and the decoded hash is empty; or the
discriminator is clear, the decoded offset is the sentinel and the decoded hash
has forty digits. -/
theorem decode_inv_reads (d : List Byte) (k : fileIndexKey)
    (h : fileIndexKey.decode d = .ok k) :
    (k.Hash = [] ∧ ∃ r b1 p b2 b3 b4, readString d = .ok (r, b1) ∧ readHash b1 = .ok (p, b2) ∧
        readBool b2 = .ok (true, b3) ∧ readInt64 b3 = .ok (k.Offset, b4)) ∨
    (k.Offset = -1 ∧ k.Hash.length = 2 * hashSize ∧
      ∃ r b1 p b2 b3, readString d = .ok (r, b1) ∧ readHash b1 = .ok (p, b2) ∧
        readBool b2 = .ok (false, b3)) := by
  unfold fileIndexKey.decode at h
  simp only [bind, Except.bind, pure, Except.pure] at h
  cases h1 : readString d with
  | error e => rw [h1] at h; cases h
  | ok v1 =>
    rw [h1] at h; simp only [] at h
    cases h2 : readHash v1.2 with
    | error e => rw [h2] at h; cases h
    | ok v2 =>
      rw [h2] at h; simp only [] at h
      cases h3 : readBool v2.2 with
      | error e => rw [h3] at h; cases h
      | ok v3 =>
        rw [h3] at h; simp only [] at h
        by_cases hb : v3.1 = true
        · simp only [hb, if_true] at h
          cases h4 : readInt64 v3.2 with
          | error e => rw [h4] at h; cases h
          | ok v4 =>
            rw [h4] at h; simp only [] at h
            cases h5 : readString v4.2 with
            | error e => rw [h5] at h; cases h
            | ok v5 =>
              rw [h5] at h; simp only [] at h
              cases h6 : readInt64 v5.2 with
              | error e => rw [h6] at h; cases h
              | ok v6 =>
                rw [h6] at h; simp only [] at h
                cases h7 : readHash v6.2 with
                | error e => rw [h7] at h; cases h
                | ok v7 =>
                  rw [h7] at h; simp only [] at h
                  cases h
                  have e3 : v3 = (true, v3.2) := by rw [← hb]
                  rw [e3] at h3
                  exact Or.inl ⟨rfl, v1.1, v1.2, v2.1, v2.2, v3.2, v4.2, rfl, h2, h3, h4⟩
        · have hb' : v3.1 = false := by simpa using hb
          simp only [hb, if_false] at h
          cases h4 : readHash v3.2 with
          | error e => rw [h4] at h; cases h
          | ok v4 =>
            rw [h4] at h; simp only [] at h
            cases h5 : readString v4.2 with
            | error e => rw [h5] at h; cases h
            | ok v5 =>
              rw [h5] at h; simp only [] at h
              cases h6 : readInt64 v5.2 with
              | error e => rw [h6] at h; cases h
              | ok v6 =>
                rw [h6] at h; simp only [] at h
                cases h7 : readHash v6.2 with
                | error e => rw [h7] at h; cases h
                | ok v7 =>
                  rw [h7] at h; simp only [] at h
                  cases h
                  have e3 : v3 = (false, v3.2) := by rw [← hb']
                  rw [e3] at h3
                  exact Or.inr ⟨rfl, readHash_ok_length _ _ h4, v1.1, v1.2, v2.1, v2.2, v3.2,
                    rfl, h2, h3⟩

/-- C2, as stated, fails: these bytes decode, and the decoded key has a negative
offset and an empty hash, so neither of the two is populated. -/
theorem decode_neither_populated :
    ∃ k, fileIndexKey.decode negativeOffsetBytes = .ok k ∧ ¬ (0 ≤ k.Offset) ∧ k.Hash = [] := by
  set_option maxRecDepth 100000 in
  exact ⟨{ Repository := [], Packfile := zeroHashText, Hash := [], Offset := -1, Name := [],
           Mode := 0, Tree := zeroHashText }, by decide, by decide, rfl⟩

/-- C2 (amended): for every byte sequence `d` on which `decode` succeeds, the
decoded key has exactly one of `Offset >= 0` and a non-empty `Hash` populated,
never both, and never neither except when the discriminator of `d` is set and
its offset field holds a negative value, which is then the decoded offset.  So
it has exactly one whenever `d` is the output of `encode` on a key. -/
theorem decode_reference_exclusive (d : List Byte) (k : fileIndexKey)
    (h : fileIndexKey.decode d = .ok k) :
    (((0 ≤ k.Offset ∧ k.Hash = []) ∨ (k.Offset < 0 ∧ k.Hash ≠ [])) ∨
      (k.Offset < 0 ∧ k.Hash = [] ∧
        ∃ r b1 p b2 b3 b4, readString d = .ok (r, b1) ∧ readHash b1 = .ok (p, b2) ∧
          readBool b2 = .ok (true, b3) ∧ readInt64 b3 = .ok (k.Offset, b4))) ∧
    ¬ (0 ≤ k.Offset ∧ k.Hash ≠ []) ∧
    (∀ k0 : fileIndexKey, k0.WellTyped → k0.encode = .ok d →
      (0 ≤ k.Offset ∧ k.Hash = []) ∨ (k.Offset < 0 ∧ k.Hash ≠ [])) := by
  refine ⟨?_, ?_, ?_⟩
  · rcases decode_inv_reads d k h with ⟨hh, hreads⟩ | ⟨ho, hl, _⟩
    · by_cases h0 : 0 ≤ k.Offset
      · exact Or.inl (Or.inl ⟨h0, hh⟩)
      · exact Or.inr ⟨by omega, hh, hreads⟩
    · refine Or.inl (Or.inr ⟨by omega, ?_⟩)
      intro hnil
      rw [hnil] at hl
      simp [hashSize] at hl
  · rintro ⟨h0, hne⟩
    rcases decode_inv d k h with hh | ⟨ho, _⟩
    · exact hne hh
    · omega
  · intro k0 hw he
    obtain ⟨ho, hm, hr, hn⟩ := hw
    obtain ⟨p, ref, t, hp1, hpl, ht1, htl, hcase, rfl⟩ := encode_layout_aux k0 d he
    rcases hcase with ⟨h0, rfl⟩ | ⟨h0, href, hrl⟩
    · left
      have hd := decode_packed k0.Repository k0.Name p t k0.Offset k0.Mode hr hn hpl htl ho hm []
      rw [List.append_nil] at hd
      rw [decide_eq_true h0, hd] at h
      cases h
      exact ⟨h0, rfl⟩
    · right
      have hd := decode_loose k0.Repository k0.Name p ref t k0.Mode hr hn hpl hrl htl hm []
      rw [List.append_nil] at hd
      have hf : decide (0 ≤ k0.Offset) = false := decide_eq_false (by omega)
      rw [hf, hd] at h
      cases h
      refine ⟨show (-1 : Int) < 0 by decide, ?_⟩
      intro hnil
      have := congrArg List.length hnil
      rw [hexEncode_length, hrl] at this
      simp [hashSize] at this

/-- Witness of `decode_reference_exclusive` at the bytes of a loose key followed
by three more bytes, which are not the output of `encode` on any key. -/
theorem decode_reference_exclusive_witness :
    fileIndexKey.decode (sampleLooseKeyBytes ++ [7, 7, 7]) = .ok sampleLooseKey ∧
    (((0 ≤ sampleLooseKey.Offset ∧ sampleLooseKey.Hash = []) ∨
        (sampleLooseKey.Offset < 0 ∧ sampleLooseKey.Hash ≠ [])) ∨
      (sampleLooseKey.Offset < 0 ∧ sampleLooseKey.Hash = [] ∧
        ∃ r b1 p b2 b3 b4, readString (sampleLooseKeyBytes ++ [7, 7, 7]) = .ok (r, b1) ∧
          readHash b1 = .ok (p, b2) ∧ readBool b2 = .ok (true, b3) ∧
          readInt64 b3 = .ok (sampleLooseKey.Offset, b4))) ∧
    ¬ (0 ≤ sampleLooseKey.Offset ∧ sampleLooseKey.Hash ≠ []) ∧
    (∀ k0 : fileIndexKey, k0.WellTyped → k0.encode = .ok (sampleLooseKeyBytes ++ [7, 7, 7]) →
      (0 ≤ sampleLooseKey.Offset ∧ sampleLooseKey.Hash = []) ∨
      (sampleLooseKey.Offset < 0 ∧ sampleLooseKey.Hash ≠ [])) := by
  have hd : fileIndexKey.decode (sampleLooseKeyBytes ++ [7, 7, 7]) = .ok sampleLooseKey := by
    set_option maxRecDepth 100000 in
    decide
  exact ⟨hd, decode_reference_exclusive _ sampleLooseKey hd⟩

/-- C3: for every valid file index key `k`, `encode` succeeds and `decode` of
every strict prefix of the bytes, the empty sequence included, is a decoding
error. -/
theorem decode_rejects_strict_prefix (k : fileIndexKey) (hv : k.Valid) :
    ∃ bs, k.encode = .ok bs ∧ fileIndexKey.decode [] = .error .decoding ∧
      ∀ p, p <+: bs → p ≠ bs → fileIndexKey.decode p = .error .decoding := by
  obtain ⟨bs, hbs⟩ := encode_ok_of_valid k hv
  obtain ⟨⟨ho, hm, hr, hn⟩, _, _, _⟩ := hv
  obtain ⟨p, ref, t, hp1, hpl, ht1, htl, hcase, rfl⟩ := encode_layout_aux k bs hbs
  have hall : ∀ q, q <+: encString k.Repository ++ p ++ encBool (decide (0 ≤ k.Offset)) ++ ref ++
      encString k.Name ++ encInt64 k.Mode ++ t →
      q ≠ encString k.Repository ++ p ++ encBool (decide (0 ≤ k.Offset)) ++ ref ++
      encString k.Name ++ encInt64 k.Mode ++ t → fileIndexKey.decode q = .error .decoding := by
    intro q hq hne
    simp only [List.append_assoc] at hq hne
    refine decode_strict_prefix_aux _ _ _ _ _ _ _ k.Repository (hexEncode p) (hexEncode ref)
      k.Name (hexEncode t) (decide (0 ≤ k.Offset)) k.Offset k.Mode (reads_string _ hr)
      (reads_hash _ hpl) (reads_bool _) ?_ (reads_string _ hn) (reads_int64 _ hm)
      (reads_hash _ htl) q hq hne
    rcases hcase with ⟨h0, rfl⟩ | ⟨h0, _, hrl⟩
    · exact Or.inl ⟨decide_eq_true h0, reads_int64 _ ho⟩
    · exact Or.inr ⟨decide_eq_false (by omega), reads_hash _ hrl⟩
  refine ⟨_, hbs, ?_, hall⟩
  apply hall [] List.nil_prefix
  intro hnil
  have := congrArg List.length hnil
  simp only [encString, encInt64_length, List.length_append, List.length_nil] at this
  omega

/-- Witness of `decode_rejects_strict_prefix` at a loose key. -/
theorem decode_rejects_strict_prefix_witness :
    sampleLooseKey.Valid ∧ ∃ bs, sampleLooseKey.encode = .ok bs ∧
      fileIndexKey.decode [] = .error .decoding ∧
      ∀ p, p <+: bs → p ≠ bs → fileIndexKey.decode p = .error .decoding := by
  set_option maxRecDepth 100000 in
  exact ⟨by decide, decode_rejects_strict_prefix sampleLooseKey (by decide)⟩

/-- C4: for every key `k` that encodes without error, the bytes are, in this
order: the length-prefixed `Repository`, the 20 bytes of the `Packfile` hash,
the one-byte discriminator `Offset >= 0`, then the 8 bytes of `Offset` when
`Offset >= 0` and otherwise the 20 bytes of `Hash` (never both), then the
length-prefixed `Name`, the 8 bytes of `Mode` and the 20 bytes of the `Tree`
hash. -/
theorem encode_layout (k : fileIndexKey) (out : List Byte) (h : k.encode = .ok out) :
    ∃ p ref t, encHash k.Packfile = .ok p ∧ p.length = hashSize ∧
      encHash k.Tree = .ok t ∧ t.length = hashSize ∧
      ((0 ≤ k.Offset ∧ ref = encInt64 k.Offset ∧ ref.length = 8) ∨
        (k.Offset < 0 ∧ encHash k.Hash = .ok ref ∧ ref.length = hashSize)) ∧
      (encInt64 k.Mode).length = 8 ∧
      out = (encInt64 (k.Repository.length : Int) ++ k.Repository) ++ p ++
        [if 0 ≤ k.Offset then 1 else 0] ++ ref ++
        (encInt64 (k.Name.length : Int) ++ k.Name) ++ encInt64 k.Mode ++ t := by
  obtain ⟨p, ref, t, hp1, hpl, ht1, htl, hcase, rfl⟩ := encode_layout_aux k out h
  refine ⟨p, ref, t, hp1, hpl, ht1, htl, ?_, encInt64_length _, ?_⟩
  · rcases hcase with ⟨h0, rfl⟩ | ⟨h0, h1, h2⟩
    · exact Or.inl ⟨h0, rfl, encInt64_length _⟩
    · exact Or.inr ⟨h0, h1, h2⟩
  · by_cases h0 : 0 ≤ k.Offset <;> simp [encString, encBool, h0]

/-- Witness of `encode_layout` at a packed key. -/
theorem encode_layout_witness :
    ∃ out, samplePackedKey.encode = .ok out ∧
      ∃ p ref t, encHash samplePackedKey.Packfile = .ok p ∧ p.length = hashSize ∧
      encHash samplePackedKey.Tree = .ok t ∧ t.length = hashSize ∧
      ((0 ≤ samplePackedKey.Offset ∧ ref = encInt64 samplePackedKey.Offset ∧ ref.length = 8) ∨
        (samplePackedKey.Offset < 0 ∧ encHash samplePackedKey.Hash = .ok ref ∧
          ref.length = hashSize)) ∧
      (encInt64 samplePackedKey.Mode).length = 8 ∧
      out = (encInt64 (samplePackedKey.Repository.length : Int) ++ samplePackedKey.Repository) ++
        p ++ [if 0 ≤ samplePackedKey.Offset then 1 else 0] ++ ref ++
        (encInt64 (samplePackedKey.Name.length : Int) ++ samplePackedKey.Name) ++
        encInt64 samplePackedKey.Mode ++ t :=
  ⟨_, rfl, encode_layout samplePackedKey _ rfl⟩

/-! ## Content policy -/

theorem isBinaryLoop_eq (i : Nat) (data : List Byte) :
    isBinaryLoop none i data = .ok ((data.take (sniffLen - i)).any (fun b => decide (b = 0))) := by
  induction data generalizing i with
  | nil => simp [isBinaryLoop]
  | cons b rest ih =>
    unfold isBinaryLoop
    by_cases hi : i ≥ sniffLen
    · have : sniffLen - i = 0 := by omega
      simp [hi, this]
    · have hs : sniffLen - i = (sniffLen - (i + 1)) + 1 := by omega
      rw [if_neg hi, hs, List.take_succ_cons, List.any_cons]
      by_cases hb : b = 0
      · simp [hb]
      · simp [hb, ih]

theorem isBinary_readable (c : Blob) (data : List Byte) (h : c.Readable data) :
    isBinary c = .ok ((data.take sniffLen).any (fun b => decide (b = 0))) := by
  unfold Blob.Readable at h
  unfold isBinary
  rw [h]
  exact isBinaryLoop_eq 0 data

theorem any_zero_eq_false_iff (l : List Byte) :
    l.any (fun b => decide (b = 0)) = false ↔ ∀ b ∈ l, b ≠ 0 := by
  simp [List.any_eq_false]

/-- The content cell of a readable blob. -/
theorem blobContent_readable (cfg : Config) (c : Blob) (readContent : Bool) (data : List Byte)
    (h : c.Readable data) :
    blobContent cfg c readContent =
      .ok (if ContentPolicy cfg readContent c.Size data then data else []) := by
  have hb := isBinary_readable c data h
  have hr : c.Reader = .ok { data := data, tail := none } := h
  unfold blobContent ContentPolicy
  cases readContent with
  | false => simp [bind, Except.bind, pure, Except.pure]
  | true =>
    by_cases hA : cfg.blobsAllowBinary = true
    · by_cases hs : c.Size ≤ cfg.blobsMaxSize
      · simp [bind, Except.bind, pure, Except.pure, hs, hr, ReadAll, hA]
      · simp [bind, Except.bind, pure, Except.pure, hs, hA]
    · have hA' : cfg.blobsAllowBinary = false := by simpa using hA
      by_cases hs : c.Size ≤ cfg.blobsMaxSize
      · cases hz : (data.take sniffLen).any (fun b => decide (b = 0)) with
        | true =>
          have hn : ¬ ∀ b ∈ data.take sniffLen, b ≠ 0 := by
            rw [← any_zero_eq_false_iff, hz]; simp
          simp only [bind, Except.bind, pure, Except.pure, hb, hz, hs, hA']
          simp [hn]
        | false =>
          have hn : ∀ b ∈ data.take sniffLen, b ≠ 0 := (any_zero_eq_false_iff _).mp hz
          simp only [bind, Except.bind, pure, Except.pure, hb, hz, hs, hr, ReadAll, hA']
          simp only [Bool.not_false, Bool.and_self, decide_True, Bool.not_true, if_true,
            Bool.false_eq_true, false_or, true_and]
          rw [if_pos hn]
      · simp only [bind, Except.bind, pure, Except.pure, hb, hs, hA']
        simp

/-- C5: for every blob whose content is read without I/O error, `blobContent`
returns the full content when the content is requested, the size is at most
`blobsMaxSize`, and binary content is allowed or none of the first `sniffLen`
bytes is zero; in every other case it returns empty content and no error.  With
a maximum of 10 and binary content disallowed, a 5 byte blob with a zero byte
yields empty content, a 5 byte blob without one yields its bytes, and a 20 byte
blob without one yields empty content. -/
theorem blobContent_policy (cfg : Config) (c : Blob) (readContent : Bool) (data : List Byte)
    (h : c.Readable data) :
    blobContent cfg c readContent =
        .ok (if ContentPolicy cfg readContent c.Size data then data else []) ∧
    (cfg = sampleConfig → readContent = true → c.Size = 5 → data.length = 5 →
      ((0 : Byte) ∈ data → blobContent cfg c readContent = .ok []) ∧
      ((0 : Byte) ∉ data → blobContent cfg c readContent = .ok data)) ∧
    (cfg = sampleConfig → readContent = true → c.Size = 20 → data.length = 20 →
      (0 : Byte) ∉ data → blobContent cfg c readContent = .ok []) := by
  have main := blobContent_readable cfg c readContent data h
  refine ⟨main, ?_, ?_⟩
  · intro hc hr hs hl
    subst hc hr
    have ht : data.take sniffLen = data := List.take_of_length_le (by rw [hl]; decide)
    constructor
    · intro hz
      rw [main, if_neg]
      rintro ⟨_, _, h3⟩
      rcases h3 with h3 | h3
      · cases h3
      · rw [ht] at h3
        exact h3 0 hz rfl
    · intro hz
      rw [main, if_pos]
      refine ⟨rfl, by rw [hs]; decide, Or.inr ?_⟩
      rw [ht]
      intro b hb hb0
      exact hz (hb0 ▸ hb)
  · intro hc hr hs hl _
    subst hc hr
    rw [main, if_neg]
    rintro ⟨_, h2, _⟩
    rw [hs] at h2
    exact absurd h2 (by decide)

/-- Witness of `blobContent_policy` at a five byte text blob. -/
theorem blobContent_policy_witness :
    (blobOf [104, 101, 108, 108, 111]).Readable [104, 101, 108, 108, 111] ∧
    blobContent sampleConfig (blobOf [104, 101, 108, 108, 111]) true =
      .ok [104, 101, 108, 108, 111] :=
  ⟨rfl, ((blobContent_policy sampleConfig (blobOf [104, 101, 108, 108, 111]) true
    [104, 101, 108, 108, 111] rfl).2.1 rfl rfl rfl rfl).2 (by decide)⟩

/-! ## Draining -/

theorem drain_succ_congr {α σ : Type} (next : σ → Outcome α × σ) (n : Nat) (s s' : σ)
    (h : next s = next s') : drain next (n + 1) s = drain next (n + 1) s' := by
  simp only [drain, h]

theorem drain_succ_ok {α σ : Type} (next : σ → Outcome α × σ) (n : Nat) (s s' : σ) (r : α)
    (h : next s = (.ok r, s')) :
    drain next (n + 1) s =
      (r :: (drain next n s').1, (drain next n s').2.1, (drain next n s').2.2) := by
  simp only [drain, h]

theorem drain_succ_err {α σ : Type} (next : σ → Outcome α × σ) (n : Nat) (s s' : σ) (e : Err)
    (h : next s = (.err e, s')) : drain next (n + 1) s = ([], .stopped e, s') := by
  simp only [drain, h]

theorem drain_succ_nilPanic {α σ : Type} (next : σ → Outcome α × σ) (n : Nat) (s s' : σ)
    (h : next s = (.nilPanic, s')) : drain next (n + 1) s = ([], .nilPanic, s') := by
  simp only [drain, h]

/-! ## The blobs table: scan by hash -/

theorem drop_succ_of_drop_eq_cons {α : Type} (l : List α) (n : Nat) (h : α) (rest : List α)
    (hd : l.drop n = h :: rest) : l.drop (n + 1) = rest := by
  have : l.drop (n + 1) = (l.drop n).drop 1 := by rw [List.drop_drop, Nat.add_comm]
  rw [this, hd]
  rfl

theorem rowOfSelector_of_ok (cfg : Config) (repo : Repository) (rc : Bool) (h : Str)
    (hs : SelectorOk cfg repo rc h) :
    (repo.BlobObject (NewHash h) = .error Err.notFound ∧ rowOfSelector cfg repo rc h = none) ∨
    ∃ blob row, repo.BlobObject (NewHash h) = .ok blob ∧
      blobToRow cfg repo.ID blob rc = .ok row ∧ rowOfSelector cfg repo rc h = some row := by
  rcases hs with hn | ⟨blob, row, hb, hr⟩
  · exact Or.inl ⟨hn, by simp [rowOfSelector, hn]⟩
  · exact Or.inr ⟨blob, row, hb, hr, by simp [rowOfSelector, hb, hr]⟩

/-- Draining from a position where all the remaining selector hashes are found
or not found. -/
theorem byHash_drain_ok (cfg : Config) (repo : Repository) (rest : List Str) :
    ∀ (i : blobsByHashIter) (fuel : Nat), i.repo = some repo → i.hashes.drop i.pos = rest →
      (∀ h ∈ rest, SelectorOk cfg repo i.readContent h) → fuel > rest.length →
      (drain (blobsByHashIter.Next cfg) fuel i).1 =
          rest.filterMap (rowOfSelector cfg repo i.readContent) ∧
        (drain (blobsByHashIter.Next cfg) fuel i).2.1 = .stopped Err.eof := by
  induction rest with
  | nil =>
    intro i fuel _ hd _ hf
    obtain ⟨n, rfl⟩ : ∃ n, fuel = n + 1 := ⟨fuel - 1, by omega⟩
    have hn : blobsByHashIter.Next cfg i = (.err Err.eof, i) := by
      simp [blobsByHashIter.Next, hd, blobsByHashIter.loop]
    rw [drain_succ_err _ _ _ _ _ hn]
    exact ⟨rfl, rfl⟩
  | cons h rest ih =>
    intro i fuel hr hd hall hf
    obtain ⟨n, rfl⟩ : ∃ n, fuel = n + 1 := ⟨fuel - 1, by omega⟩
    have hd' : ({ i with pos := i.pos + 1 } : blobsByHashIter).hashes.drop
        ({ i with pos := i.pos + 1 } : blobsByHashIter).pos = rest :=
      drop_succ_of_drop_eq_cons _ _ _ _ hd
    have hall' : ∀ x ∈ rest, SelectorOk cfg repo i.readContent x :=
      fun x hx => hall x (List.mem_cons_of_mem _ hx)
    rcases rowOfSelector_of_ok cfg repo i.readContent h (hall h (List.mem_cons_self _ _)) with
      ⟨hnf, hnone⟩ | ⟨blob, row, hb, hrow, hsome⟩
    · have hn : blobsByHashIter.Next cfg i =
          blobsByHashIter.Next cfg { i with pos := i.pos + 1 } := by
        simp only [blobsByHashIter.Next, hd, hd']
        simp [blobsByHashIter.loop, hr, hnf]
      rw [drain_succ_congr _ _ _ _ hn, List.filterMap_cons, hnone]
      exact ih { i with pos := i.pos + 1 } (n + 1) hr hd' hall' (by simp at hf ⊢; omega)
    · have hn : blobsByHashIter.Next cfg i = (.ok row, { i with pos := i.pos + 1 }) := by
        simp only [blobsByHashIter.Next, hd]
        simp [blobsByHashIter.loop, hr, hb, hrow]
      rw [drain_succ_ok _ _ _ _ _ hn, List.filterMap_cons, hsome]
      have := ih { i with pos := i.pos + 1 } n hr hd' hall' (by simp at hf ⊢; omega)
      exact ⟨by rw [this.1], this.2⟩

/-- Draining up to a selector hash whose lookup fails with another error than
not-found. -/
theorem byHash_drain_err (cfg : Config) (repo : Repository) (h : Str) (post : List Str)
    (e : Err) (he : repo.BlobObject (NewHash h) = .error e) (hne : e ≠ Err.notFound)
    (pre : List Str) :
    ∀ (i : blobsByHashIter) (fuel : Nat), i.repo = some repo →
      i.hashes.drop i.pos = pre ++ h :: post →
      (∀ x ∈ pre, SelectorOk cfg repo i.readContent x) → fuel > pre.length →
      (drain (blobsByHashIter.Next cfg) fuel i).1 =
          pre.filterMap (rowOfSelector cfg repo i.readContent) ∧
        (drain (blobsByHashIter.Next cfg) fuel i).2.1 = .stopped e := by
  induction pre with
  | nil =>
    intro i fuel hr hd _ hf
    obtain ⟨n, rfl⟩ : ∃ n, fuel = n + 1 := ⟨fuel - 1, by omega⟩
    have hn : blobsByHashIter.Next cfg i = (.err e, { i with pos := i.pos + 1 }) := by
      simp only [blobsByHashIter.Next, hd]
      simp [blobsByHashIter.loop, hr, he, hne]
    rw [drain_succ_err _ _ _ _ _ hn]
    exact ⟨rfl, rfl⟩
  | cons x pre ih =>
    intro i fuel hr hd hall hf
    obtain ⟨n, rfl⟩ : ∃ n, fuel = n + 1 := ⟨fuel - 1, by omega⟩
    have hd' : ({ i with pos := i.pos + 1 } : blobsByHashIter).hashes.drop
        ({ i with pos := i.pos + 1 } : blobsByHashIter).pos = pre ++ h :: post :=
      drop_succ_of_drop_eq_cons _ _ _ _ hd
    have hall' : ∀ y ∈ pre, SelectorOk cfg repo i.readContent y :=
      fun y hy => hall y (List.mem_cons_of_mem _ hy)
    rcases rowOfSelector_of_ok cfg repo i.readContent x (hall x (List.mem_cons_self _ _)) with
      ⟨hnf, hnone⟩ | ⟨blob, row, hb, hrow, hsome⟩
    · have hn : blobsByHashIter.Next cfg i =
          blobsByHashIter.Next cfg { i with pos := i.pos + 1 } := by
        simp only [blobsByHashIter.Next, hd, hd']
        simp [blobsByHashIter.loop, hr, hnf]
      rw [drain_succ_congr _ _ _ _ hn, List.filterMap_cons, hnone]
      exact ih { i with pos := i.pos + 1 } (n + 1) hr hd' hall' (by simp at hf ⊢; omega)
    · have hn : blobsByHashIter.Next cfg i = (.ok row, { i with pos := i.pos + 1 }) := by
        simp only [blobsByHashIter.Next, hd]
        simp [blobsByHashIter.loop, hr, hb, hrow]
      rw [drain_succ_ok _ _ _ _ _ hn, List.filterMap_cons, hsome]
      have := ih { i with pos := i.pos + 1 } n hr hd' hall' (by simp at hf ⊢; omega)
      exact ⟨by rw [this.1], this.2⟩

/-- C9: draining `blobsByHashIter` over a repository yields, in list order, one
row for each selector hash that names a blob of the repository and nothing for
each hash that is not found, and then reports the end of the sequence; and a
lookup error other than not-found, at the first hash that has one, is what the
draining ends with, after the rows of the hashes before it. -/
theorem blobsByHashIter_drain (cfg : Config) (repo : Repository) (tmpl : blobsByHashIter) :
    ∃ it, tmpl.NewIterator repo = .ok it ∧
      (∀ fuel, fuel > tmpl.hashes.length →
        (∀ h ∈ tmpl.hashes, SelectorOk cfg repo tmpl.readContent h) →
        (drain (blobsByHashIter.Next cfg) fuel it).1 =
            tmpl.hashes.filterMap (rowOfSelector cfg repo tmpl.readContent) ∧
          (drain (blobsByHashIter.Next cfg) fuel it).2.1 = .stopped Err.eof) ∧
      (∀ fuel pre h post e, tmpl.hashes = pre ++ h :: post → fuel > pre.length →
        (∀ x ∈ pre, SelectorOk cfg repo tmpl.readContent x) →
        repo.BlobObject (NewHash h) = .error e → e ≠ Err.notFound →
        (drain (blobsByHashIter.Next cfg) fuel it).1 =
            pre.filterMap (rowOfSelector cfg repo tmpl.readContent) ∧
          (drain (blobsByHashIter.Next cfg) fuel it).2.1 = .stopped e) := by
  refine ⟨{ repo := some repo, pos := 0, hashes := tmpl.hashes,
            readContent := tmpl.readContent }, rfl, ?_, ?_⟩
  · intro fuel hf hall
    exact byHash_drain_ok cfg repo tmpl.hashes _ fuel rfl rfl hall hf
  · intro fuel pre h post e hh hf hall he hne
    exact byHash_drain_err cfg repo h post e he hne pre _ fuel rfl (by simpa using hh) hall hf

/-- Witness of `blobsByHashIter_drain`: a hash that is found and one that is not. -/
theorem blobsByHashIter_drain_witness :
    ∃ it, sampleByHash.NewIterator sampleBlobRepo = .ok it ∧
      (drain (blobsByHashIter.Next sampleConfig) 3 it).1 =
        [[Value.text [114], Value.text zeroHashText, Value.int 2, Value.bytes [104, 105]]] ∧
      (drain (blobsByHashIter.Next sampleConfig) 3 it).2.1 = .stopped Err.eof := by
  obtain ⟨it, hit, h1, _⟩ := blobsByHashIter_drain sampleConfig sampleBlobRepo sampleByHash
  refine ⟨it, hit, ?_⟩
  have hz : NewHash zeroHashText = ZeroHash := by decide
  have hf : NewHash missingHashText ≠ ZeroHash := by decide
  have hok : ∀ h ∈ sampleByHash.hashes,
      SelectorOk sampleConfig sampleBlobRepo sampleByHash.readContent h := by
    intro h hh
    simp only [sampleByHash, List.mem_cons, List.mem_singleton, List.not_mem_nil, or_false] at hh
    rcases hh with rfl | rfl
    · exact Or.inr ⟨blobOf [104, 105], _, by simp [sampleBlobRepo, hz], rfl⟩
    · exact Or.inl (by simp [sampleBlobRepo, hf])
  have := h1 3 (by decide) hok
  have hrows : sampleByHash.hashes.filterMap
      (rowOfSelector sampleConfig sampleBlobRepo sampleByHash.readContent) =
      [[Value.text [114], Value.text zeroHashText, Value.int 2, Value.bytes [104, 105]]] := by
    simp only [sampleByHash, List.filterMap_cons, List.filterMap_nil, rowOfSelector,
      sampleBlobRepo, hz, hf, if_true, if_false]
    rfl
  rw [hrows] at this
  exact this

/-! ## The files table: the calls of `Next` during an error-free scan -/

theorem fileToRow_readable (cfg : Config) (repoID : Str) (treeHash : Hash) (f : File)
    (rc : Bool) (h : ∃ data, f.Blob.Readable data) :
    fileToRow cfg repoID treeHash f rc = .ok (fileRow cfg repoID rc treeHash f) := by
  obtain ⟨data, hd⟩ := h
  have hc := blobContent_readable cfg f.Blob rc data hd
  simp only [fileToRow, fileRow, hc, bind, Except.bind, pure, Except.pure]

theorem next_files_nil (cfg : Config) (b : filesIter) (seen : List Hash) (t : Hash)
    (cs : List Commit) :
    filesIter.Next cfg (b.during seen t (some []) cs) =
      filesIter.Next cfg (b.during seen t none cs) := by
  simp only [filesIter.Next, filesIter.during, Option.map, filesIter.filesLoop]

theorem next_files_skip (cfg : Config) (b : filesIter) (seen : List Hash) (t : Hash)
    (f : File) (fs : List File) (cs : List Commit) (hv : filesIter.shouldVisitFile b f = false) :
    filesIter.Next cfg (b.during seen t (some (f :: fs)) cs) =
      filesIter.Next cfg (b.during seen t (some fs) cs) := by
  have hv' : filesIter.shouldVisitFile (b.during seen t (some (f :: fs)) cs) f = false := hv
  simp only [filesIter.Next, filesIter.during, Option.map, filesIter.filesLoop] at hv' ⊢
  rw [if_pos hv']

theorem next_files_emit (cfg : Config) (b : filesIter) (seen : List Hash) (t : Hash)
    (f : File) (fs : List File) (cs : List Commit) (repo : Repository)
    (hr : b.repo = some repo) (hv : filesIter.shouldVisitFile b f = true)
    (hf : ∃ data, f.Blob.Readable data) :
    filesIter.Next cfg (b.during seen t (some (f :: fs)) cs) =
      (.ok (fileRow cfg repo.ID b.readContent t f), b.during seen t (some fs) cs) := by
  have hv' : ¬ filesIter.shouldVisitFile (b.during seen t (some (f :: fs)) cs) f = false := by
    have : filesIter.shouldVisitFile (b.during seen t (some (f :: fs)) cs) f = true := hv
    rw [this]; simp
  simp only [filesIter.Next, filesIter.during, Option.map, filesIter.filesLoop] at hv' ⊢
  rw [if_neg hv']
  simp only [filesIter.emit, hr, fileToRow_readable cfg repo.ID t f b.readContent hf]

theorem next_commits_nil (cfg : Config) (b : filesIter) (seen : List Hash) (t : Hash) :
    filesIter.Next cfg (b.during seen t none []) = (.err Err.eof, b.during seen t none []) := by
  simp only [filesIter.Next, filesIter.during, Option.map, filesIter.commitsLoop]

theorem next_commits_skip (cfg : Config) (b : filesIter) (seen : List Hash) (t : Hash)
    (c : Commit) (cs : List Commit)
    (hv : filesIter.shouldVisitTree { b with seen := seen } c.TreeHash = false) :
    filesIter.Next cfg (b.during seen t none (c :: cs)) =
      filesIter.Next cfg (b.during seen t none cs) := by
  have hv' : filesIter.shouldVisitTree (b.during seen t none (c :: cs)) c.TreeHash = false := hv
  simp only [filesIter.Next, filesIter.during, Option.map, filesIter.commitsLoop] at hv' ⊢
  rw [if_pos hv']

theorem next_commits_expand (cfg : Config) (b : filesIter) (seen : List Hash) (t : Hash)
    (c : Commit) (cs : List Commit)
    (hv : filesIter.shouldVisitTree { b with seen := seen } c.TreeHash = true)
    (hc : c.ErrorFree) :
    filesIter.Next cfg (b.during seen t none (c :: cs)) =
      filesIter.Next cfg (b.during (c.TreeHash :: seen) c.TreeHash (some c.files) cs) := by
  have hv' : ¬ filesIter.shouldVisitTree (b.during seen t none (c :: cs)) c.TreeHash = false := by
    have : filesIter.shouldVisitTree (b.during seen t none (c :: cs)) c.TreeHash = true := hv
    rw [this]; simp
  simp only [filesIter.Next, filesIter.during, Option.map, filesIter.commitsLoop] at hv' ⊢
  rw [if_neg hv', hc.1]

theorem treeRows_nil (cfg : Config) (repoID : Str) (b : filesIter) (t : Hash) :
    treeRows cfg repoID b t [] = [] := rfl

theorem treeRows_cons_visit (cfg : Config) (repoID : Str) (b : filesIter) (t : Hash) (f : File)
    (fs : List File) (hv : filesIter.shouldVisitFile b f = true) :
    treeRows cfg repoID b t (f :: fs) =
      fileRow cfg repoID b.readContent t f :: treeRows cfg repoID b t fs := by
  simp [treeRows, hv]

theorem treeRows_cons_skip (cfg : Config) (repoID : Str) (b : filesIter) (t : Hash) (f : File)
    (fs : List File) (hv : filesIter.shouldVisitFile b f = false) :
    treeRows cfg repoID b t (f :: fs) = treeRows cfg repoID b t fs := by
  simp [treeRows, hv]

/-- Draining while a tree is being expanded: the rows of the files still to come,
and then what the draining gives once the file cursor is at its end. -/
theorem drains_files (cfg : Config) (b : filesIter) (repo : Repository)
    (hr : b.repo = some repo) (seen : List Hash) (t : Hash) (cs : List Commit)
    (rows : List Row) (final : List Hash)
    (H : DrainsTo cfg (b.during seen t none cs) rows final) (fs : List File)
    (hfs : ∀ f ∈ fs, ∃ data, f.Blob.Readable data) :
    DrainsTo cfg (b.during seen t (some fs) cs) (treeRows cfg repo.ID b t fs ++ rows) final := by
  induction fs with
  | nil =>
    intro fuel hf
    obtain ⟨n, rfl⟩ : ∃ n, fuel = n + 1 := ⟨fuel - 1, by omega⟩
    rw [drain_succ_congr _ _ _ _ (next_files_nil cfg b seen t cs), treeRows_nil, List.nil_append]
    rw [treeRows_nil, List.nil_append] at hf
    exact H (n + 1) hf
  | cons f fs ih =>
    have ih' := ih (fun x hx => hfs x (List.mem_cons_of_mem _ hx))
    intro fuel hf
    obtain ⟨n, rfl⟩ : ∃ n, fuel = n + 1 := ⟨fuel - 1, by omega⟩
    cases hv : filesIter.shouldVisitFile b f with
    | false =>
      rw [drain_succ_congr _ _ _ _ (next_files_skip cfg b seen t f fs cs hv),
        treeRows_cons_skip _ _ _ _ _ _ hv]
      rw [treeRows_cons_skip _ _ _ _ _ _ hv] at hf
      exact ih' (n + 1) hf
    | true =>
      rw [drain_succ_ok _ _ _ _ _ (next_files_emit cfg b seen t f fs cs repo hr hv
        (hfs f (List.mem_cons_self _ _))), treeRows_cons_visit _ _ _ _ _ _ hv]
      rw [treeRows_cons_visit _ _ _ _ _ _ hv] at hf
      have := ih' n (by simp at hf ⊢; omega)
      exact ⟨by rw [this.1]; rfl, this.2.1, this.2.2⟩

theorem expanded_cons_visit (b : filesIter) (seen : List Hash) (c : Commit) (cs : List Commit)
    (hv : filesIter.shouldVisitTree { b with seen := seen } c.TreeHash = true) :
    expanded b seen (c :: cs) = c :: expanded b (c.TreeHash :: seen) cs := by
  simp [expanded, hv]

theorem expanded_cons_skip (b : filesIter) (seen : List Hash) (c : Commit) (cs : List Commit)
    (hv : filesIter.shouldVisitTree { b with seen := seen } c.TreeHash = false) :
    expanded b seen (c :: cs) = expanded b seen cs := by
  simp [expanded, hv]

/-- Draining between two trees: the rows of the trees that the scan expands among
the commits still to come. -/
theorem drains_commits (cfg : Config) (b : filesIter) (repo : Repository)
    (hr : b.repo = some repo) (cs : List Commit) (hcs : ∀ c ∈ cs, c.ErrorFree) :
    ∀ (seen : List Hash) (t : Hash),
      DrainsTo cfg (b.during seen t none cs) (scanRows cfg repo.ID b seen cs)
        (((expanded b seen cs).map (fun c => c.TreeHash)).reverse ++ seen) := by
  induction cs with
  | nil =>
    intro seen t fuel hf
    obtain ⟨n, rfl⟩ : ∃ n, fuel = n + 1 := ⟨fuel - 1, by omega⟩
    rw [drain_succ_err _ _ _ _ _ (next_commits_nil cfg b seen t)]
    exact ⟨rfl, rfl, rfl⟩
  | cons c cs ih =>
    have ih' := ih (fun x hx => hcs x (List.mem_cons_of_mem _ hx))
    have hc := hcs c (List.mem_cons_self _ _)
    intro seen t
    cases hv : filesIter.shouldVisitTree { b with seen := seen } c.TreeHash with
    | false =>
      intro fuel hf
      obtain ⟨n, rfl⟩ : ∃ n, fuel = n + 1 := ⟨fuel - 1, by omega⟩
      rw [drain_succ_congr _ _ _ _ (next_commits_skip cfg b seen t c cs hv)]
      simp only [scanRows, expanded_cons_skip _ _ _ _ hv] at hf ⊢
      exact ih' seen t (n + 1) hf
    | true =>
      have hd := drains_files cfg b repo hr (c.TreeHash :: seen) c.TreeHash cs _ _
        (ih' (c.TreeHash :: seen) c.TreeHash) c.files hc.2
      intro fuel hf
      obtain ⟨n, rfl⟩ : ∃ n, fuel = n + 1 := ⟨fuel - 1, by omega⟩
      rw [drain_succ_congr _ _ _ _ (next_commits_expand cfg b seen t c cs hv hc)]
      have hrows : scanRows cfg repo.ID b seen (c :: cs) =
          treeRows cfg repo.ID b c.TreeHash c.files ++
            scanRows cfg repo.ID b (c.TreeHash :: seen) cs := by
        simp [scanRows, expanded_cons_visit _ _ _ _ hv]
      rw [hrows] at hf ⊢
      have := hd (n + 1) hf
      refine ⟨this.1, this.2.1, ?_⟩
      rw [this.2.2, expanded_cons_visit _ _ _ _ hv]
      simp

/-! ## The trees that a scan expands -/

theorem shouldVisitTree_iff (b : filesIter) (seen : List Hash) (h : Hash) :
    filesIter.shouldVisitTree { b with seen := seen } h = true ↔
      h ∉ seen ∧ (b.treeHashes = [] ∨ h ∈ b.treeHashes) := by
  unfold filesIter.shouldVisitTree hashContains
  by_cases hs : h ∈ seen
  · simp [hs]
  · by_cases hn : b.treeHashes = []
    · simp [hs, hn]
    · have hl : b.treeHashes.length > 0 := List.length_pos.mpr hn
      by_cases hm : h ∈ b.treeHashes
      · simp [hs, hn, hm]
      · simp [hs, hn, hm, hl]

theorem expanded_not_seen (b : filesIter) (cs : List Commit) :
    ∀ seen, ∀ c ∈ expanded b seen cs, c.TreeHash ∉ seen := by
  induction cs with
  | nil => intro seen c hc; simp [expanded] at hc
  | cons c0 cs ih =>
    intro seen c hc
    cases hv : filesIter.shouldVisitTree { b with seen := seen } c0.TreeHash with
    | false =>
      rw [expanded_cons_skip _ _ _ _ hv] at hc
      exact ih seen c hc
    | true =>
      rw [expanded_cons_visit _ _ _ _ hv, List.mem_cons] at hc
      rcases hc with rfl | hc
      · exact ((shouldVisitTree_iff b seen _).mp hv).1
      · exact fun hm => ih _ c hc (List.mem_cons_of_mem _ hm)

theorem expanded_sublist (b : filesIter) (cs : List Commit) :
    ∀ seen, (expanded b seen cs).Sublist cs := by
  induction cs with
  | nil => intro seen; simp [expanded]
  | cons c0 cs ih =>
    intro seen
    cases hv : filesIter.shouldVisitTree { b with seen := seen } c0.TreeHash with
    | false =>
      rw [expanded_cons_skip _ _ _ _ hv]
      exact (ih seen).cons _
    | true =>
      rw [expanded_cons_visit _ _ _ _ hv]
      exact (ih _).cons₂ _

theorem expanded_nodup (b : filesIter) (cs : List Commit) :
    ∀ seen, ((expanded b seen cs).map (fun c => c.TreeHash)).Nodup := by
  induction cs with
  | nil => intro seen; simp [expanded]
  | cons c0 cs ih =>
    intro seen
    cases hv : filesIter.shouldVisitTree { b with seen := seen } c0.TreeHash with
    | false =>
      rw [expanded_cons_skip _ _ _ _ hv]
      exact ih seen
    | true =>
      rw [expanded_cons_visit _ _ _ _ hv, List.map_cons, List.nodup_cons]
      refine ⟨?_, ih _⟩
      intro hm
      obtain ⟨c, hc, hct⟩ := List.mem_map.mp hm
      exact expanded_not_seen b cs _ c hc (by rw [hct]; exact List.mem_cons_self _ _)

theorem expanded_mem_iff (b : filesIter) (cs : List Commit) :
    ∀ seen t, t ∈ (expanded b seen cs).map (fun c => c.TreeHash) ↔
      t ∈ cs.map (fun c => c.TreeHash) ∧ t ∉ seen ∧ (b.treeHashes = [] ∨ t ∈ b.treeHashes) := by
  induction cs with
  | nil => intro seen t; simp [expanded]
  | cons c0 cs ih =>
    intro seen t
    cases hv : filesIter.shouldVisitTree { b with seen := seen } c0.TreeHash with
    | false =>
      rw [expanded_cons_skip _ _ _ _ hv, ih seen t, List.map_cons, List.mem_cons]
      constructor
      · rintro ⟨h1, h2, h3⟩
        exact ⟨Or.inr h1, h2, h3⟩
      · rintro ⟨h1 | h1, h2, h3⟩
        · exfalso
          have : filesIter.shouldVisitTree { b with seen := seen } c0.TreeHash = true :=
            (shouldVisitTree_iff b seen _).mpr ⟨h1 ▸ h2, h1 ▸ h3⟩
          rw [hv] at this
          cases this
        · exact ⟨h1, h2, h3⟩
    | true =>
      obtain ⟨hv1, hv2⟩ := (shouldVisitTree_iff b seen _).mp hv
      rw [expanded_cons_visit _ _ _ _ hv, List.map_cons, List.mem_cons, ih _ t, List.map_cons,
        List.mem_cons, List.mem_cons]
      constructor
      · rintro (h1 | ⟨h1, h2, h3⟩)
        · exact ⟨Or.inl h1, h1 ▸ hv1, h1 ▸ hv2⟩
        · exact ⟨Or.inr h1, fun hm => h2 (Or.inr hm), h3⟩
      · rintro ⟨h1 | h1, h2, h3⟩
        · exact Or.inl h1
        · by_cases ht : t = c0.TreeHash
          · exact Or.inl ht
          · refine Or.inr ⟨h1, ?_, h3⟩
            rintro (hm | hm)
            · exact ht hm
            · exact h2 hm

theorem expanded_first (b : filesIter) (cs : List Commit) :
    ∀ seen, ∀ c ∈ expanded b seen cs,
      cs.find? (fun x => decide (x.TreeHash = c.TreeHash)) = some c := by
  induction cs with
  | nil => intro seen c hc; simp [expanded] at hc
  | cons c0 cs ih =>
    intro seen c hc
    cases hv : filesIter.shouldVisitTree { b with seen := seen } c0.TreeHash with
    | false =>
      rw [expanded_cons_skip _ _ _ _ hv] at hc
      have hns := expanded_not_seen b cs seen c hc
      have hne : ¬ c0.TreeHash = c.TreeHash := by
        intro he
        have hb : b.treeHashes = [] ∨ c.TreeHash ∈ b.treeHashes :=
          ((expanded_mem_iff b cs seen c.TreeHash).mp (List.mem_map.mpr ⟨c, hc, rfl⟩)).2.2
        have : filesIter.shouldVisitTree { b with seen := seen } c0.TreeHash = true :=
          (shouldVisitTree_iff b seen _).mpr ⟨he ▸ hns, he ▸ hb⟩
        rw [hv] at this
        cases this
      rw [List.find?_cons_of_neg _ (by simpa using hne)]
      exact ih seen c hc
    | true =>
      rw [expanded_cons_visit _ _ _ _ hv, List.mem_cons] at hc
      rcases hc with rfl | hc
      · simp
      · have hns := expanded_not_seen b cs _ c hc
        have hne : ¬ c0.TreeHash = c.TreeHash := by
          intro he
          exact hns (by rw [he]; exact List.mem_cons_self _ _)
        rw [List.find?_cons_of_neg _ (by simpa using hne)]
        exact ih _ c hc

/-! ## The files table: full scan -/

theorem newIterator_selected (i : filesIter) (repo : Repository) (cs : List Commit)
    (he : repo.CommitObjects = .ok { items := cs, tail := none })
    (hs : i.repos = [] ∨ repo.ID ∈ i.repos) :
    i.NewIterator repo = .ok ((i.bound repo).during [] ZeroHash none cs) := by
  have hc : i.repos.length = 0 ∨ stringContains i.repos repo.ID = true := by
    rcases hs with h | h
    · exact Or.inl (by rw [h]; rfl)
    · exact Or.inr (by simp [stringContains, h])
  unfold filesIter.NewIterator
  simp only [bind, Except.bind, pure, Except.pure, if_pos hc, he]
  rfl

theorem newIterator_not_selected (i : filesIter) (repo : Repository)
    (hs : ¬ (i.repos = [] ∨ repo.ID ∈ i.repos)) :
    i.NewIterator repo = .ok (i.bound repo) := by
  have hc : ¬ (i.repos.length = 0 ∨ stringContains i.repos repo.ID = true) := by
    rintro (h | h)
    · exact hs (Or.inl (List.length_eq_zero.mp h))
    · exact hs (Or.inr (by simpa [stringContains] using h))
  unfold filesIter.NewIterator
  simp only [bind, Except.bind, pure, Except.pure, if_neg hc]
  rfl

theorem sampleRepo_errorFree : sampleRepo.ErrorFree [sampleCommit, sampleCommit] := by
  refine ⟨rfl, ?_⟩
  intro c hc
  have hcs : c = sampleCommit := by simpa using hc
  subst hcs
  refine ⟨rfl, ?_⟩
  intro f hf
  have hfs : f = sampleFile := by simpa [Commit.files, sampleCommit] using hf
  subst hfs
  exact ⟨[102, 111, 111], rfl⟩

theorem treeRows_full (cfg : Config) (repoID : Str) (b : filesIter) (t : Hash) (fs : List File)
    (h1 : b.filePaths = []) (h2 : b.blobHashes = []) :
    treeRows cfg repoID b t fs = fs.map (fileRow cfg repoID b.readContent t) := by
  have hv : ∀ f, filesIter.shouldVisitFile b f = true := by
    intro f
    simp [filesIter.shouldVisitFile, h1, h2]
  simp [treeRows, hv]

theorem filesLoop_seen (cfg : Config) (fs : List File) (tail : Option Err) :
    ∀ i : filesIter, (filesIter.filesLoop cfg i fs tail).2.seen = i.seen := by
  induction fs with
  | nil =>
    intro i
    cases tail with
    | none => rfl
    | some e =>
      unfold filesIter.filesLoop
      split <;> rfl
  | cons f fs ih =>
    intro i
    unfold filesIter.filesLoop
    split
    · rw [ih]
    · rfl

theorem commitsLoop_seen_nodup (cfg : Config) (cs : List Commit) (tail : Option Err) :
    ∀ i : filesIter, i.seen.Nodup → (filesIter.commitsLoop cfg i cs tail).2.seen.Nodup := by
  induction cs with
  | nil =>
    intro i hi
    cases tail <;> exact hi
  | cons c cs ih =>
    intro i hi
    unfold filesIter.commitsLoop
    split
    · exact ih _ hi
    · rename_i hv
      have hv' : filesIter.shouldVisitTree { i with seen := i.seen } c.TreeHash = true := by
        simpa using hv
      have hn : (c.TreeHash :: i.seen).Nodup :=
        List.nodup_cons.mpr ⟨((shouldVisitTree_iff i i.seen _).mp hv').1, hi⟩
      split
      · exact hn
      · rename_i fc _
        have hs := filesLoop_seen cfg fc.items fc.tail
          { i with commits := some { items := cs, tail := tail }, treeHash := c.TreeHash,
                   seen := c.TreeHash :: i.seen, files := some fc }
        split
        · rename_i out i' hl
          rw [hl] at hs
          simp only at hs
          rw [hs]
          exact hn
        · rename_i i' hl
          rw [hl] at hs
          simp only at hs
          exact ih i' (by rw [hs]; exact hn)

theorem next_seen_nodup (cfg : Config) (i : filesIter) (hi : i.seen.Nodup) :
    (filesIter.Next cfg i).2.seen.Nodup := by
  unfold filesIter.Next
  split
  · exact hi
  · rename_i cc _
    split
    · exact commitsLoop_seen_nodup cfg _ _ i hi
    · rename_i fc _
      have hs := filesLoop_seen cfg fc.items fc.tail i
      split
      · rename_i out i' hl
        rw [hl] at hs
        simp only at hs
        rw [hs]
        exact hi
      · rename_i i' hl
        rw [hl] at hs
        simp only at hs
        exact commitsLoop_seen_nodup cfg _ _ i' (by rw [hs]; exact hi)

theorem drain_seen_nodup (cfg : Config) (fuel : Nat) :
    ∀ i : filesIter, i.seen.Nodup → (drain (filesIter.Next cfg) fuel i).2.2.seen.Nodup := by
  induction fuel with
  | zero => intro i hi; exact hi
  | succ n ih =>
    intro i hi
    have hn := next_seen_nodup cfg i hi
    unfold drain
    split
    · rename_i r s' hs
      rw [hs] at hn
      exact ih s' hn
    · rename_i e s' hs
      rw [hs] at hn
      exact hn
    · rename_i s' hs
      rw [hs] at hn
      exact hn

theorem newIterator_seen (i : filesIter) (repo : Repository) (it : filesIter)
    (h : i.NewIterator repo = .ok it) : it.seen = [] := by
  unfold filesIter.NewIterator at h
  simp only [bind, Except.bind, pure, Except.pure] at h
  by_cases hc : i.repos.length = 0 ∨ stringContains i.repos repo.ID = true
  · rw [if_pos hc] at h
    cases hco : repo.CommitObjects with
    | error e => rw [hco] at h; cases h
    | ok v => rw [hco] at h; cases h; rfl
  · rw [if_neg hc] at h
    cases h
    rfl

/-- C7: draining the `filesIter` that `NewIterator` makes without selectors never
expands a tree hash twice: the trees marked as expanded are pairwise distinct,
whatever the store returns.  When the repository is error-free and its commit
walk returns `cs`, the expanded commits `firsts` are the commits of the walk that
are the first with their tree hash, their tree hashes are the tree hashes of the
walk, the rows are the rows of the files of those commits, each tree once, and
the set of expanded trees at the end is the set of their hashes. -/
theorem full_scan_expands_each_tree_once (cfg : Config) (repo : Repository) (rc : Bool)
    (it : filesIter) (hit : (fullScan rc).NewIterator repo = .ok it) :
    (∀ fuel, (drain (filesIter.Next cfg) fuel it).2.2.seen.Nodup) ∧
    ∀ cs, repo.ErrorFree cs →
      ∃ firsts : List Commit, firsts.Sublist cs ∧
        (firsts.map (fun c => c.TreeHash)).Nodup ∧
        (∀ t, t ∈ firsts.map (fun c => c.TreeHash) ↔ t ∈ cs.map (fun c => c.TreeHash)) ∧
        (∀ c ∈ firsts, cs.find? (fun x => decide (x.TreeHash = c.TreeHash)) = some c) ∧
        ∀ fuel, fuel > (firsts.flatMap (commitRows cfg repo.ID rc)).length →
          (drain (filesIter.Next cfg) fuel it).1 = firsts.flatMap (commitRows cfg repo.ID rc) ∧
          (drain (filesIter.Next cfg) fuel it).2.1 = .stopped Err.eof ∧
          (drain (filesIter.Next cfg) fuel it).2.2.seen =
            (firsts.map (fun c => c.TreeHash)).reverse := by
  constructor
  · intro fuel
    exact drain_seen_nodup cfg fuel it (by rw [newIterator_seen _ _ _ hit]; exact List.nodup_nil)
  intro cs he
  have hb : ((fullScan rc).bound repo).repo = some repo := rfl
  have hrows : scanRows cfg repo.ID ((fullScan rc).bound repo) [] cs =
      (expanded ((fullScan rc).bound repo) [] cs).flatMap (commitRows cfg repo.ID rc) := by
    unfold scanRows commitRows
    congr 1
    funext c
    exact treeRows_full cfg repo.ID _ _ _ rfl rfl
  have hit' := newIterator_selected (fullScan rc) repo cs he.1 (Or.inl rfl)
  rw [hit] at hit'
  cases hit'
  refine ⟨expanded ((fullScan rc).bound repo) [] cs, expanded_sublist _ _ _,
    expanded_nodup _ _ _, ?_, expanded_first _ _ _, ?_⟩
  · intro t
    rw [expanded_mem_iff]
    constructor
    · exact fun h => h.1
    · exact fun h => ⟨h, by simp, Or.inl rfl⟩
  · intro fuel hf
    have hd := drains_commits cfg _ repo hb cs he.2 [] ZeroHash
    rw [hrows] at hd
    have := hd fuel hf
    rw [List.append_nil] at this
    exact this

/-- Witness of `full_scan_expands_each_tree_once`: a repository whose two commits
share their tree. -/
theorem full_scan_expands_each_tree_once_witness :
    (fullScan true).NewIterator sampleRepo = .ok sampleScanStart ∧
    sampleRepo.ErrorFree [sampleCommit, sampleCommit] ∧
    (∀ fuel, (drain (filesIter.Next sampleConfig) fuel sampleScanStart).2.2.seen.Nodup) ∧
    ∃ firsts : List Commit, firsts.Sublist [sampleCommit, sampleCommit] ∧
      (firsts.map (fun c => c.TreeHash)).Nodup ∧
      (∀ t, t ∈ firsts.map (fun c => c.TreeHash) ↔
        t ∈ [sampleCommit, sampleCommit].map (fun c => c.TreeHash)) ∧
      (∀ c ∈ firsts, [sampleCommit, sampleCommit].find?
        (fun x => decide (x.TreeHash = c.TreeHash)) = some c) ∧
      ∀ fuel, fuel > (firsts.flatMap (commitRows sampleConfig sampleRepo.ID true)).length →
        (drain (filesIter.Next sampleConfig) fuel sampleScanStart).1 =
          firsts.flatMap (commitRows sampleConfig sampleRepo.ID true) ∧
        (drain (filesIter.Next sampleConfig) fuel sampleScanStart).2.1 = .stopped Err.eof ∧
        (drain (filesIter.Next sampleConfig) fuel sampleScanStart).2.2.seen =
          (firsts.map (fun c => c.TreeHash)).reverse :=
  ⟨rfl, sampleRepo_errorFree,
    (full_scan_expands_each_tree_once sampleConfig sampleRepo true sampleScanStart rfl).1,
    (full_scan_expands_each_tree_once sampleConfig sampleRepo true sampleScanStart rfl).2
      [sampleCommit, sampleCommit] sampleRepo_errorFree⟩

/-! ## The files table: scan with selectors -/

theorem Hash.String_injective : Function.Injective Hash.String := by
  intro a b h
  have hb : a.bytes = b.bytes := hexEncode_injective h
  cases a
  cases b
  cases hb
  rfl

theorem selects_text (sel : List Str) (s : Str) :
    selects sel (some (Value.text s)) = true ↔ sel = [] ∨ s ∈ sel := by
  cases sel with
  | nil => simp [selects]
  | cons x xs => simp [selects]

theorem selects_hash (sel : List Hash) (h : Hash) :
    selects (sel.map Hash.String) (some (Value.text h.String)) = true ↔ sel = [] ∨ h ∈ sel := by
  rw [selects_text, List.map_eq_nil_iff, List.mem_map]
  constructor
  · rintro (h1 | ⟨x, hx, he⟩)
    · exact Or.inl h1
    · exact Or.inr (Hash.String_injective he ▸ hx)
  · rintro (h1 | h1)
    · exact Or.inl h1
    · exact Or.inr ⟨h, h1, rfl⟩

theorem shouldVisitFile_iff (b : filesIter) (f : File) :
    filesIter.shouldVisitFile b f = true ↔
      (b.filePaths = [] ∨ f.Name ∈ b.filePaths) ∧
      (b.blobHashes = [] ∨ f.Blob.Hash ∈ b.blobHashes) := by
  unfold filesIter.shouldVisitFile stringContains hashContains
  by_cases h1 : b.filePaths = []
  · by_cases h2 : b.blobHashes = []
    · simp [h1, h2]
    · have hl : b.blobHashes.length > 0 := List.length_pos.mpr h2
      by_cases hm : f.Blob.Hash ∈ b.blobHashes <;> simp [h1, h2, hm, hl]
  · have hl1 : b.filePaths.length > 0 := List.length_pos.mpr h1
    by_cases hn : f.Name ∈ b.filePaths
    · by_cases h2 : b.blobHashes = []
      · simp [h1, h2, hn]
      · have hl : b.blobHashes.length > 0 := List.length_pos.mpr h2
        by_cases hm : f.Blob.Hash ∈ b.blobHashes <;> simp [h1, h2, hm, hl, hn]
    · simp [h1, hn, hl1]

/-- Whether the row of a file belongs to the selectors, in terms of the file. -/
theorem rowSelected_fileRow (cfg : Config) (repo : Repository) (rc : Bool)
    (repos : List Str) (treeHashes blobHashes : List Hash) (filePaths : List Str)
    (t : Hash) (f : File) :
    rowSelected repos treeHashes blobHashes filePaths (fileRow cfg repo.ID rc t f) = true ↔
      (repos = [] ∨ repo.ID ∈ repos) ∧ (treeHashes = [] ∨ t ∈ treeHashes) ∧
      (blobHashes = [] ∨ f.Blob.Hash ∈ blobHashes) ∧ (filePaths = [] ∨ f.Name ∈ filePaths) := by
  have e0 : (fileRow cfg repo.ID rc t f)[0]? = some (Value.text repo.ID) := rfl
  have e1 : (fileRow cfg repo.ID rc t f)[1]? = some (Value.text f.Name) := rfl
  have e2 : (fileRow cfg repo.ID rc t f)[2]? = some (Value.text f.Blob.Hash.String) := rfl
  have e3 : (fileRow cfg repo.ID rc t f)[3]? = some (Value.text t.String) := rfl
  unfold rowSelected
  rw [e0, e1, e2, e3, Bool.and_eq_true, Bool.and_eq_true, Bool.and_eq_true, selects_text,
    selects_hash, selects_hash, selects_text]
  tauto

theorem treeRows_selected (cfg : Config) (repo : Repository) (rc : Bool)
    (repos : List Str) (treeHashes blobHashes : List Hash) (filePaths : List Str)
    (t : Hash) (fs : List File) (hr : repos = [] ∨ repo.ID ∈ repos)
    (ht : treeHashes = [] ∨ t ∈ treeHashes) :
    treeRows cfg repo.ID ((selectorScan repos treeHashes blobHashes filePaths rc).bound repo) t fs =
      (treeRows cfg repo.ID ((fullScan rc).bound repo) t fs).filter
        (rowSelected repos treeHashes blobHashes filePaths) := by
  rw [treeRows_full cfg repo.ID ((fullScan rc).bound repo) t fs rfl rfl]
  unfold treeRows
  rw [List.filter_map]
  congr 1
  apply List.filter_congr
  intro f _
  rw [Bool.eq_iff_iff, shouldVisitFile_iff, Function.comp_apply]
  have := rowSelected_fileRow cfg repo ((fullScan rc).bound repo).readContent repos treeHashes
    blobHashes filePaths t f
  rw [this]
  constructor
  · rintro ⟨h1, h2⟩
    exact ⟨hr, ht, h2, h1⟩
  · rintro ⟨_, _, h2, h1⟩
    exact ⟨h1, h2⟩

theorem treeRows_not_selected (cfg : Config) (repo : Repository) (rc : Bool)
    (repos : List Str) (treeHashes blobHashes : List Hash) (filePaths : List Str)
    (t : Hash) (fs : List File)
    (hn : ¬ ((repos = [] ∨ repo.ID ∈ repos) ∧ (treeHashes = [] ∨ t ∈ treeHashes))) :
    (treeRows cfg repo.ID ((fullScan rc).bound repo) t fs).filter
        (rowSelected repos treeHashes blobHashes filePaths) = [] := by
  rw [treeRows_full cfg repo.ID ((fullScan rc).bound repo) t fs rfl rfl, List.filter_eq_nil_iff]
  intro r hr
  obtain ⟨f, _, rfl⟩ := List.mem_map.mp hr
  rw [rowSelected_fileRow]
  rintro ⟨h1, h2, _⟩
  exact hn ⟨h1, h2⟩

/-- The rows of a scan with selectors of a selected repository are the selected
rows of the scan without selectors, when the two scans have seen the same trees
among those that the tree selector admits. -/
theorem scanRows_selected (cfg : Config) (repo : Repository) (rc : Bool)
    (repos : List Str) (treeHashes blobHashes : List Hash) (filePaths : List Str)
    (hr : repos = [] ∨ repo.ID ∈ repos) (cs : List Commit) :
    ∀ seenS seenF : List Hash,
      (∀ t, (treeHashes = [] ∨ t ∈ treeHashes) → (t ∈ seenS ↔ t ∈ seenF)) →
      scanRows cfg repo.ID ((selectorScan repos treeHashes blobHashes filePaths rc).bound repo)
          seenS cs =
        (scanRows cfg repo.ID ((fullScan rc).bound repo) seenF cs).filter
          (rowSelected repos treeHashes blobHashes filePaths) := by
  induction cs with
  | nil => intro _ _ _; rfl
  | cons c cs ih =>
    intro seenS seenF hinv
    have hS := shouldVisitTree_iff
      ((selectorScan repos treeHashes blobHashes filePaths rc).bound repo) seenS c.TreeHash
    have hF := shouldVisitTree_iff ((fullScan rc).bound repo) seenF c.TreeHash
    have hSt : ((selectorScan repos treeHashes blobHashes filePaths rc).bound repo).treeHashes =
        treeHashes := rfl
    have hFt : ((fullScan rc).bound repo).treeHashes = [] := rfl
    rw [hSt] at hS
    rw [hFt] at hF
    by_cases ht : treeHashes = [] ∨ c.TreeHash ∈ treeHashes
    · by_cases hs : c.TreeHash ∈ seenF
      · have hvS : filesIter.shouldVisitTree
            { (selectorScan repos treeHashes blobHashes filePaths rc).bound repo with
              seen := seenS } c.TreeHash = false := by
          rw [Bool.eq_false_iff]
          intro h
          exact (hS.mp h).1 ((hinv _ ht).mpr hs)
        have hvF : filesIter.shouldVisitTree { (fullScan rc).bound repo with seen := seenF }
            c.TreeHash = false := by
          rw [Bool.eq_false_iff]
          intro h
          exact (hF.mp h).1 hs
        simp only [scanRows, expanded_cons_skip _ _ _ _ hvS, expanded_cons_skip _ _ _ _ hvF]
        exact ih seenS seenF hinv
      · have hvS : filesIter.shouldVisitTree
            { (selectorScan repos treeHashes blobHashes filePaths rc).bound repo with
              seen := seenS } c.TreeHash = true :=
          hS.mpr ⟨fun h => hs ((hinv _ ht).mp h), ht⟩
        have hvF : filesIter.shouldVisitTree { (fullScan rc).bound repo with seen := seenF }
            c.TreeHash = true := hF.mpr ⟨hs, Or.inl rfl⟩
        have hinv' : ∀ t, (treeHashes = [] ∨ t ∈ treeHashes) →
            (t ∈ c.TreeHash :: seenS ↔ t ∈ c.TreeHash :: seenF) := by
          intro t htt
          rw [List.mem_cons, List.mem_cons, hinv t htt]
        have := ih (c.TreeHash :: seenS) (c.TreeHash :: seenF) hinv'
        simp only [scanRows] at this
        simp only [scanRows, expanded_cons_visit _ _ _ _ hvS, expanded_cons_visit _ _ _ _ hvF,
          List.flatMap_cons, List.filter_append, this,
          treeRows_selected cfg repo rc repos treeHashes blobHashes filePaths c.TreeHash c.files
            hr ht]
    · have hvS : filesIter.shouldVisitTree
          { (selectorScan repos treeHashes blobHashes filePaths rc).bound repo with
            seen := seenS } c.TreeHash = false := by
        rw [Bool.eq_false_iff]
        intro h
        exact ht (hS.mp h).2
      by_cases hs : c.TreeHash ∈ seenF
      · have hvF : filesIter.shouldVisitTree { (fullScan rc).bound repo with seen := seenF }
            c.TreeHash = false := by
          rw [Bool.eq_false_iff]
          intro h
          exact (hF.mp h).1 hs
        simp only [scanRows, expanded_cons_skip _ _ _ _ hvS, expanded_cons_skip _ _ _ _ hvF]
        exact ih seenS seenF hinv
      · have hvF : filesIter.shouldVisitTree { (fullScan rc).bound repo with seen := seenF }
            c.TreeHash = true := hF.mpr ⟨hs, Or.inl rfl⟩
        have hinv' : ∀ t, (treeHashes = [] ∨ t ∈ treeHashes) →
            (t ∈ seenS ↔ t ∈ c.TreeHash :: seenF) := by
          intro t htt
          rw [List.mem_cons, hinv t htt]
          constructor
          · exact fun h => Or.inr h
          · rintro (h | h)
            · exact absurd (h ▸ htt) ht
            · exact h
        have := ih seenS (c.TreeHash :: seenF) hinv'
        simp only [scanRows] at this
        simp only [scanRows, expanded_cons_skip _ _ _ _ hvS, expanded_cons_visit _ _ _ _ hvF,
          List.flatMap_cons, List.filter_append, this,
          treeRows_not_selected cfg repo rc repos treeHashes blobHashes filePaths c.TreeHash
            c.files (fun h => ht h.2), List.nil_append]

theorem scanRows_repo_not_selected (cfg : Config) (repo : Repository) (rc : Bool)
    (repos : List Str) (treeHashes blobHashes : List Hash) (filePaths : List Str)
    (hr : ¬ (repos = [] ∨ repo.ID ∈ repos)) (seen : List Hash) (cs : List Commit) :
    (scanRows cfg repo.ID ((fullScan rc).bound repo) seen cs).filter
        (rowSelected repos treeHashes blobHashes filePaths) = [] := by
  rw [List.filter_eq_nil_iff]
  intro r hrm
  unfold scanRows at hrm
  obtain ⟨c, _, hc⟩ := List.mem_flatMap.mp hrm
  have := treeRows_not_selected cfg repo rc repos treeHashes blobHashes filePaths c.TreeHash
    c.files (fun h => hr h.1)
  rw [List.filter_eq_nil_iff] at this
  exact this r hc

theorem drains_unselected (cfg : Config) (b : filesIter) (hc : b.commits = none) :
    ∀ fuel, fuel > 0 →
      (drain (filesIter.Next cfg) fuel b).1 = [] ∧
      (drain (filesIter.Next cfg) fuel b).2.1 = .stopped Err.eof := by
  intro fuel hf
  obtain ⟨n, rfl⟩ : ∃ n, fuel = n + 1 := ⟨fuel - 1, by omega⟩
  have hn : filesIter.Next cfg b = (.err Err.eof, b) := by
    unfold filesIter.Next
    rw [hc]
  rw [drain_succ_err _ _ _ _ _ hn]
  exact ⟨rfl, rfl⟩

/-- C8: for every error-free repository and all selector lists (an empty list
selects everything), draining the `filesIter` built with the selectors and
draining the one built without selectors both end with the end of the sequence,
and the rows of the first are the rows of the second whose `repository_id`,
`tree_hash`, `blob_hash` and `file_path` each belong to their selector list; in
particular the two sets of rows are related so. -/
theorem selector_scan_eq_selected_rows (cfg : Config) (repo : Repository) (cs : List Commit)
    (repos : List Str) (treeHashes blobHashes : List Hash) (filePaths : List Str) (rc : Bool)
    (he : repo.ErrorFree cs) :
    ∃ (itS itF : filesIter) (rowsS rowsF : List Row),
      (selectorScan repos treeHashes blobHashes filePaths rc).NewIterator repo = .ok itS ∧
      (fullScan rc).NewIterator repo = .ok itF ∧
      (∀ fuel, fuel > rowsS.length →
        (drain (filesIter.Next cfg) fuel itS).1 = rowsS ∧
        (drain (filesIter.Next cfg) fuel itS).2.1 = .stopped Err.eof) ∧
      (∀ fuel, fuel > rowsF.length →
        (drain (filesIter.Next cfg) fuel itF).1 = rowsF ∧
        (drain (filesIter.Next cfg) fuel itF).2.1 = .stopped Err.eof) ∧
      rowsS = rowsF.filter (rowSelected repos treeHashes blobHashes filePaths) ∧
      ∀ r, r ∈ rowsS ↔
        (r ∈ rowsF ∧ rowSelected repos treeHashes blobHashes filePaths r = true) := by
  have hF := drains_commits cfg ((fullScan rc).bound repo) repo rfl cs he.2 [] ZeroHash
  have hitF := newIterator_selected (fullScan rc) repo cs he.1 (Or.inl rfl)
  by_cases hr : repos = [] ∨ repo.ID ∈ repos
  · have hS := drains_commits cfg
      ((selectorScan repos treeHashes blobHashes filePaths rc).bound repo) repo rfl cs he.2 []
      ZeroHash
    have hitS := newIterator_selected (selectorScan repos treeHashes blobHashes filePaths rc)
      repo cs he.1 hr
    have heq := scanRows_selected cfg repo rc repos treeHashes blobHashes filePaths hr cs [] []
      (fun _ _ => Iff.rfl)
    refine ⟨_, _, _, _, hitS, hitF, fun fuel hf => ⟨(hS fuel hf).1, (hS fuel hf).2.1⟩,
      fun fuel hf => ⟨(hF fuel hf).1, (hF fuel hf).2.1⟩, heq, ?_⟩
    intro r
    rw [heq, List.mem_filter]
  · have hitS := newIterator_not_selected (selectorScan repos treeHashes blobHashes filePaths rc)
      repo hr
    have heq := scanRows_repo_not_selected cfg repo rc repos treeHashes blobHashes filePaths hr
      [] cs
    refine ⟨_, _, [], _, hitS, hitF, fun fuel hf => drains_unselected cfg _ rfl fuel hf,
      fun fuel hf => ⟨(hF fuel hf).1, (hF fuel hf).2.1⟩, heq.symm, ?_⟩
    intro r
    rw [← List.mem_filter, heq]

/-- Witness of `selector_scan_eq_selected_rows`: the sample repository scanned
with a selector on the path `a.txt`. -/
theorem selector_scan_eq_selected_rows_witness :
    sampleRepo.ErrorFree [sampleCommit, sampleCommit] ∧
    ∃ (itS itF : filesIter) (rowsS rowsF : List Row),
      (selectorScan [] [] [] [sampleFile.Name] true).NewIterator sampleRepo = .ok itS ∧
      (fullScan true).NewIterator sampleRepo = .ok itF ∧
      (∀ fuel, fuel > rowsS.length →
        (drain (filesIter.Next sampleConfig) fuel itS).1 = rowsS ∧
        (drain (filesIter.Next sampleConfig) fuel itS).2.1 = .stopped Err.eof) ∧
      (∀ fuel, fuel > rowsF.length →
        (drain (filesIter.Next sampleConfig) fuel itF).1 = rowsF ∧
        (drain (filesIter.Next sampleConfig) fuel itF).2.1 = .stopped Err.eof) ∧
      rowsS = rowsF.filter (rowSelected [] [] [] [sampleFile.Name]) ∧
      ∀ r, r ∈ rowsS ↔ (r ∈ rowsF ∧ rowSelected [] [] [] [sampleFile.Name] r = true) :=
  ⟨sampleRepo_errorFree,
    selector_scan_eq_selected_rows sampleConfig sampleRepo [sampleCommit, sampleCommit] [] [] []
      [sampleFile.Name] true sampleRepo_errorFree⟩

/-! ## Errors of the file and blob cursors -/

/-- C6 fails on the code: when `Next` of the file cursor (for `filesIter` and
`filesKeyValueIter`) or of the blob cursor (for `blobsKeyValueIter`) returns a
store-access error, the first `Next` of the iterator over such a repository does
not return that error; it goes on with the nil file or blob and dereferences
it. -/
theorem next_drops_cursor_error :
    failingFiles.Next.1 = (none, some (Err.io 5)) ∧
    failingBlobs.Next.1 = (none, some (Err.io 5)) ∧
    (∃ it, (fullScan true).NewIterator failingRepo = .ok it ∧
      (filesIter.Next sampleConfig it).1 = .nilPanic ∧
      (filesIter.Next sampleConfig it).1 ≠ .err (Err.io 5)) ∧
    (∃ it, newFilesKeyValueIter failingPool [] = .ok it ∧
      (filesKeyValueIter.Next sampleConfig it).1 = .nilPanic ∧
      (filesKeyValueIter.Next sampleConfig it).1 ≠ .err (Err.io 5)) ∧
    (∃ it, newBlobsKeyValueIter failingPool [] = .ok it ∧
      (blobsKeyValueIter.Next sampleConfig it).1 = .nilPanic ∧
      (blobsKeyValueIter.Next sampleConfig it).1 ≠ .err (Err.io 5)) := by
  refine ⟨rfl, rfl, ⟨_, rfl, ?_⟩, ⟨_, rfl, ?_⟩, ⟨_, rfl, ?_⟩⟩
  · have h : (filesIter.Next sampleConfig
        { repo := some failingRepo, commits := some { items := [failingCommit], tail := none },
          seen := [], files := none, treeHash := ZeroHash, readContent := true, repos := [],
          filePaths := [], blobHashes := [], treeHashes := [] }).1 = .nilPanic := rfl
    exact ⟨h, fun e => Outcome.noConfusion (h.symm.trans e)⟩
  · have h : (filesKeyValueIter.Next sampleConfig
        { pool := failingPool, repo := none, repos := { items := [failingRepo], tail := none },
          commits := none, files := none, commit := none, idx := none, columns := [],
          seen := [] }).1 = .nilPanic := rfl
    exact ⟨h, fun e => Outcome.noConfusion (h.symm.trans e)⟩
  · have h : (blobsKeyValueIter.Next sampleConfig
        { pool := failingPool, repos := { items := [failingRepo], tail := none }, repo := none,
          blobs := none, idx := none, columns := [] }).1 = .nilPanic := rfl
    exact ⟨h, fun e => Outcome.noConfusion (h.symm.trans e)⟩

/-! ## The index of the files table: key and row of a file entry -/

theorem hexDigit_lower (n : Nat) (h : n < 16) : IsLowerHex (hexDigit n) := by
  interval_cases n <;> decide

theorem hexEncode_lower (bs : List Byte) : ∀ c ∈ hexEncode bs, IsLowerHex c := by
  induction bs with
  | nil => intro c hc; simp [hexEncode] at hc
  | cons b bs ih =>
    intro c hc
    simp only [hexEncode, List.mem_cons] at hc
    have h1 : b.val / 16 < 16 := by have := b.isLt; omega
    have h2 : b.val % 16 < 16 := by omega
    rcases hc with rfl | rfl | hc
    · exact hexDigit_lower _ h1
    · exact hexDigit_lower _ h2
    · exact ih c hc

theorem wellFormedHash_String (h : Hash) : WellFormedHash h.String :=
  ⟨by rw [Hash.String, hexEncode_length, h.size_eq], hexEncode_lower _⟩

theorem fit20_of_length (bs : List Byte) (h : bs.length = hashSize) : fit20 bs = bs := by
  unfold fit20
  rw [List.take_append_of_le_length (by omega), List.take_of_length_le (by omega)]

theorem NewHash_String (h : Hash) : NewHash h.String = h := by
  cases h with
  | mk bytes size_eq =>
    simp only [NewHash, Hash.String, hexDecode_hexEncode, fit20_of_length _ size_eq]

theorem rowIndexValues_ok (row : Row) (schema : List Str) (hl : row.length = schema.length)
    (columns : List Str) (hc : ∀ col ∈ columns, col ∈ schema) :
    ∃ vs, rowIndexValues row columns schema = .ok vs := by
  unfold rowIndexValues
  induction columns with
  | nil => exact ⟨[], rfl⟩
  | cons col cols ih =>
    obtain ⟨vs, hvs⟩ := ih (fun c hcm => hc c (List.mem_cons_of_mem _ hcm))
    have hi : schema.findIdx (fun name => decide (name = col)) < row.length := by
      rw [hl]
      exact List.findIdx_lt_length_of_exists
        ⟨col, hc col (List.mem_cons_self _ _), by simp⟩
    obtain ⟨v, hv⟩ : ∃ v, row[schema.findIdx (fun name => decide (name = col))]? = some v :=
      ⟨row[schema.findIdx (fun name => decide (name = col))], List.getElem?_eq_getElem hi⟩
    refine ⟨v :: vs, ?_⟩
    rw [List.mapM_cons]
    simp only [hv, hvs, bind, Except.bind, pure, Except.pure]

theorem entryKey_valid (repo : Repository) (offset : Int) (packfile : Hash) (e : Hash × File)
    (hid : (repo.ID.length : Int) < 2 ^ 63) (ho : IsInt64 offset)
    (hn : (e.2.Name.length : Int) < 2 ^ 63) (hm : e.2.Mode < 2 ^ 32) :
    (entryKey repo.ID offset packfile e).Valid := by
  have hmode : IsInt64 (e.2.Mode : Int) := by
    unfold IsInt64
    have h1 : (2 : Nat) ^ 32 = 4294967296 := by norm_num
    have h2 : (2 : Int) ^ 63 = 9223372036854775808 := by norm_num
    rw [h1] at hm
    rw [h2]
    omega
  refine ⟨⟨ho, hmode, hid, hn⟩, wellFormedHash_String _, wellFormedHash_String _, ?_⟩
  by_cases h0 : 0 ≤ offset
  · left
    refine ⟨show (0 : Int) ≤ offset from h0, ?_⟩
    simp only [entryKey]
    rw [if_neg (by omega)]
  · right
    refine ⟨show offset < 0 by omega, ?_⟩
    simp only [entryKey]
    rw [if_pos (by omega)]
    exact wellFormedHash_String _

theorem FileMode_ofInt64 (m : Nat) (h : m < 2 ^ 32) : FileMode.ofInt64 (m : Int) = m := by
  unfold FileMode.ofInt64
  have h1 : (2 : Nat) ^ 32 = 4294967296 := by norm_num
  have h2 : (2 : Int) ^ 32 = 4294967296 := by norm_num
  rw [h1] at h
  rw [h2]
  omega

/-- The index scan of the key of a file entry gives the row of the entry. -/
theorem index_next_entry (cfg : Config) (decoder : objectDecoder) (repo : Repository)
    (rc : Bool) (e : Hash × File) (offset : Int) (packfile : Hash)
    (hid : (repo.ID.length : Int) < 2 ^ 63) (ho : IsInt64 offset)
    (hn : (e.2.Name.length : Int) < 2 ^ 63) (hm : e.2.Mode < 2 ^ 32)
    (hat : 0 ≤ offset → decoder.objectAt repo.ID packfile offset = .ok (Object.blob e.2.Blob))
    (hby : offset < 0 → decoder.objectByHash repo.ID e.2.Blob.Hash = .ok (Object.blob e.2.Blob))
    (hread : ∃ data, e.2.Blob.Readable data) :
    ∃ bs, (entryKey repo.ID offset packfile e).encode = .ok bs ∧
      (filesIndexIter.Next cfg (newFilesIndexIter (oneKey bs) decoder rc)).1 =
        .ok (fileRow cfg repo.ID rc e.1 e.2) := by
  obtain ⟨bs, hbs, hd⟩ :=
    decode_encode_valid _ (entryKey_valid repo offset packfile e hid ho hn hm)
  refine ⟨bs, hbs, ?_⟩
  have hfile : File.mk e.2.Name (FileMode.ofInt64 (e.2.Mode : Int)) e.2.Blob = e.2 := by
    rw [FileMode_ofInt64 _ hm]
  have hrow := fileToRow_readable cfg repo.ID e.1 e.2 rc hread
  have hdec : decoder.decode repo.ID (NewHash packfile.String)
      (if 0 ≤ offset then offset else -1)
      (NewHash (if offset < 0 then e.2.Blob.Hash.String else [])) =
      .ok (Object.blob e.2.Blob) := by
    unfold objectDecoder.decode
    by_cases h0 : 0 ≤ offset
    · have h0' : offset ≥ 0 := h0
      rw [if_pos h0, if_pos h0', NewHash_String]
      exact hat h0
    · have h1 : offset < 0 := by omega
      rw [if_neg h0, if_pos h1, if_neg (by decide)]
      simp only [NewHash_String]
      exact hby h1
  simp only [filesIndexIter.Next, newFilesIndexIter, oneKey, Cursor.Next, decodeIndexKey,
    Option.getD, hd, entryKey, NewHash_String] at hdec ⊢
  rw [hdec]
  simp only [hfile, hrow]

/-! ## The index of the files table: the calls of `Next` during an error-free build -/

theorem kv_filesLoop_repos (cfg : Config) (fs : List File) (tail : Option Err)
    (i : filesKeyValueIter) : (filesKeyValueIter.filesLoop cfg i fs tail).2.repos = i.repos := by
  cases fs with
  | nil =>
    cases tail with
    | none => rfl
    | some e =>
      simp only [filesKeyValueIter.filesLoop]
      split <;> rfl
  | cons f fs => rfl

theorem kv_commitsLoop_repos (cfg : Config) (cs : List Commit) (tail : Option Err) :
    ∀ i : filesKeyValueIter,
      (filesKeyValueIter.commitsLoop cfg i cs tail).2.repos = i.repos := by
  induction cs with
  | nil =>
    intro i
    cases tail with
    | none => rfl
    | some e =>
      simp only [filesKeyValueIter.commitsLoop]
      split <;> rfl
  | cons c cs ih =>
    intro i
    unfold filesKeyValueIter.commitsLoop
    split
    · rw [ih]
    · split
      · rfl
      · rename_i fc _
        have hs := kv_filesLoop_repos cfg fc.items fc.tail
          { i with commits := some { items := cs, tail := tail }, commit := some c,
                   seen := c.TreeHash :: i.seen, files := some fc }
        split
        · rename_i out i' hl
          rw [hl] at hs
          exact hs
        · rename_i i' hl
          rw [hl] at hs
          simp only at hs
          rw [ih, hs]

theorem kv_next_files_nil (cfg : Config) (b : filesKeyValueIter) (repo : Option Repository)
    (idx : Option repositoryIndex) (seen : List Hash) (c : Option Commit) (cs : List Commit)
    (rs : List Repository) :
    filesKeyValueIter.Next cfg (b.during repo idx seen c (some []) (some cs) rs) =
      filesKeyValueIter.Next cfg (b.during repo idx seen c none (some cs) rs) := by
  simp only [filesKeyValueIter.Next, filesKeyValueIter.during, Option.map,
    filesKeyValueIter.filesLoop]

theorem kv_next_files_emit (cfg : Config) (b : filesKeyValueIter) (repo : Option Repository)
    (idx : Option repositoryIndex) (seen : List Hash) (c : Option Commit) (f : File)
    (fs : List File) (cs : List Commit) (rs : List Repository) :
    filesKeyValueIter.Next cfg (b.during repo idx seen c (some (f :: fs)) (some cs) rs) =
      (filesKeyValueIter.emit cfg (b.during repo idx seen c (some (f :: fs)) (some cs) rs) f,
        b.during repo idx seen c (some fs) (some cs) rs) := by
  simp only [filesKeyValueIter.Next, filesKeyValueIter.during, Option.map,
    filesKeyValueIter.filesLoop]

theorem kv_next_commits_nil (cfg : Config) (b : filesKeyValueIter) (repo : Option Repository)
    (idx : Option repositoryIndex) (seen : List Hash) (c : Option Commit)
    (rs : List Repository) :
    filesKeyValueIter.Next cfg (b.during repo idx seen c none (some []) rs) =
      filesKeyValueIter.Next cfg (b.during repo idx seen none none none rs) := by
  simp only [filesKeyValueIter.Next, filesKeyValueIter.during, Option.map,
    filesKeyValueIter.commitsLoop]

theorem kv_next_commits_skip (cfg : Config) (b : filesKeyValueIter) (repo : Option Repository)
    (idx : Option repositoryIndex) (seen : List Hash) (c0 : Option Commit) (c : Commit)
    (cs : List Commit) (rs : List Repository) (hs : c.TreeHash ∈ seen) :
    filesKeyValueIter.Next cfg (b.during repo idx seen c0 none (some (c :: cs)) rs) =
      filesKeyValueIter.Next cfg (b.during repo idx seen (some c) none (some cs) rs) := by
  simp only [filesKeyValueIter.Next, filesKeyValueIter.during, Option.map,
    filesKeyValueIter.commitsLoop, if_pos hs]

theorem kv_next_commits_expand (cfg : Config) (b : filesKeyValueIter)
    (repo : Option Repository) (idx : Option repositoryIndex) (seen : List Hash)
    (c0 : Option Commit) (c : Commit) (cs : List Commit) (rs : List Repository)
    (hs : c.TreeHash ∉ seen) (hc : c.ErrorFree) :
    filesKeyValueIter.Next cfg (b.during repo idx seen c0 none (some (c :: cs)) rs) =
      filesKeyValueIter.Next cfg
        (b.during repo idx (c.TreeHash :: seen) (some c) (some c.files) (some cs) rs) := by
  simp only [filesKeyValueIter.Next, filesKeyValueIter.during, Option.map,
    filesKeyValueIter.commitsLoop, if_neg hs, hc.1]
  cases hl : filesKeyValueIter.filesLoop cfg
      { b with repo := repo, idx := idx, seen := c.TreeHash :: seen, commit := some c,
               files := some { items := c.files, tail := none },
               commits := some { items := cs, tail := none },
               repos := { items := rs, tail := none } } c.files none with
  | mk o i' =>
    cases o <;> simp only [hl]

theorem kv_next_repos_nil (cfg : Config) (b : filesKeyValueIter) (repo : Option Repository)
    (idx : Option repositoryIndex) (seen : List Hash) (c : Option Commit) :
    (filesKeyValueIter.Next cfg (b.during repo idx seen c none none [])).1 = .err Err.eof := by
  simp only [filesKeyValueIter.Next, filesKeyValueIter.during, Option.map,
    filesKeyValueIter.reposLoop]

theorem kv_next_repos_start (cfg : Config) (b : filesKeyValueIter) (repo0 : Option Repository)
    (idx0 : Option repositoryIndex) (seen : List Hash) (c0 : Option Commit) (repo : Repository)
    (rs : List Repository) (cs : List Commit) (idx : repositoryIndex)
    (hc : repo.CommitObjects = .ok { items := cs, tail := none })
    (hi : b.pool.newRepositoryIndex repo.ID = .ok idx) :
    filesKeyValueIter.Next cfg (b.during repo0 idx0 seen c0 none none (repo :: rs)) =
      filesKeyValueIter.Next cfg (b.during (some repo) (some idx) [] c0 none (some cs) rs) := by
  have hr := kv_commitsLoop_repos cfg cs none
    (b.during (some repo) (some idx) [] c0 none (some cs) rs)
  simp only [filesKeyValueIter.Next, filesKeyValueIter.during, Option.map,
    filesKeyValueIter.reposLoop, hc, hi] at hr ⊢
  cases hl : filesKeyValueIter.commitsLoop cfg
      { b with repo := some repo, idx := some idx, seen := [], commit := c0, files := none,
               commits := some { items := cs, tail := none },
               repos := { items := rs, tail := none } } cs none with
  | mk o i' =>
    rw [hl] at hr
    simp only at hr
    cases o
    · simp only [hl, hr]
    · simp only [hl]

theorem fileRow_length (cfg : Config) (repoID : Str) (rc : Bool) (t : Hash) (f : File) :
    (fileRow cfg repoID rc t f).length = FilesSchema.length := rfl

/-- The values and the key that the index build emits for a file. -/
theorem kv_emit_ok (cfg : Config) (decoder : objectDecoder) (b : filesKeyValueIter)
    (repo : Repository) (idx : repositoryIndex) (seen : List Hash) (c : Commit)
    (fo : Option (List File)) (co : Option (List Commit)) (rs : List Repository) (f : File)
    (hidx : b.pool.newRepositoryIndex repo.ID = .ok idx)
    (hres : Resolvable b.pool decoder repo f) (hid : (repo.ID.length : Int) < 2 ^ 63)
    (hread : ∃ data, f.Blob.Readable data) (hcols : ∀ col ∈ b.columns, col ∈ FilesSchema) :
    filesKeyValueIter.emit cfg (b.during (some repo) (some idx) seen (some c) fo co rs) f =
      .ok (kvOf cfg b.pool b.columns repo (c.TreeHash, f)) := by
  obtain ⟨idx', offset, packfile, hidx', hfind, ho, _, _, hn, hm⟩ := hres
  rw [hidx] at hidx'
  cases hidx'
  obtain ⟨bs, hbs⟩ := encode_ok_of_valid _
    (entryKey_valid repo offset packfile (c.TreeHash, f) hid ho hn hm)
  have hrow := fileToRow_readable cfg repo.ID c.TreeHash f
    (stringContains b.columns (ascii "blob_content")) hread
  obtain ⟨vs, hvs⟩ := rowIndexValues_ok
    (fileRow cfg repo.ID (stringContains b.columns (ascii "blob_content")) c.TreeHash f)
    FilesSchema (fileRow_length _ _ _ _ _) b.columns hcols
  have hkey : encodeIndexKey
      { Repository := repo.ID, Packfile := packfile.String,
        Hash := if offset < 0 then f.Blob.Hash.String else [], Offset := offset,
        Name := f.Name, Tree := c.TreeHash.String, Mode := (f.Mode : Int) } = .ok bs := hbs
  simp only [filesKeyValueIter.emit, filesKeyValueIter.during, hfind, hkey, hrow, hvs, kvOf,
    indexKeyOf, hidx, hbs]

/-! ## The index of the files table: draining the build -/

theorem kv_drains_files (cfg : Config) (decoder : objectDecoder) (b : filesKeyValueIter)
    (repo : Repository) (idx : repositoryIndex) (seen : List Hash) (c : Commit)
    (cs : List Commit) (rs : List Repository) (rest : List (List Value × List Byte))
    (hidx : b.pool.newRepositoryIndex repo.ID = .ok idx)
    (hid : (repo.ID.length : Int) < 2 ^ 63) (hcols : ∀ col ∈ b.columns, col ∈ FilesSchema)
    (H : KVDrainsTo cfg (b.during (some repo) (some idx) seen (some c) none (some cs) rs) rest)
    (fs : List File)
    (hfs : ∀ f ∈ fs, (∃ data, f.Blob.Readable data) ∧ Resolvable b.pool decoder repo f) :
    KVDrainsTo cfg (b.during (some repo) (some idx) seen (some c) (some fs) (some cs) rs)
      (fs.map (fun f => kvOf cfg b.pool b.columns repo (c.TreeHash, f)) ++ rest) := by
  induction fs with
  | nil =>
    intro fuel hf
    obtain ⟨n, rfl⟩ : ∃ n, fuel = n + 1 := ⟨fuel - 1, by omega⟩
    rw [drain_succ_congr _ _ _ _ (kv_next_files_nil cfg b _ _ seen _ cs rs)]
    exact H (n + 1) hf
  | cons f fs ih =>
    have ih' := ih (fun x hx => hfs x (List.mem_cons_of_mem _ hx))
    obtain ⟨hread, hres⟩ := hfs f (List.mem_cons_self _ _)
    intro fuel hf
    obtain ⟨n, rfl⟩ : ∃ n, fuel = n + 1 := ⟨fuel - 1, by omega⟩
    have hn := kv_next_files_emit cfg b (some repo) (some idx) seen (some c) f fs cs rs
    rw [kv_emit_ok cfg decoder b repo idx seen c _ _ rs f hidx hres hid hread hcols] at hn
    rw [drain_succ_ok _ _ _ _ _ hn]
    have := ih' n (by simp at hf ⊢; omega)
    exact ⟨by rw [this.1]; rfl, this.2⟩

theorem expanded_full_cons_seen (seen : List Hash) (c : Commit) (cs : List Commit)
    (hs : c.TreeHash ∈ seen) :
    expanded (fullScan false) seen (c :: cs) = expanded (fullScan false) seen cs := by
  apply expanded_cons_skip
  rw [Bool.eq_false_iff]
  intro h
  exact ((shouldVisitTree_iff (fullScan false) seen _).mp h).1 hs

theorem expanded_full_cons_new (seen : List Hash) (c : Commit) (cs : List Commit)
    (hs : c.TreeHash ∉ seen) :
    expanded (fullScan false) seen (c :: cs) =
      c :: expanded (fullScan false) (c.TreeHash :: seen) cs := by
  apply expanded_cons_visit
  exact (shouldVisitTree_iff (fullScan false) seen _).mpr ⟨hs, Or.inl rfl⟩

theorem kv_drains_commits (cfg : Config) (decoder : objectDecoder) (b : filesKeyValueIter)
    (repo : Repository) (idx : repositoryIndex) (rs : List Repository)
    (rest : List (List Value × List Byte))
    (hidx : b.pool.newRepositoryIndex repo.ID = .ok idx)
    (hid : (repo.ID.length : Int) < 2 ^ 63) (hcols : ∀ col ∈ b.columns, col ∈ FilesSchema)
    (H : ∀ seen, KVDrainsTo cfg (b.during (some repo) (some idx) seen none none none rs) rest)
    (cs : List Commit)
    (hcs : ∀ c ∈ cs, c.ErrorFree ∧ ∀ f ∈ c.files, Resolvable b.pool decoder repo f) :
    ∀ (seen : List Hash) (c0 : Option Commit),
      KVDrainsTo cfg (b.during (some repo) (some idx) seen c0 none (some cs) rs)
        (kvRows cfg b.pool b.columns repo seen cs ++ rest) := by
  induction cs with
  | nil =>
    intro seen c0 fuel hf
    obtain ⟨n, rfl⟩ : ∃ n, fuel = n + 1 := ⟨fuel - 1, by omega⟩
    rw [drain_succ_congr _ _ _ _ (kv_next_commits_nil cfg b _ _ seen c0 rs)]
    exact H seen (n + 1) hf
  | cons c cs ih =>
    have ih' := ih (fun x hx => hcs x (List.mem_cons_of_mem _ hx))
    obtain ⟨hc, hres⟩ := hcs c (List.mem_cons_self _ _)
    intro seen c0
    by_cases hs : c.TreeHash ∈ seen
    · intro fuel hf
      obtain ⟨n, rfl⟩ : ∃ n, fuel = n + 1 := ⟨fuel - 1, by omega⟩
      rw [drain_succ_congr _ _ _ _ (kv_next_commits_skip cfg b _ _ seen c0 c cs rs hs)]
      simp only [kvRows, expanded_full_cons_seen _ _ _ hs] at hf ⊢
      exact ih' seen (some c) (n + 1) hf
    · have hd := kv_drains_files cfg decoder b repo idx (c.TreeHash :: seen) c cs rs _ hidx hid
        hcols (ih' (c.TreeHash :: seen) (some c)) c.files
        (fun f hf => ⟨hc.2 f hf, hres f hf⟩)
      intro fuel hf
      obtain ⟨n, rfl⟩ : ∃ n, fuel = n + 1 := ⟨fuel - 1, by omega⟩
      rw [drain_succ_congr _ _ _ _ (kv_next_commits_expand cfg b _ _ seen c0 c cs rs hs hc)]
      have hrows : kvRows cfg b.pool b.columns repo seen (c :: cs) ++ rest =
          c.files.map (fun f => kvOf cfg b.pool b.columns repo (c.TreeHash, f)) ++
            (kvRows cfg b.pool b.columns repo (c.TreeHash :: seen) cs ++ rest) := by
        simp [kvRows, expanded_full_cons_new _ _ _ hs]
      rw [hrows] at hf ⊢
      exact hd (n + 1) hf

theorem repo_commitObjects_of_errorFree (repo : Repository) (h : repo.ErrorFree repo.commits) :
    repo.CommitObjects = .ok { items := repo.commits, tail := none } := h.1

theorem kv_drains_repos (cfg : Config) (decoder : objectDecoder) (b : filesKeyValueIter)
    (hcols : ∀ col ∈ b.columns, col ∈ FilesSchema) (rs : List Repository)
    (hrs : ∀ r ∈ rs, Indexable b.pool decoder r) :
    ∀ (repo0 : Option Repository) (idx0 : Option repositoryIndex) (seen : List Hash)
      (c0 : Option Commit),
      KVDrainsTo cfg (b.during repo0 idx0 seen c0 none none rs)
        (rs.flatMap (fun r => kvRows cfg b.pool b.columns r [] r.commits)) := by
  induction rs with
  | nil =>
    intro repo0 idx0 seen c0 fuel hf
    obtain ⟨n, rfl⟩ : ∃ n, fuel = n + 1 := ⟨fuel - 1, by omega⟩
    have hn := kv_next_repos_nil cfg b repo0 idx0 seen c0
    cases hx : filesKeyValueIter.Next cfg (b.during repo0 idx0 seen c0 none none []) with
    | mk o s' =>
      rw [hx] at hn
      simp only at hn
      subst hn
      rw [drain_succ_err _ _ _ _ _ hx]
      exact ⟨rfl, rfl⟩
  | cons r rs ih =>
    have ih' := ih (fun x hx => hrs x (List.mem_cons_of_mem _ hx))
    obtain ⟨hef, hid, ⟨idx, hidx⟩, hres⟩ := hrs r (List.mem_cons_self _ _)
    intro repo0 idx0 seen c0
    have hd := kv_drains_commits cfg decoder b r idx rs _ hidx hid hcols
      (fun seen' => ih' (some r) (some idx) seen' none) r.commits
      (fun c hc => ⟨hef.2 c hc, hres c hc⟩) [] c0
    intro fuel hf
    obtain ⟨n, rfl⟩ : ∃ n, fuel = n + 1 := ⟨fuel - 1, by omega⟩
    rw [drain_succ_congr _ _ _ _ (kv_next_repos_start cfg b repo0 idx0 seen c0 r rs r.commits
      idx hef.1 hidx)]
    rw [List.flatMap_cons] at hf ⊢
    exact hd (n + 1) hf

/-! ## The index of the files table: round trip -/

theorem expanded_congr (i j : filesIter) (h : i.treeHashes = j.treeHashes) (cs : List Commit) :
    ∀ seen, expanded i seen cs = expanded j seen cs := by
  induction cs with
  | nil => intro seen; rfl
  | cons c cs ih =>
    intro seen
    have hv : filesIter.shouldVisitTree { i with seen := seen } c.TreeHash =
        filesIter.shouldVisitTree { j with seen := seen } c.TreeHash := by
      rw [Bool.eq_iff_iff, shouldVisitTree_iff, shouldVisitTree_iff, h]
    simp only [expanded, hv, ih]

theorem kvRows_eq_entries (cfg : Config) (pool : RepositoryPool) (columns : List Str)
    (repo : Repository) (cs : List Commit) :
    kvRows cfg pool columns repo [] cs = (entries cs).map (kvOf cfg pool columns repo) := by
  simp only [kvRows, entries, List.map_flatMap, List.map_map]
  rfl

theorem scanRows_eq_entries (cfg : Config) (repo : Repository) (rc : Bool) (cs : List Commit) :
    scanRows cfg repo.ID ((fullScan rc).bound repo) [] cs =
      (entries cs).map (fun e => fileRow cfg repo.ID rc e.1 e.2) := by
  have hrows : ∀ t fs, treeRows cfg repo.ID ((fullScan rc).bound repo) t fs =
      fs.map (fileRow cfg repo.ID rc t) :=
    fun t fs => treeRows_full cfg repo.ID _ t fs rfl rfl
  simp only [scanRows, entries, List.map_flatMap, List.map_map, hrows,
    expanded_congr ((fullScan rc).bound repo) (fullScan false) rfl cs []]
  rfl

theorem mem_entries (cs : List Commit) (e : Hash × File) (h : e ∈ entries cs) :
    ∃ c ∈ cs, e.1 = c.TreeHash ∧ e.2 ∈ c.files := by
  unfold entries at h
  obtain ⟨c, hc, he⟩ := List.mem_flatMap.mp h
  obtain ⟨f, hf, rfl⟩ := List.mem_map.mp he
  exact ⟨c, (expanded_sublist _ cs []).subset hc, rfl, hf⟩

/-- The index scan of the key that the build gives for a file entry of an
indexable repository returns the row of the entry. -/
theorem index_next_of_indexable (cfg : Config) (pool : RepositoryPool)
    (decoder : objectDecoder) (columns : List Str) (rc : Bool) (repo : Repository)
    (hr : Indexable pool decoder repo) (e : Hash × File) (he : e ∈ entries repo.commits) :
    (filesIndexIter.Next cfg
        (newFilesIndexIter (oneKey (kvOf cfg pool columns repo e).2) decoder rc)).1 =
      .ok (fileRow cfg repo.ID rc e.1 e.2) := by
  obtain ⟨hef, hid, _, hres⟩ := hr
  obtain ⟨c, hc, _, hf⟩ := mem_entries _ e he
  obtain ⟨idx, offset, packfile, hidx, hfind, ho, hat, hby, hn, hm⟩ := hres c hc e.2 hf
  obtain ⟨bs, hbs, hnext⟩ := index_next_entry cfg decoder repo rc e offset packfile hid ho hn hm
    hat hby ((hef.2 c hc).2 e.2 hf)
  have hkey : (kvOf cfg pool columns repo e).2 = bs := by
    simp only [kvOf, indexKeyOf, hidx, hfind, hbs]
  rw [hkey]
  exact hnext

/-- C10: for a pool of repositories that are read without error and whose files
the resolver returns at the location, or under the hash, that the pack offset
index gives, and for index columns of the files schema: the full scan of a
repository gives the rows of its file entries, `filesKeyValueIter` gives, in the
same order, a key for each file entry of each repository, and
`filesIndexIter.Next` over the one key of an entry, with the same `readContent`,
returns the row of that entry, equal in every column. -/
theorem files_index_roundtrip (cfg : Config) (pool : RepositoryPool) (decoder : objectDecoder)
    (rs : List Repository) (columns : List Str) (rc : Bool)
    (hpool : pool.RepoIter = .ok { items := rs, tail := none })
    (hrs : ∀ r ∈ rs, Indexable pool decoder r)
    (hcols : ∀ col ∈ columns, col ∈ FilesSchema) :
    ∃ kvIt : filesKeyValueIter, newFilesKeyValueIter pool columns = .ok kvIt ∧
      (∀ fuel, fuel > (rs.flatMap (fun r => (entries r.commits).map
            (kvOf cfg pool columns r))).length →
        (drain (filesKeyValueIter.Next cfg) fuel kvIt).1 =
            rs.flatMap (fun r => (entries r.commits).map (kvOf cfg pool columns r)) ∧
          (drain (filesKeyValueIter.Next cfg) fuel kvIt).2.1 = .stopped Err.eof) ∧
      ∀ r ∈ rs, ∃ it : filesIter, (fullScan rc).NewIterator r = .ok it ∧
        (∀ fuel, fuel > ((entries r.commits).map (fun e => fileRow cfg r.ID rc e.1 e.2)).length →
          (drain (filesIter.Next cfg) fuel it).1 =
              (entries r.commits).map (fun e => fileRow cfg r.ID rc e.1 e.2) ∧
            (drain (filesIter.Next cfg) fuel it).2.1 = .stopped Err.eof) ∧
        ∀ e ∈ entries r.commits,
          (filesIndexIter.Next cfg
              (newFilesIndexIter (oneKey (kvOf cfg pool columns r e).2) decoder rc)).1 =
            .ok (fileRow cfg r.ID rc e.1 e.2) := by
  have hnew : newFilesKeyValueIter pool columns =
      .ok { pool := pool, repo := none, repos := { items := rs, tail := none }, commits := none,
            files := none, commit := none, idx := none, columns := columns, seen := [] } := by
    simp only [newFilesKeyValueIter, hpool, bind, Except.bind, pure, Except.pure]
  refine ⟨_, hnew, ?_, ?_⟩
  · have hd := kv_drains_repos cfg decoder
      { pool := pool, repo := none, repos := { items := rs, tail := none }, commits := none,
        files := none, commit := none, idx := none, columns := columns, seen := [] }
      hcols rs hrs none none [] none
    have hrows : (rs.flatMap (fun r => kvRows cfg pool columns r [] r.commits)) =
        rs.flatMap (fun r => (entries r.commits).map (kvOf cfg pool columns r)) := by
      congr 1
      funext r
      exact kvRows_eq_entries cfg pool columns r r.commits
    intro fuel hf
    have := hd fuel (by rw [hrows]; exact hf)
    rw [hrows] at this
    exact this
  · intro r hr
    obtain ⟨hef, _, _, _⟩ := hrs r hr
    refine ⟨_, newIterator_selected (fullScan rc) r r.commits hef.1 (Or.inl rfl), ?_, ?_⟩
    · have hd := drains_commits cfg ((fullScan rc).bound r) r rfl r.commits hef.2 [] ZeroHash
      rw [scanRows_eq_entries] at hd
      intro fuel hf
      exact ⟨(hd fuel hf).1, (hd fuel hf).2.1⟩
    · intro e he
      exact index_next_of_indexable cfg pool decoder columns rc r (hrs r hr) e he

theorem sampleRepo_indexable : ∀ r ∈ [sampleRepo], Indexable samplePool sampleDecoder r := by
  intro r hr
  have hrs : r = sampleRepo := by simpa using hr
  subst hrs
  refine ⟨sampleRepo_errorFree, by decide, ⟨_, rfl⟩, ?_⟩
  intro c hc f hf
  have hcs : c = sampleCommit := by
    have : c ∈ [sampleCommit, sampleCommit] := hc
    simpa using this
  subst hcs
  have hfs : f = sampleFile := by simpa [Commit.files, sampleCommit] using hf
  subst hfs
  refine ⟨_, -1, ZeroHash, rfl, rfl, by decide, ?_, fun _ => rfl, by decide, by decide⟩
  intro h
  exact absurd h (by decide)

theorem sampleColumns_known : ∀ col ∈ [ascii "file_path"], col ∈ FilesSchema := by
  intro col hc
  have : col = ascii "file_path" := by simpa using hc
  subst this
  simp [FilesSchema]

/-- Witness of `files_index_roundtrip`: the pool with the sample repository, all
of whose objects are loose, indexed on `file_path`. -/
theorem files_index_roundtrip_witness :
    samplePool.RepoIter = .ok { items := [sampleRepo], tail := none } ∧
    (∀ r ∈ [sampleRepo], Indexable samplePool sampleDecoder r) ∧
    (∀ col ∈ [ascii "file_path"], col ∈ FilesSchema) ∧
    ∃ kvIt : filesKeyValueIter,
      newFilesKeyValueIter samplePool [ascii "file_path"] = .ok kvIt ∧
      (∀ fuel, fuel > ([sampleRepo].flatMap (fun r => (entries r.commits).map
            (kvOf sampleConfig samplePool [ascii "file_path"] r))).length →
        (drain (filesKeyValueIter.Next sampleConfig) fuel kvIt).1 =
            [sampleRepo].flatMap (fun r => (entries r.commits).map
              (kvOf sampleConfig samplePool [ascii "file_path"] r)) ∧
          (drain (filesKeyValueIter.Next sampleConfig) fuel kvIt).2.1 = .stopped Err.eof) ∧
      ∀ r ∈ [sampleRepo], ∃ it : filesIter, (fullScan true).NewIterator r = .ok it ∧
        (∀ fuel, fuel > ((entries r.commits).map
              (fun e => fileRow sampleConfig r.ID true e.1 e.2)).length →
          (drain (filesIter.Next sampleConfig) fuel it).1 =
              (entries r.commits).map (fun e => fileRow sampleConfig r.ID true e.1 e.2) ∧
            (drain (filesIter.Next sampleConfig) fuel it).2.1 = .stopped Err.eof) ∧
        ∀ e ∈ entries r.commits,
          (filesIndexIter.Next sampleConfig
              (newFilesIndexIter
                (oneKey (kvOf sampleConfig samplePool [ascii "file_path"] r e).2)
                sampleDecoder true)).1 =
            .ok (fileRow sampleConfig r.ID true e.1 e.2) :=
  ⟨rfl, sampleRepo_indexable, sampleColumns_known,
    files_index_roundtrip sampleConfig samplePool sampleDecoder [sampleRepo]
      [ascii "file_path"] true rfl sampleRepo_indexable sampleColumns_known⟩

/-! ## The projection -/

/-- After the walk of an expression, `found` tells whether the expression itself
is the field reference `blob_content`: every later visit, and the visit of nil
that ends the children, assigns `found` again. -/
theorem Walk_eq (e : Expression) (found : Bool) : Walk e found = isContentField (some e) := by
  cases e with
  | getField name =>
    unfold Walk
    split
    · rename_i h; rw [h]
    · rename_i h
      have : isContentField (some (Expression.getField name)) = false := by simpa using h
      rw [this]; rfl
  | node children =>
    unfold Walk
    rfl

theorem shouldReadContent_eq (columns : List Expression) :
    shouldReadContent columns = columns.any (fun e => isContentField (some e)) := by
  induction columns with
  | nil => rfl
  | cons e columns ih =>
    unfold shouldReadContent Inspect
    rw [Walk_eq, List.any_cons, ih]
    cases isContentField (some e) <;> simp

/-- C11 fails on the code: a projection whose one expression holds the field
reference `blob_content` inside a larger expression uses the content column, and
`shouldReadContent` returns false for it, with one child or with two; it returns
true when the field reference is itself an expression of the projection. -/
theorem shouldReadContent_misses_nested_field :
    lengthOfContent.usesContent = true ∧ shouldReadContent [lengthOfContent] = false ∧
    concatOfContent.usesContent = true ∧ shouldReadContent [concatOfContent] = false ∧
    shouldReadContent [contentField] = true := by
  refine ⟨?_, ?_, ?_, ?_, ?_⟩
  · simp [lengthOfContent, contentField, Expression.usesContent, Expression.anyUsesContent]
  · rw [shouldReadContent_eq]; rfl
  · simp [concatOfContent, contentField, Expression.usesContent, Expression.anyUsesContent]
  · rw [shouldReadContent_eq]; rfl
  · rw [shouldReadContent_eq]
    simp [contentField, isContentField]

/-! ## The index scans: closing the index cursor on an error -/

/-- C12 fails on the code: `filesIndexIter.Next` and `blobsIndexIter.Next` return
the error of malformed key bytes, of a resolved object that is not a blob, and of
a row whose content cannot be read, and leave the index cursor open; they close
it when the index cursor or the resolver fails. -/
theorem index_next_leaves_cursor_open :
    ((filesIndexIter.Next sampleConfig (newFilesIndexIter (oneKey []) sampleDecoder true)).1 =
        .err Err.decoding ∧
      (filesIndexIter.Next sampleConfig
        (newFilesIndexIter (oneKey []) sampleDecoder true)).2.index.closed = false) ∧
    ((blobsIndexIter.Next sampleConfig (newBlobsIndexIter (oneKey []) sampleDecoder true)).1 =
        .err Err.decoding ∧
      (blobsIndexIter.Next sampleConfig
        (newBlobsIndexIter (oneKey []) sampleDecoder true)).2.index.closed = false) ∧
    ((filesIndexIter.Next sampleConfig
        (newFilesIndexIter (oneKey sampleFileKeyBytes) otherDecoder true)).1 =
        .err Err.invalidObjectType ∧
      (filesIndexIter.Next sampleConfig
        (newFilesIndexIter (oneKey sampleFileKeyBytes) otherDecoder true)).2.index.closed =
        false) ∧
    ((blobsIndexIter.Next sampleConfig
        (newBlobsIndexIter (oneKey sampleBlobKeyBytes) otherDecoder true)).1 =
        .err Err.invalidObjectType ∧
      (blobsIndexIter.Next sampleConfig
        (newBlobsIndexIter (oneKey sampleBlobKeyBytes) otherDecoder true)).2.index.closed =
        false) ∧
    ((filesIndexIter.Next sampleConfig
        (newFilesIndexIter (oneKey sampleFileKeyBytes) unreadableDecoder true)).1 =
        .err (Err.io 5) ∧
      (filesIndexIter.Next sampleConfig
        (newFilesIndexIter (oneKey sampleFileKeyBytes) unreadableDecoder true)).2.index.closed =
        false) ∧
    ((blobsIndexIter.Next sampleConfig
        (newBlobsIndexIter (oneKey sampleBlobKeyBytes) unreadableDecoder true)).1 =
        .err (Err.io 5) ∧
      (blobsIndexIter.Next sampleConfig
        (newBlobsIndexIter (oneKey sampleBlobKeyBytes) unreadableDecoder true)).2.index.closed =
        false) ∧
    ((filesIndexIter.Next sampleConfig
        (newFilesIndexIter (oneKey sampleFileKeyBytes) failingDecoder true)).1 =
        .err (Err.io 7) ∧
      (filesIndexIter.Next sampleConfig
        (newFilesIndexIter (oneKey sampleFileKeyBytes) failingDecoder true)).2.index.closed =
        true) ∧
    ((blobsIndexIter.Next sampleConfig
        (newBlobsIndexIter failingIndex sampleDecoder true)).1 = .err (Err.io 9) ∧
      (blobsIndexIter.Next sampleConfig
        (newBlobsIndexIter failingIndex sampleDecoder true)).2.index.closed = true) := by
  set_option maxRecDepth 100000 in
  refine ⟨⟨?_, ?_⟩, ⟨?_, ?_⟩, ⟨?_, ?_⟩, ⟨?_, ?_⟩, ⟨?_, ?_⟩, ⟨?_, ?_⟩, ⟨?_, ?_⟩, ⟨?_, ?_⟩⟩ <;> decide

end Gitbase
